import Mathlib

/-!
# Schema comparison of `AkifSahn/migrator`

A shallow embedding of `schema/schema.go`: the schema data model, the column
and table comparator `Table.CompareWith`, and the operation prioritizer
`SortMigrationsByOperationPriority`; of `query.go`: the functions that render
SQL statements; of `migrator.go`: `createColumnMigrations`,
`CreateMigration`, `MigrateAndSave` and `parseStructField`; and of package
`utils`: `Pluralize`, `ToSnakeCase`, `ToMysqlName` and `ToMysqlDataType`;
followed by the properties proved about them.

Conventions of the embedding

* A Go slice is a `List`; `[]*Column` is a list of column values.
* The Go map `IndexToUniqueCols` is an association list whose order stands
  for the order in which one `range` statement visits the map; a Go map
  holds every key once, which is the predicate `UniqueKeys`.
* The package-level map `renamedColumns` is threaded explicitly as a
  `RenameMap`.
* `strings.ToLower` of the Go standard library is a parameter `lower` of the
  definitions that call it; `asciiLower` instantiates it on concrete inputs.
* A run-time panic is an `Except.error`, and so is the process exit of
  `log.Fatalf`.
* Text written to a `strings.Builder` is a `String` that grows by `++`;
  `strings.ToUpper` is a parameter `upper` (`asciiUpper` on concrete inputs).
* What the database and the reflection over the target models deliver
  (`m.GetTables()`, `ParseTablesFromStructs`, `fmt.Scan`) is an argument of the
  function that reads it.
* The repository has no code that applies operations to a table; `applyMigrations`,
  `columnsEqual` and `StructurallyEqual` are modelled from the specification.
-/

namespace schema

/-! ## Data model -/

/-- The operation kinds, in the order of the `iota` block of `schema.go`. -/
inductive ColumnOperation
  | DROP_FOREIGN_KEY
  | DROP_UNIQUE_INDEX
  | DROP_COLUMN
  | RENAME_COLUMN
  | MODIFY_COLUMN
  | ADD_COLUMN
  | UPDATE_FOREIGN_KEY
  | ADD_FOREIGN_KEY
  | ADD_UNIQUE_INDEX
  deriving DecidableEq, Repr

/-- The integer value of an operation kind (`int(op)`), as assigned by `iota`. -/
def ColumnOperation.toInt : ColumnOperation → Int
  | .DROP_FOREIGN_KEY => 0
  | .DROP_UNIQUE_INDEX => 1
  | .DROP_COLUMN => 2
  | .RENAME_COLUMN => 3
  | .MODIFY_COLUMN => 4
  | .ADD_COLUMN => 5
  | .UPDATE_FOREIGN_KEY => 6
  | .ADD_FOREIGN_KEY => 7
  | .ADD_UNIQUE_INDEX => 8

/-- The type `ReferenceOption` is a Go string type. -/
abbrev ReferenceOption := String

def RESTRICT_OPTION : ReferenceOption := "RESTRICT"
def CASCADE_OPTION : ReferenceOption := "CASCADE"
def SET_NULL_OPTION : ReferenceOption := "SET NULL"
def NO_ACTION_OPTION : ReferenceOption := "NO ACTION"
def SET_DEFAULT_OPTION : ReferenceOption := "SET DEFAULT"

structure Reference where
  TableName : String := ""
  ColumnName : String := ""
  ReferencedTableName : String := ""
  ReferencedColumnName : String := ""
  DeleteOption : ReferenceOption := ""
  UpdateOption : ReferenceOption := ""
  IsUnique : Bool := false
  deriving DecidableEq, Repr

/-- The value type `sql.NullString`: a string and the flag telling whether it is set. -/
structure NullString where
  String : String := ""
  Valid : Bool := false
  deriving DecidableEq, Repr

structure Column where
  TableName : String := ""
  Name : String := ""
  ColumnType : String := ""
  Null : String := ""
  PrimaryKey : Bool := false
  ForeignKey : Bool := false
  UniqueIndex : Bool := false
  DefaultValue : NullString := {}
  Extra : String := ""
  deriving DecidableEq, Repr

structure Table where
  Name : String := ""
  Columns : List Column := []
  References : List Reference := []
  IndexToUniqueCols : List (String × List String) := []
  PrimaryCols : List String := []
  deriving DecidableEq, Repr

/-- The values an `interface{}` payload of a migration holds in this package. -/
inductive Payload
  | nil
  | column (c : Column)
  | reference (r : Reference)
  | str (s : String)
  | strs (l : List String)
  deriving DecidableEq, Repr

structure ColumnMigration where
  ApplyOn : Payload
  Old : Payload
  Operation : ColumnOperation
  deriving DecidableEq, Repr

def NewColumnMigration (applyOn old : Payload) (operation : ColumnOperation) :
    ColumnMigration :=
  { ApplyOn := applyOn, Operation := operation, Old := old }

/-- The run-time panics the comparator can raise. -/
inductive Panic
  | nilDereference
  | indexOutOfRange
  | sliceBoundsOutOfRange
  deriving DecidableEq, Repr

/-- The contents of the package-level map `renamedColumns` (old name to new name);
an assignment `renamedColumns[k] = v` puts `(k, v)` in front. -/
abbrev RenameMap := List (String × String)

/-- The map read `renamedColumns[k]`: the zero value `""` when the key is missing. -/
def RenameMap.get (m : RenameMap) (k : String) : String :=
  match m with
  | [] => ""
  | (k', v) :: rest => if k' = k then v else RenameMap.get rest k

/-- A Go map holds each key once. -/
def UniqueKeys (m : List (String × List String)) : Prop :=
  (m.map Prod.fst).Nodup

instance (m : List (String × List String)) : Decidable (UniqueKeys m) := by
  unfold UniqueKeys; infer_instance

/-- The map read `m[k]` with its presence flag. -/
def mapLookup (m : List (String × List String)) (k : String) : Option (List String) :=
  match m with
  | [] => none
  | (k', v) :: rest => if k' = k then some v else mapLookup rest k

/-- An ASCII instance of `strings.ToLower`, with which the comparator is evaluated
on concrete inputs. -/
def asciiLower (s : String) : String :=
  String.mk (s.data.map Char.toLower)

/-! ## Columns -/

/-- The method `Column.Equals`. -/
def Column.Equals (lower : String → String) (c col : Column) : Bool :=
  if lower c.Name != lower col.Name ||
      lower c.ColumnType != lower col.ColumnType ||
      lower c.Null != lower col.Null ||
      lower c.Extra != lower col.Extra ||
      (c.DefaultValue.Valid != col.DefaultValue.Valid &&
        c.DefaultValue.String != col.DefaultValue.String) then
    false
  else
    true

/-- The method `Column.ComparePrimary`. -/
def Column.ComparePrimary (c col : Column) : Int :=
  if c.PrimaryKey == col.PrimaryKey then 0
  else if !c.PrimaryKey && col.PrimaryKey then 1
  else -1

/-! ## Tables -/

/-- The method `Table.GetPrimaryKeyColumn`; `none` is the nil pointer. -/
def Table.GetPrimaryKeyColumn (t : Table) : Option Column :=
  t.Columns.find? (fun c => c.PrimaryKey)

/-- The loop of `Table.HasColumn` over the columns from position `i` on. -/
def hasColumnFrom (renamedColumns : RenameMap) (col : Column) :
    List Column → Nat → Option Nat
  | [], _ => none
  | c :: cs, i =>
    if ((c.Name == col.Name) || (renamedColumns.get c.Name == col.Name)) &&
        (c.PrimaryKey == col.PrimaryKey) then
      some i
    else
      hasColumnFrom renamedColumns col cs (i + 1)

/-- The method `Table.HasColumn`, reading the rename map: `some i` is the result
`(true, i)` and `none` is `(false, -1)`. -/
def Table.HasColumn (t : Table) (renamedColumns : RenameMap) (col : Column) : Option Nat :=
  hasColumnFrom renamedColumns col t.Columns 0

/-- The method `Table.CompareUniqueIndex`. -/
def Table.CompareUniqueIndex (t : Table) (indexName : String) (colsCompare : List String) :
    Int :=
  match mapLookup t.IndexToUniqueCols indexName with
  | none => 1
  | some cols => if !(cols == colsCompare) then 1 else 0

/-- The relation test both foreign-key loops of `CompareWith` pass to
`slices.ContainsFunc` and `slices.IndexFunc`. -/
def sameRelation (r1 r2 : Reference) : Bool :=
  r1.TableName == r2.TableName &&
    r1.ColumnName == r2.ColumnName &&
    r1.ReferencedTableName == r2.ReferencedTableName &&
    r1.ReferencedColumnName == r2.ReferencedColumnName

/-- The library function `slices.IndexFunc`; `none` is the result `-1`. -/
def indexFunc {α : Type} (p : α → Bool) : List α → Option Nat
  | [] => none
  | x :: xs => if p x then some 0 else (indexFunc p xs).map (· + 1)

/-- First loop of `CompareWith` ("Check for dropped columns") over the remaining
source columns: the migrations it appends and the rename map it leaves. The slice
`droppedColumns`, which the loop fills and nothing reads, is left out. -/
def checkDropped (dst : Table) :
    List Column → RenameMap → Except Panic (List ColumnMigration × RenameMap)
  | [], renamedColumns => .ok ([], renamedColumns)
  | col :: rest, renamedColumns =>
    match dst.HasColumn renamedColumns col with
    | some _ => checkDropped dst rest renamedColumns
    | none =>
      if col.PrimaryKey then
        match dst.GetPrimaryKeyColumn with
        | none => .error Panic.nilDereference
        | some pk =>
          match checkDropped dst rest ((col.Name, pk.Name) :: renamedColumns) with
          | .error e => .error e
          | .ok (ms, r) =>
            .ok (NewColumnMigration (.column pk) (.column col) .RENAME_COLUMN :: ms, r)
      else
        match checkDropped dst rest renamedColumns with
        | .error e => .error e
        | .ok (ms, r) =>
          .ok (NewColumnMigration (.column col) .nil .DROP_COLUMN :: ms, r)

/-- Second loop of `CompareWith` ("Check for new columns") over the remaining
target columns. -/
def checkNew (lower : String → String) (t : Table) (renamedColumns : RenameMap) :
    List Column → Except Panic (List ColumnMigration)
  | [] => .ok []
  | col :: rest =>
    match t.HasColumn renamedColumns col with
    | none =>
      if !col.PrimaryKey then
        match checkNew lower t renamedColumns rest with
        | .error e => .error e
        | .ok ms => .ok (NewColumnMigration (.column col) .nil .ADD_COLUMN :: ms)
      else
        checkNew lower t renamedColumns rest
    | some i =>
      match t.Columns[i]? with
      | none => .error Panic.indexOutOfRange
      | some old =>
        if !col.Equals lower old then
          match checkNew lower t renamedColumns rest with
          | .error e => .error e
          | .ok ms => .ok (NewColumnMigration (.column col) (.column old) .MODIFY_COLUMN :: ms)
        else
          checkNew lower t renamedColumns rest

/-- Third and fourth loop of `CompareWith`: the entries of `entries` that `other`
lacks or maps to other columns, each index name once, emitted as operation `op`;
`seen` is `createdIndexes` (or `droppedIndexes`). -/
def checkIndexes (other : Table) (op : ColumnOperation) :
    List (String × List String) → List String → List ColumnMigration
  | [], _ => []
  | (uIndex, uCols) :: rest, seen =>
    if seen.contains uIndex then
      checkIndexes other op rest seen
    else if other.CompareUniqueIndex uIndex uCols == 1 then
      NewColumnMigration (.str uIndex) (.strs uCols) op ::
        checkIndexes other op rest (seen ++ [uIndex])
    else
      checkIndexes other op rest seen

/-- Fifth loop of `CompareWith` ("Check dropped foreign key"). -/
def checkDroppedReferences (dst : Table) : List Reference → List ColumnMigration
  | [] => []
  | r1 :: rest =>
    if !(dst.References.any (fun r2 => sameRelation r1 r2)) then
      NewColumnMigration (.reference r1) .nil .DROP_FOREIGN_KEY ::
        checkDroppedReferences dst rest
    else
      checkDroppedReferences dst rest

/-- Sixth loop of `CompareWith` ("Check new foreign keys"). -/
def checkNewReferences (t : Table) : List Reference → Except Panic (List ColumnMigration)
  | [] => .ok []
  | r1 :: rest =>
    match indexFunc (fun r2 => sameRelation r1 r2) t.References with
    | none =>
      match checkNewReferences t rest with
      | .error e => .error e
      | .ok ms => .ok (NewColumnMigration (.reference r1) .nil .ADD_FOREIGN_KEY :: ms)
    | some index =>
      match t.References[index]? with
      | none => .error Panic.indexOutOfRange
      | some old =>
        if old.UpdateOption != r1.UpdateOption || old.DeleteOption != r1.DeleteOption then
          match checkNewReferences t rest with
          | .error e => .error e
          | .ok ms =>
            .ok (NewColumnMigration (.reference r1) (.reference old) .UPDATE_FOREIGN_KEY :: ms)
        else
          checkNewReferences t rest

/-- The method `Table.CompareWith` as a state transformer on the package-level
rename map: the returned migrations and the map left behind. The prior contents
of the map are discarded by `clear(renamedColumns)`. -/
def Table.CompareWithState (lower : String → String) (t dst : Table)
    (_renamedColumns : RenameMap) : Except Panic (List ColumnMigration × RenameMap) :=
  match checkDropped dst t.Columns [] with
  | .error e => .error e
  | .ok (dropped, renamedColumns) =>
    match checkNew lower t renamedColumns dst.Columns with
    | .error e => .error e
    | .ok added =>
      match checkNewReferences t dst.References with
      | .error e => .error e
      | .ok newReferences =>
        .ok (dropped ++ added ++
              checkIndexes t .ADD_UNIQUE_INDEX dst.IndexToUniqueCols [] ++
              checkIndexes dst .DROP_UNIQUE_INDEX t.IndexToUniqueCols [] ++
              checkDroppedReferences dst t.References ++
              newReferences,
            renamedColumns)

/-- The slice `Table.CompareWith` returns, for any prior contents of the rename map. -/
def Table.CompareWith (lower : String → String) (t dst : Table)
    (renamedColumns : RenameMap) : Except Panic (List ColumnMigration) :=
  match Table.CompareWithState lower t dst renamedColumns with
  | .error e => .error e
  | .ok (ms, _) => .ok ms

/-! ## Operation prioritizer -/

/-- The comparison function handed to `slices.SortStableFunc`. -/
def cmpOperation (a b : ColumnMigration) : Int :=
  a.Operation.toInt - b.Operation.toInt

/-- Stable insertion of `m`, which stood before all of the sorted list: `m` goes
behind the elements that compare strictly smaller and before the others. -/
def insertStable (m : ColumnMigration) : List ColumnMigration → List ColumnMigration
  | [] => [m]
  | x :: xs => if cmpOperation x m < 0 then x :: insertStable m xs else m :: x :: xs

/-- The function `SortMigrationsByOperationPriority`: the stable sort of the slice
by `cmpOperation`, computed by insertion (a stable sort has one result). -/
def SortMigrationsByOperationPriority : List ColumnMigration → List ColumnMigration
  | [] => []
  | m :: ms => insertStable m (SortMigrationsByOperationPriority ms)

/-! ## Statement rendering (`query.go`)

The functions of package `migrator` that render SQL text. `fmt.Sprintf` with `%s`
verbs is the concatenation of the pieces, a `strings.Builder` is the text written so
far, and `strings.ToUpper` is a parameter `upper`. -/

/-- The ways a call ends without a result: a panic of the comparator, the exit of
the process by `log.Fatalf` (with the message it logs), a failed type assertion on a
payload. -/
inductive Abort
  | panicked (p : Panic)
  | fatal (message : String)
  | typeAssertion
  deriving DecidableEq, Repr

/-- The upper-casing used on concrete inputs. -/
def asciiUpper (s : String) : String :=
  String.mk (s.data.map Char.toUpper)

/-- The loop that writes the names with `", "` after each but the last. -/
def writeNames : List String → String
  | [] => ""
  | [name] => name
  | name :: rest => name ++ ", " ++ writeNames rest

def DropTableQuery (t : Table) : String :=
  "DROP TABLE IF EXISTS " ++ t.Name ++ ";\n"

/-- What one pass of the column loop of `CreateTableQuery` writes before the
separator. -/
def columnDefinition (c : Column) : String :=
  "\t" ++ c.Name ++ " " ++ c.ColumnType ++
    (if c.Null = "NO" then " NOT NULL" else "") ++
    (if c.Extra ≠ "" then " " ++ c.Extra else "") ++
    (if c.DefaultValue.Valid then " " ++ "DEFAULT " ++ c.DefaultValue.String else "")

/-- The column loop of `CreateTableQuery`: `",\n"` after each column but the last. -/
def writeColumns : List Column → String
  | [] => ""
  | [c] => columnDefinition c
  | c :: rest => columnDefinition c ++ ",\n" ++ writeColumns rest

/-- The loop of `CreateTableQuery` over the unique-index map. -/
def writeUniqueConstraints : List (String × List String) → String
  | [] => ""
  | (iName, cols) :: rest =>
    "," ++ "\n\tCONSTRAINT `uc." ++ iName ++ "` UNIQUE (" ++ writeNames cols ++ ")" ++
      writeUniqueConstraints rest

/-- What one pass of the reference loop of `CreateTableQuery` writes before the
separator. -/
def referenceClause (reference : Reference) : String :=
  "\n\tCONSTRAINT `fk." ++ reference.TableName ++ "." ++ reference.ColumnName ++
    "` FOREIGN KEY (" ++ reference.ColumnName ++ ")" ++
    " REFERENCES " ++ reference.ReferencedTableName ++ "(" ++
    reference.ReferencedColumnName ++ ") ON DELETE " ++ reference.DeleteOption ++
    " ON UPDATE " ++ reference.UpdateOption

/-- The reference loop of `CreateTableQuery`: `","` after each reference but the
last. -/
def writeReferences : List Reference → String
  | [] => ""
  | [reference] => referenceClause reference
  | reference :: rest => referenceClause reference ++ "," ++ writeReferences rest

def CreateTableQuery (t : Table) : String :=
  "CREATE TABLE " ++ t.Name ++ " (\n" ++ writeColumns t.Columns ++
    "," ++ "\n\tPRIMARY KEY (" ++ writeNames t.PrimaryCols ++ ")" ++
    writeUniqueConstraints t.IndexToUniqueCols ++
    (if t.References.length > 0 then "," ++ writeReferences t.References else "") ++
    "\n);\n"

def AddColumnQuery (upper : String → String) (t : Table) (c : Column) : String :=
  "ALTER TABLE " ++ t.Name ++ "\n\t" ++
    "ADD COLUMN " ++ c.Name ++ " " ++ upper c.ColumnType ++
    (if c.PrimaryKey then " PRIMARY KEY" else if c.Null = "NO" then " NOT NULL" else "") ++
    (if c.Extra ≠ "" then " " ++ c.Extra else "") ++
    (if c.DefaultValue.Valid then " " ++ "DEFAULT " ++ c.DefaultValue.String else "") ++
    (if !c.PrimaryKey && c.UniqueIndex then
      ",\n\tADD CONSTRAINT `uc." ++ t.Name ++ "." ++ c.Name ++ "` UNIQUE (" ++ c.Name ++ ")"
    else "") ++
    ";\n"

/-- The function `DropColumnQuery`: `log.Fatalf` ends the process when the column is
a primary key, before any text is returned. -/
def DropColumnQuery (t : Table) (c : Column) : Except Abort String :=
  if c.PrimaryKey then
    .error (.fatal ("Cannot drop a primary key. " ++ t.Name ++ "." ++ c.Name))
  else
    .ok ("ALTER TABLE " ++ t.Name ++ "\n\t" ++ "DROP COLUMN " ++ c.Name ++ ";\n")

def ModifyColumnQuery (upper : String → String) (t : Table) (c : Column) : String :=
  "ALTER TABLE " ++ t.Name ++ "\n\t" ++
    "MODIFY COLUMN " ++ c.Name ++ " " ++ upper c.ColumnType ++
    (if c.Null = "NO" && !c.PrimaryKey then " NOT NULL" else "") ++
    (if c.Extra ≠ "" then " " ++ c.Extra else "") ++
    (if c.DefaultValue.Valid then " " ++ "DEFAULT " ++ c.DefaultValue.String else "") ++
    ";\n"

def RenameColumnQuery (t : Table) (newCol oldColumn : Column) : String :=
  "ALTER TABLE " ++ t.Name ++ "\n\t" ++
    "RENAME COLUMN " ++ oldColumn.Name ++ " TO " ++ newCol.Name ++ ";\n"

def AddReferenceQuery (reference : Reference) : String :=
  "ALTER TABLE " ++ reference.TableName ++ "\n\t" ++
    "ADD CONSTRAINT `fk." ++ reference.TableName ++ "." ++ reference.ColumnName ++
    "` FOREIGN KEY (" ++ reference.ColumnName ++ ") REFERENCES " ++
    reference.ReferencedTableName ++ "(" ++ reference.ReferencedColumnName ++
    ") ON DELETE " ++ reference.DeleteOption ++ " ON UPDATE " ++ reference.UpdateOption ++
    ";\n"

def DropReferenceQuery (reference : Reference) : String :=
  "ALTER TABLE " ++ reference.TableName ++ "\n\t" ++
    "DROP CONSTRAINT `fk." ++ reference.TableName ++ "." ++ reference.ColumnName ++
    "`,\n\t" ++
    "DROP INDEX `fk." ++ reference.TableName ++ "." ++ reference.ColumnName ++ "`;\n"

def AddUniqueIndexQuery (table : Table) (indexName : String) (colNames : List String) :
    String :=
  "ALTER TABLE " ++ table.Name ++ "\n\t" ++
    "ADD CONSTRAINT `uc." ++ indexName ++ "` UNIQUE (" ++ writeNames colNames ++ ");\n"

/-- The reference `table.References[referenceIndex]` the two loops of
`DropUniqueIndexQuery` pick for a column name: the first one on that column, none
when `slices.IndexFunc` returns `-1`. -/
def referenceOn (table : Table) (colName : String) : Option Reference :=
  table.References.find? (fun r => r.ColumnName == colName)

/-- The two loops of `DropUniqueIndexQuery` over the column names, writing
`query` of the reference of each column that has one. -/
def writeEntangled (query : Reference → String) (table : Table) : List String → String
  | [] => ""
  | colName :: rest =>
    (match referenceOn table colName with
      | some reference => query reference
      | none => "") ++ writeEntangled query table rest

/-- The comment line `DropUniqueIndexQuery` writes first when the index has columns. -/
def dropUniqueNotice : String :=
  "\n-- Removing unique constraint from a foreign key requires dropping and then " ++
    "adding back the foreign key!\n"

def DropUniqueIndexQuery (table : Table) (indexName : String) (colNames : List String) :
    String :=
  (if colNames.length > 0 then dropUniqueNotice else "") ++
    writeEntangled DropReferenceQuery table colNames ++
    "ALTER TABLE " ++ table.Name ++ "\n\t" ++
    "DROP CONSTRAINT `uc." ++ indexName ++ "`;\n" ++
    writeEntangled AddReferenceQuery table colNames

/-! ## Script assembly (`migrator.go`) -/

/-- The text one pass of the `switch` of `createColumnMigrations` writes for a
migration; a payload of another type than the asserted one is a failed assertion. -/
def migrationQuery (upper : String → String) (table : Table) (migration : ColumnMigration) :
    Except Abort String :=
  match migration.Operation with
  | .ADD_COLUMN =>
    match migration.ApplyOn with
    | .column c => .ok (AddColumnQuery upper table c)
    | _ => .error .typeAssertion
  | .DROP_COLUMN =>
    match migration.ApplyOn with
    | .column c => DropColumnQuery table c
    | _ => .error .typeAssertion
  | .MODIFY_COLUMN =>
    match migration.ApplyOn with
    | .column c => .ok (ModifyColumnQuery upper table c)
    | _ => .error .typeAssertion
  | .RENAME_COLUMN =>
    match migration.ApplyOn, migration.Old with
    | .column newCol, .column oldColumn => .ok (RenameColumnQuery table newCol oldColumn)
    | _, _ => .error .typeAssertion
  | .ADD_FOREIGN_KEY =>
    match migration.ApplyOn with
    | .reference r => .ok (AddReferenceQuery r)
    | _ => .error .typeAssertion
  | .DROP_FOREIGN_KEY =>
    match migration.ApplyOn with
    | .reference r => .ok (DropReferenceQuery r)
    | _ => .error .typeAssertion
  | .UPDATE_FOREIGN_KEY =>
    match migration.Old, migration.ApplyOn with
    | .reference old, .reference r => .ok (DropReferenceQuery old ++ AddReferenceQuery r)
    | _, _ => .error .typeAssertion
  | .ADD_UNIQUE_INDEX =>
    match migration.ApplyOn, migration.Old with
    | .str indexName, .strs colNames => .ok (AddUniqueIndexQuery table indexName colNames)
    | _, _ => .error .typeAssertion
  | .DROP_UNIQUE_INDEX =>
    match migration.ApplyOn, migration.Old with
    | .str indexName, .strs colNames => .ok (DropUniqueIndexQuery table indexName colNames)
    | _, _ => .error .typeAssertion

/-- The function `createColumnMigrations`: the builder `sb` after the statements of
the migrations have been written to it, in the order of the slice. -/
def createColumnMigrations (upper : String → String) :
    List ColumnMigration → Table → String → Except Abort String
  | [], _, sb => .ok sb
  | migration :: rest, table, sb =>
    match migrationQuery upper table migration with
    | .error e => .error e
    | .ok query => createColumnMigrations upper rest table (sb ++ query)

structure TablePair where
  First : Option Table
  Second : Option Table
  deriving Repr

/-- The map read `alteredTables[k]`; an assignment puts its entry in front. -/
def pairLookup (alteredTables : List (String × TablePair)) (k : String) : Option TablePair :=
  match alteredTables with
  | [] => none
  | (k', v) :: rest => if k' = k then some v else pairLookup rest k

/-- The first loop of `CreateMigration` ("Figure out new tables"), on the triple
`newTables`, `alteredTables`, `alteredTablesOrder`. -/
def figureNewTables (dbTables : List Table) :
    List Table → List Table × List (String × TablePair) × List String →
      List Table × List (String × TablePair) × List String
  | [], state => state
  | modelTable :: rest, (newTables, alteredTables, alteredTablesOrder) =>
    if !dbTables.any (fun n => n.Name == modelTable.Name) then
      figureNewTables dbTables rest (newTables ++ [modelTable], alteredTables, alteredTablesOrder)
    else
      figureNewTables dbTables rest
        (newTables,
          (modelTable.Name, { First := none, Second := some modelTable }) :: alteredTables,
          alteredTablesOrder ++ [modelTable.Name])

/-- The second loop of `CreateMigration` ("Figure out deleted tables"), on the pair
`deletedTables`, `alteredTables`; writing `First` through a missing map entry is a nil
dereference. -/
def figureDeletedTables (dst : List Table) :
    List Table → List Table × List (String × TablePair) →
      Except Abort (List Table × List (String × TablePair))
  | [], state => .ok state
  | dbTable :: rest, (deletedTables, alteredTables) =>
    if !dst.any (fun n => n.Name == dbTable.Name) then
      figureDeletedTables dst rest (deletedTables ++ [dbTable], alteredTables)
    else
      match pairLookup alteredTables dbTable.Name with
      | none => .error (.panicked .nilDereference)
      | some pair =>
        figureDeletedTables dst rest
          (deletedTables, (dbTable.Name, { pair with First := some dbTable }) :: alteredTables)

/-- A loop that writes `query t` to the builder for each table of the slice. -/
def writeTables (query : Table → String) : List Table → String → String
  | [], sb => sb
  | t :: rest, sb => writeTables query rest (sb ++ query t)

/-- What one comparison of `CreateMigration` does for a pair: both comparisons (each
one leaving the package-level rename map behind), both sorts, both renderings. -/
def comparePair (lower upper : String → String) (first second : Table)
    (state : String × String × RenameMap) : Except Abort (String × String × RenameMap) :=
  match first.CompareWithState lower second state.2.2 with
  | .error e => .error (.panicked e)
  | .ok (upMigrations, renamedColumns) =>
    match second.CompareWithState lower first renamedColumns with
    | .error e => .error (.panicked e)
    | .ok (downMigrations, renamedColumns) =>
      match createColumnMigrations upper (SortMigrationsByOperationPriority upMigrations)
          first state.1 with
      | .error e => .error e
      | .ok sbUp =>
        match createColumnMigrations upper
            (SortMigrationsByOperationPriority downMigrations) second state.2.1 with
        | .error e => .error e
        | .ok sbDown => .ok (sbUp, sbDown, renamedColumns)

/-- The loop of `CreateMigration` over `alteredTablesOrder`, on the two builders and
the rename map; a missing pair or a nil side is a nil dereference. -/
def compareAltered (lower upper : String → String)
    (alteredTables : List (String × TablePair)) :
    List String → String × String × RenameMap → Except Abort (String × String × RenameMap)
  | [], state => .ok state
  | i :: rest, state =>
    match pairLookup alteredTables i with
    | some { First := some first, Second := some second } =>
      match comparePair lower upper first second state with
      | .error e => .error e
      | .ok state => compareAltered lower upper alteredTables rest state
    | _ => .error (.panicked .nilDereference)

/-- The method `CreateMigration`: the up and the down script. The tables that
`m.GetTables()` reads from the database are the argument `dbTables`, and
`renamedColumns` is the package-level map when the call starts; the parameter
`verbose`, which the body does not read, is left out. -/
def CreateMigration (lower upper : String → String) (dbTables dst : List Table)
    (renamedColumns : RenameMap) : Except Abort (String × String) :=
  match figureNewTables dbTables dst ([], [], []) with
  | (newTables, alteredTables, alteredTablesOrder) =>
    match figureDeletedTables dst dbTables ([], alteredTables) with
    | .error e => .error e
    | .ok (deletedTables, alteredTables) =>
      match compareAltered lower upper alteredTables alteredTablesOrder
          (writeTables CreateTableQuery newTables "",
            writeTables CreateTableQuery deletedTables "", renamedColumns) with
      | .error e => .error e
      | .ok (sbUp, sbDown, _) =>
        .ok (writeTables DropTableQuery deletedTables.reverse sbUp,
          writeTables DropTableQuery newTables.reverse sbDown)

/-- What a run of `MigrateAndSave` leaves behind: the texts written to standard
output, call by call, and the files written (path and contents). -/
structure Effects where
  printed : List String
  files : List (String × String)
  deriving DecidableEq, Repr

/-- The value of a Go `int` expression (64 bits, two's complement) whose mathematical
value is `n`. -/
def wrapInt64 (n : Int) : Int :=
  (n + 2 ^ 63) % 2 ^ 64 - 2 ^ 63

/-- The method `MigrateAndSave`. The tables `ParseTablesFromStructs` builds from the
target models are the argument `dst`, the tables of the database are `dbTables`, and
`scanned` is the word `fmt.Scan` reads (`none` when it returns an error). -/
def MigrateAndSave (lower upper : String → String) (dbTables : List Table)
    (CurrentVersion : Int) (scanned : Option String) (renamedColumns : RenameMap)
    (dryRun : Bool) (saveDirectory : String) (dst : List Table) : Except Abort Effects :=
  match CreateMigration lower upper dbTables dst renamedColumns with
  | .error e => .error e
  | .ok (upScript, downScript) =>
    if upScript = "" then
      .ok { printed := ["No migration necessary!\n"], files := [] }
    else if !dryRun then
      let asked :=
        ["Current database version is:  " ++ toString CurrentVersion ++ "\n",
          "Setting migration version as:  " ++ toString (wrapInt64 (CurrentVersion + 1)) ++ "\n",
          "Enter the migration name: "]
      match scanned with
      | none => .ok { printed := asked ++ ["Cannot scan given input!\n"], files := [] }
      | some migrationName =>
        let migrationName := toString (wrapInt64 (CurrentVersion + 1)) ++ "_" ++ migrationName
        .ok { printed := asked ++
                ["Migrations are saved as: " ++ migrationName ++ ".[up/down].sql\n"],
              files := [(saveDirectory ++ "/" ++ migrationName ++ ".up.sql", upScript),
                (saveDirectory ++ "/" ++ migrationName ++ ".down.sql", downScript)] }
    else
      .ok { printed := ["*****UP SCRIPT*****\n", upScript ++ "\n",
              "*****DOWN SCRIPT*****\n", downScript ++ "\n",
              "--dry-run argument is passed, no migration file created!\n"],
            files := [] }

/-! ## Names (`utils`)

The functions of package `utils`. A Go string is indexed by byte and a `String` here
by character; the two agree on the characters these functions look at, which are
ASCII letters, separators and white space. -/

/-- The library function `strings.HasSuffix`. -/
def hasSuffix (s suffix : String) : Bool :=
  suffix.data.isSuffixOf s.data

/-- The function `isVowel`: `strings.ContainsRune("aeiou", rune(c))`. -/
def isVowel (c : Char) : Bool :=
  "aeiou".data.contains c

/-- The slice expression `word[:len(word)-n]`; a negative bound is a panic. -/
def dropLast (word : String) (n : Nat) : Except Panic String :=
  if word.data.length < n then .error Panic.sliceBoundsOutOfRange
  else .ok (String.mk (word.data.take (word.data.length - n)))

/-- The function `Pluralize`; `lower` is `strings.ToLower`. The index expression
`lowered[len(lowered)-2]` is evaluated when `lowered` ends in `y`, and panics when
`lowered` has no second character from the end. -/
def Pluralize (lower : String → String) (word : String) : Except Panic String :=
  let lowered := lower word
  if hasSuffix lowered "s" || hasSuffix lowered "es" || hasSuffix lowered "ies" then
    .ok word
  else
    let rest : Except Panic String :=
      if hasSuffix lowered "o" || hasSuffix lowered "ch" || hasSuffix lowered "sh" then
        .ok (word ++ "es")
      else if hasSuffix lowered "f" || hasSuffix lowered "fe" then
        if hasSuffix lowered "fe" then
          match dropLast word 2 with
          | .error e => .error e
          | .ok stem => .ok (stem ++ "ves")
        else
          match dropLast word 1 with
          | .error e => .error e
          | .ok stem => .ok (stem ++ "ves")
      else
        .ok (word ++ "s")
    if hasSuffix lowered "y" then
      if lowered.data.length < 2 then .error Panic.indexOutOfRange
      else
        match lowered.data[lowered.data.length - 2]? with
        | none => .error Panic.indexOutOfRange
        | some c =>
          if !isVowel c then
            match dropLast word 1 with
            | .error e => .error e
            | .ok stem => .ok (stem ++ "ies")
          else rest
    else rest

/-- The library predicate `unicode.IsSpace`. -/
def isSpace (c : Char) : Bool :=
  c.toNat = 0x09 || c.toNat = 0x0A || c.toNat = 0x0B || c.toNat = 0x0C || c.toNat = 0x0D ||
    c.toNat = 0x20 || c.toNat = 0x85 || c.toNat = 0xA0 || c.toNat = 0x1680 ||
    (0x2000 ≤ c.toNat && c.toNat ≤ 0x200A) || c.toNat = 0x2028 || c.toNat = 0x2029 ||
    c.toNat = 0x202F || c.toNat = 0x205F || c.toNat = 0x3000

/-- The library function `strings.TrimSpace`. -/
def trimSpace (s : String) : String :=
  String.mk ((s.data.dropWhile isSpace).reverse.dropWhile isSpace).reverse

/-- The loop of `strings.Fields`: `cur` is the field read so far. -/
def fieldsChars : List Char → List Char → List String
  | cur, [] => if cur.isEmpty then [] else [String.mk cur]
  | cur, c :: cs =>
    if isSpace c then
      if cur.isEmpty then fieldsChars [] cs else String.mk cur :: fieldsChars [] cs
    else fieldsChars (cur ++ [c]) cs

/-- The library function `strings.Fields`. -/
def fields (s : String) : List String :=
  fieldsChars [] s.data

/-- The search of `strings.Contains` from each position of the text. -/
def containsChars (substr : List Char) : List Char → Bool
  | [] => substr.isEmpty
  | c :: cs => substr.isPrefixOf (c :: cs) || containsChars substr cs

/-- The library function `strings.Contains`. -/
def contains (s substr : String) : Bool :=
  containsChars substr.data s.data

/-- The loop of `strings.Split` for a separator that is not empty: `cur` is the piece
read so far, `skip` the number of characters of a separator still to pass. -/
def splitChars (sep : List Char) : List Char → Nat → List Char → List String
  | cur, _, [] => [String.mk cur]
  | cur, skip + 1, _ :: cs => splitChars sep cur skip cs
  | cur, 0, c :: cs =>
    if sep.isPrefixOf (c :: cs) then
      String.mk cur :: splitChars sep [] (sep.length - 1) cs
    else splitChars sep (cur ++ [c]) 0 cs

/-- The library function `strings.Split`, for a separator that is not empty. -/
def split (s sep : String) : List String :=
  splitChars sep.data [] 0 s.data

/-- The replacement `re.ReplaceAllString(s, "${1} ${2}")` for the expression
`([a-z])([A-Z])`: a space between a lower-case letter and the upper-case letter that
follows it, the matches taken from the left without overlap. -/
def spaceCamel : List Char → List Char
  | [] => []
  | [a] => [a]
  | a :: b :: rest =>
    if a.isLower && b.isUpper then a :: ' ' :: b :: spaceCamel rest
    else a :: spaceCamel (b :: rest)

def ToSnakeCase (s : String) : String :=
  "_".intercalate (fields (String.mk (spaceCamel s.data)))

def ToMysqlName (lower : String → String) (word : String) : String :=
  lower (ToSnakeCase word)

/-- The function `ToMysqlDataType`; `none` is the error result. -/
def ToMysqlDataType (s : String) : Option String :=
  let t := trimSpace s
  if t = "string" then some "varchar(255)"
  else if t = "int" || t = "int32" || t = "int64" then some "bigint"
  else if t = "uint" || t = "uint32" || t = "uint64" then some "bigint unsigned"
  else if t = "float32" then some "float"
  else if t = "float64" then some "double"
  else if t = "time.Time" then some "datetime(3)"
  else if t = "bool" then some "tinyint(1)"
  else none

/-! ## Entity fields (`migrator.go`)

The method `parseStructField`. What it reads of the `reflect.StructField` is a
record, the table it changes through its pointer and the slice `m.Relations` are
passed in and returned. -/

/-- The kinds `parseStructField` tells apart in `field.Type.Kind()`. -/
inductive FieldKind
  | struct
  | slice
  | other
  deriving DecidableEq, Repr

/-- What `parseStructField` reads of a `reflect.StructField`: `field.Name`,
`field.Type.Kind()`, `field.Type.String()`, `field.Type.Name()`,
`field.Type.Elem().Name()` and `field.Tag.Get("gorm")`. -/
structure StructField where
  Name : String := ""
  Kind : FieldKind := .other
  TypeString : String := ""
  TypeName : String := ""
  ElemName : String := ""
  GormTag : String := ""
  deriving DecidableEq, Repr

/-- The local variables of `parseStructField`, with the table behind its pointer. -/
structure FieldVars where
  col : Column
  table : Table
  deleteOption : ReferenceOption
  updateOption : ReferenceOption
  fkColumnName : String
  fkTableName : String
  isFkUnique : Bool
  referencedTableName : String
  referencedColumnName : String
  setRelation : Bool
  indexName : String

/-- The index expression `l[i]` on a slice of strings. -/
def indexAt (l : List String) (i : Nat) : Except Panic String :=
  match l[i]? with
  | none => .error Panic.indexOutOfRange
  | some x => .ok x

/-- The map assignment `m[k] = v`. -/
def mapSet (m : List (String × List String)) (k : String) (v : List String) :
    List (String × List String) :=
  match m with
  | [] => [(k, v)]
  | (k', v') :: rest => if k' = k then (k, v) :: rest else (k', v') :: mapSet rest k v

/-- The column as the first statements of `parseStructField` fill it; `ColumnType`
keeps its zero value. -/
def initialColumn (table : Table) (field : StructField) : Column :=
  { TableName := table.Name, Name := field.Name, Null := "YES", PrimaryKey := false,
    ForeignKey := false, UniqueIndex := false,
    DefaultValue := { String := "", Valid := false }, Extra := "" }

/-- The condition of the auto-increment check. -/
def autoIncrementCheck (lower : String → String) (col : Column) : Bool :=
  !(lower col.ColumnType == "tinyint" ||
      lower col.ColumnType == "smallint" ||
      lower col.ColumnType == "mediumint" ||
      lower col.ColumnType == "int" ||
      lower col.ColumnType == "bigint") &&
    contains col.Extra "auto_increment"

/-- The two statements "Set default foreign key properties": a field of a struct type
that has no MySQL type, and a field of a slice type. -/
def relationDefaults (field : StructField) (vars : FieldVars) : Except Panic FieldVars :=
  let afterStruct : Except Panic FieldVars :=
    if field.Kind = .struct then
      if (ToMysqlDataType field.TypeString).isNone then
        match vars.table.GetPrimaryKeyColumn with
        | none => .error Panic.nilDereference
        | some pk =>
          .ok { vars with
            referencedTableName := vars.table.Name, referencedColumnName := pk.Name,
            fkTableName := field.TypeName, fkColumnName := vars.table.Name ++ "ID",
            setRelation := true, isFkUnique := true }
      else .ok vars
    else .ok vars
  match afterStruct with
  | .error e => .error e
  | .ok vars =>
    if field.Kind = .slice then
      match vars.table.GetPrimaryKeyColumn with
      | none => .error Panic.nilDereference
      | some pk =>
        .ok { vars with
          referencedTableName := vars.table.Name, referencedColumnName := pk.Name,
          fkTableName := field.ElemName, fkColumnName := vars.table.Name ++ "ID",
          setRelation := true, isFkUnique := false }
    else .ok vars

/-- The loop over the parts of a `constraint` tag item `v`. -/
def parseConstraint (upper : String → String) (v : String) :
    List String → FieldVars → Except Panic FieldVars
  | [], vars => .ok vars
  | s :: rest, vars =>
    let afterUpdate : Except Panic FieldVars :=
      if contains s "OnUpdate" then
        match indexAt (split v ":") 2 with
        | .error e => .error e
        | .ok x => .ok { vars with updateOption := upper x }
      else .ok vars
    match afterUpdate with
    | .error e => .error e
    | .ok vars =>
      let afterDelete : Except Panic FieldVars :=
        if contains s "OnDelete" then
          match indexAt (split v ":") 2 with
          | .error e => .error e
          | .ok x => .ok { vars with deleteOption := upper x }
        else .ok vars
      match afterDelete with
      | .error e => .error e
      | .ok vars => parseConstraint upper v rest vars

/-- The body of the loop over the items `v` of the `gorm` tag. -/
def parseTag (lower upper : String → String) (vars : FieldVars) (v : String) :
    Except Panic FieldVars :=
  if contains v "type" then
    match indexAt (split v ":") 1 with
    | .error e => .error e
    | .ok x => .ok { vars with col := { vars.col with ColumnType := x } }
  else if contains v "constraint" then
    parseConstraint upper v (split v ",") vars
  else if v = "primaryKey" then
    .ok { vars with
      table := { vars.table with
        PrimaryCols := vars.table.PrimaryCols ++ [ToMysqlName lower vars.col.Name] },
      col := { vars.col with PrimaryKey := true, Null := "NO" } }
  else if contains v "uniqueIndex" then
    if !vars.col.PrimaryKey then
      match Pluralize lower (ToMysqlName lower vars.table.Name) with
      | .error e => .error e
      | .ok tables =>
        let custom : Except Panic String :=
          if (split v ":").length > 1 then
            match Pluralize lower (ToMysqlName lower vars.col.TableName) with
            | .error e => .error e
            | .ok tables' =>
              match indexAt (split v ":") 1 with
              | .error e => .error e
              | .ok x => .ok (tables' ++ "." ++ x)
          else .ok (tables ++ "." ++ ToMysqlName lower vars.col.Name)
        match custom with
        | .error e => .error e
        | .ok indexName =>
          let cols :=
            match mapLookup vars.table.IndexToUniqueCols indexName with
            | none => [ToMysqlName lower vars.col.Name]
            | some cols => cols ++ [ToMysqlName lower vars.col.Name]
          .ok { vars with
            indexName := indexName,
            table := { vars.table with
              IndexToUniqueCols := mapSet vars.table.IndexToUniqueCols indexName cols },
            col := { vars.col with UniqueIndex := true } }
    else .ok { vars with col := { vars.col with UniqueIndex := true } }
  else if v = "not null" then
    .ok { vars with col := { vars.col with Null := "NO" } }
  else if v = "auto_increment" then
    .ok { vars with
      col := { vars.col with Extra := trimSpace (vars.col.Extra ++ " " ++ "auto_increment") } }
  else if contains v "foreignKey" then
    match indexAt (split v ":") 1 with
    | .error e => .error e
    | .ok x => .ok { vars with fkColumnName := x }
  else if v = "references" then
    match indexAt (split v ":") 1 with
    | .error e => .error e
    | .ok x => .ok { vars with referencedColumnName := x }
  else if contains v "default" then
    match indexAt (split v ":") 1 with
    | .error e => .error e
    | .ok x =>
      .ok { vars with col := { vars.col with DefaultValue := { String := x, Valid := true } } }
  else .ok vars

/-- The loop over the items of the `gorm` tag. -/
def parseTags (lower upper : String → String) : List String → FieldVars → Except Panic FieldVars
  | [], vars => .ok vars
  | v :: rest, vars =>
    match parseTag lower upper vars v with
    | .error e => .error e
    | .ok vars => parseTags lower upper rest vars

/-- The loop over `m.Relations`, which stops at the first relation on this column. -/
def matchRelation (lower : String → String) :
    List Reference → FieldVars → Except Panic FieldVars
  | [], vars => .ok vars
  | rel :: rest, vars =>
    match Pluralize lower (ToMysqlName lower rel.TableName) with
    | .error e => .error e
    | .ok relTables =>
      match Pluralize lower (ToMysqlName lower vars.table.Name) with
      | .error e => .error e
      | .ok tables =>
        if relTables = tables &&
            ToMysqlName lower rel.ColumnName = ToMysqlName lower vars.col.Name then
          let vars := { vars with
            table := { vars.table with References := vars.table.References ++ [rel] },
            col := { vars.col with ForeignKey := true } }
          if rel.IsUnique && !vars.col.PrimaryKey then
            if vars.indexName = "" then
              match Pluralize lower (ToMysqlName lower vars.table.Name) with
              | .error e => .error e
              | .ok tables' =>
                let indexName := tables' ++ "." ++ ToMysqlName lower vars.col.Name
                .ok { vars with
                  indexName := indexName,
                  table := { vars.table with
                    IndexToUniqueCols := mapSet vars.table.IndexToUniqueCols indexName
                      [ToMysqlName lower vars.col.Name] },
                  col := { vars.col with UniqueIndex := true } }
            else .ok { vars with col := { vars.col with UniqueIndex := true } }
          else .ok vars
        else matchRelation lower rest vars

/-- The method `newRelation`: the slice `m.Relations` with the new reference. -/
def newRelation (Relations : List Reference)
    (tableName columnName referencedTableName referencedColumnName : String)
    (onDelete onUpdate : ReferenceOption) (isUnique : Bool) : List Reference :=
  Relations ++
    [{ TableName := tableName, ColumnName := columnName,
       ReferencedTableName := referencedTableName,
       ReferencedColumnName := referencedColumnName, DeleteOption := onDelete,
       UpdateOption := onUpdate, IsUnique := isUnique }]

/-- The end of `parseStructField`, from "Mysqlize table and column names" on: the
column it returns (`none` is nil), the table and `m.Relations`. -/
def finishField (lower : String → String) (Relations : List Reference) (field : StructField)
    (vars : FieldVars) : Except Abort (Option Column × Table × List Reference) :=
  let referencedColumnName := ToMysqlName lower vars.referencedColumnName
  let fkColumnName := ToMysqlName lower vars.fkColumnName
  let colName := ToMysqlName lower vars.col.Name
  match Pluralize lower (ToMysqlName lower vars.col.TableName) with
  | .error e => .error (.panicked e)
  | .ok colTableName =>
    match Pluralize lower (ToMysqlName lower vars.referencedTableName) with
    | .error e => .error (.panicked e)
    | .ok referencedTableName =>
      match Pluralize lower (ToMysqlName lower vars.fkTableName) with
      | .error e => .error (.panicked e)
      | .ok fkTableName =>
        let col := { vars.col with Name := colName, TableName := colTableName }
        if vars.setRelation then
          .ok (none, vars.table,
            newRelation Relations fkTableName fkColumnName referencedTableName
              referencedColumnName vars.deleteOption vars.updateOption vars.isFkUnique)
        else if col.ColumnType = "" then
          match ToMysqlDataType field.TypeString with
          | none =>
            .error (.fatal ("Cannot resolve the field type to a mysql type. Table: " ++
              vars.table.Name ++ ", Column: " ++ col.Name ++ ", Type: " ++ field.TypeString))
          | some columnType =>
            .ok (some { col with ColumnType := columnType }, vars.table, Relations)
        else .ok (some col, vars.table, Relations)

/-- The method `parseStructField` behind its auto-increment check. -/
def parseFieldBody (lower upper : String → String) (Relations : List Reference)
    (table : Table) (field : StructField) (col : Column) :
    Except Abort (Option Column × Table × List Reference) :=
  let vars : FieldVars :=
    { col := col, table := table, deleteOption := CASCADE_OPTION,
      updateOption := CASCADE_OPTION, fkColumnName := "", fkTableName := "",
      isFkUnique := false, referencedTableName := "", referencedColumnName := "",
      setRelation := false, indexName := "" }
  match relationDefaults field vars with
  | .error e => .error (.panicked e)
  | .ok vars =>
    let tagged : Except Panic FieldVars :=
      if field.GormTag ≠ "" then parseTags lower upper (split field.GormTag ";") vars
      else .ok vars
    match tagged with
    | .error e => .error (.panicked e)
    | .ok vars =>
      match matchRelation lower Relations vars with
      | .error e => .error (.panicked e)
      | .ok vars => finishField lower Relations field vars

/-- The method `parseStructField`: the check of the auto-increment modifier comes
first, on the column as `initialColumn` fills it, and the tag is parsed after it. -/
def parseStructField (lower upper : String → String) (Relations : List Reference)
    (table : Table) (field : StructField) :
    Except Abort (Option Column × Table × List Reference) :=
  if autoIncrementCheck lower (initialColumn table field) then
    .error (.fatal ("Auto increment can only be applied to integer type columns! " ++
      table.Name ++ "." ++ field.Name ++ "\n"))
  else parseFieldBody lower upper Relations table field (initialColumn table field)

/-! ## Predicates of the statements -/

/-- The order in which two migrations may follow each other after sorting. -/
def priorityLe (a b : ColumnMigration) : Prop :=
  a.Operation.toInt ≤ b.Operation.toInt

/-- The test `HasColumn` applies to the column `c` of the table when it looks
for `col`. -/
def columnMatches (renamedColumns : RenameMap) (col c : Column) : Bool :=
  ((c.Name == col.Name) || (renamedColumns.get c.Name == col.Name)) &&
    (c.PrimaryKey == col.PrimaryKey)

/-- No two columns of the table bear the same name. -/
def Table.DistinctColumnNames (t : Table) : Prop :=
  (t.Columns.map Column.Name).Nodup

instance (t : Table) : Decidable t.DistinctColumnNames := by
  unfold Table.DistinctColumnNames; infer_instance

/-- No column of the table has the empty name. -/
def Table.NonEmptyColumnNames (t : Table) : Prop :=
  ∀ c ∈ t.Columns, c.Name ≠ ""

instance (t : Table) : Decidable t.NonEmptyColumnNames := by
  unfold Table.NonEmptyColumnNames; infer_instance

/-- No two references of the table are the same relation. -/
def Table.DistinctRelations (t : Table) : Prop :=
  t.References.Pairwise (fun r1 r2 => sameRelation r1 r2 = false)

instance (t : Table) : Decidable t.DistinctRelations := by
  unfold Table.DistinctRelations; infer_instance

/-- The two tables hold the same unique-index map. -/
def SameIndexes (a b : Table) : Prop :=
  ∀ k, mapLookup a.IndexToUniqueCols k = mapLookup b.IndexToUniqueCols k

/-- The table has exactly one column flagged as primary key. -/
def Table.SinglePrimaryKey (t : Table) : Prop :=
  (t.Columns.filter (fun c => c.PrimaryKey)).length = 1

instance (t : Table) : Decidable t.SinglePrimaryKey := by
  unfold Table.SinglePrimaryKey; infer_instance

/-- The two tables do not exchange their key names: in at least one of them no
non-primary column bears the name of a primary-key column of the other. -/
def NoKeySwap (a b : Table) : Prop :=
  (∀ x ∈ a.Columns, x.PrimaryKey = false → ∀ y ∈ b.Columns, y.PrimaryKey = true →
      x.Name ≠ y.Name) ∨
    (∀ y ∈ b.Columns, y.PrimaryKey = false → ∀ x ∈ a.Columns, x.PrimaryKey = true →
      y.Name ≠ x.Name)

instance (a b : Table) : Decidable (NoKeySwap a b) := by
  unfold NoKeySwap; infer_instance

/-- The first non-primary column of the table with the given name. -/
def Table.plainColumn? (t : Table) (name : String) : Option Column :=
  t.Columns.find? (fun c => c.Name == name && !c.PrimaryKey)

/-- The `DROP_COLUMN` operations for those of the non-primary source columns `cols`
that the target table `dst` has no non-primary column for. -/
def plainDrops (dst : Table) (cols : List Column) : List ColumnMigration :=
  cols.filterMap (fun col =>
    match dst.plainColumn? col.Name with
    | some _ => none
    | none => some (NewColumnMigration (.column col) .nil .DROP_COLUMN))

/-- The `ADD_COLUMN` and `MODIFY_COLUMN` operations for the non-primary target
columns `cols`: a column the source table `t` has no non-primary column for is added,
one that is not `Equals` to its source column is modified. -/
def plainChanges (lower : String → String) (t : Table) (cols : List Column) :
    List ColumnMigration :=
  cols.filterMap (fun col =>
    match t.plainColumn? col.Name with
    | none => some (NewColumnMigration (.column col) .nil .ADD_COLUMN)
    | some old =>
      if col.Equals lower old then none
      else some (NewColumnMigration (.column col) (.column old) .MODIFY_COLUMN))

/-- The operations of kind `op` in the list, in their order. -/
def ofKind (op : ColumnOperation) (ms : List ColumnMigration) : List ColumnMigration :=
  ms.filter (fun m => m.Operation == op)

/-- Some operation of kind `op` in the list carries the payload `p` as `ApplyOn`. -/
def appearsAs (op : ColumnOperation) (p : Payload) (ms : List ColumnMigration) : Prop :=
  ∃ m ∈ ms, m.Operation = op ∧ m.ApplyOn = p

/-- The `ADD_FOREIGN_KEY` and `UPDATE_FOREIGN_KEY` operations for the target
references `refs`: a reference that is the same relation as none of the source table
`t` is added, one whose options differ from those of its relation in `t` is updated. -/
def referenceChanges (t : Table) (refs : List Reference) : List ColumnMigration :=
  refs.filterMap (fun r1 =>
    match t.References.find? (fun r2 => sameRelation r1 r2) with
    | none => some (NewColumnMigration (.reference r1) .nil .ADD_FOREIGN_KEY)
    | some old =>
      if old.UpdateOption != r1.UpdateOption || old.DeleteOption != r1.DeleteOption then
        some (NewColumnMigration (.reference r1) (.reference old) .UPDATE_FOREIGN_KEY)
      else none)

instance (op : ColumnOperation) (p : Payload) (ms : List ColumnMigration) :
    Decidable (appearsAs op p ms) := by
  unfold appearsAs; infer_instance

/-! ## Applying operations to a table -/

/-- Modelled from the spec: the structural application of one operation to the
column list of a table ("structurally applying each operation", §8), which the
repository does not implement. The statements are those `query.go` renders: `DROP
COLUMN` removes the column of the payload's name, `RENAME COLUMN` gives the column of
the old name the new name, `MODIFY COLUMN` replaces the definition of the column of the
payload's name, `ADD COLUMN` appends the payload. -/
def applyColumns (cols : List Column) (m : ColumnMigration) : List Column :=
  match m.Operation, m.ApplyOn, m.Old with
  | .DROP_COLUMN, .column c, _ => cols.filter (fun x => x.Name != c.Name)
  | .RENAME_COLUMN, .column new, .column old =>
    cols.map (fun x => if x.Name = old.Name then { x with Name := new.Name } else x)
  | .MODIFY_COLUMN, .column new, _ => cols.map (fun x => if x.Name = new.Name then new else x)
  | .ADD_COLUMN, .column c, _ => cols ++ [c]
  | _, _, _ => cols

/-- Modelled from the spec: the structural application of one operation to the
unique-index map of a table, which the repository does not implement:
`DROP_UNIQUE_INDEX` removes the index of that name, `ADD_UNIQUE_INDEX` enters the index
with its columns. -/
def applyIndexes (indexes : List (String × List String)) (m : ColumnMigration) :
    List (String × List String) :=
  match m.Operation, m.ApplyOn, m.Old with
  | .DROP_UNIQUE_INDEX, .str k, _ => indexes.filter (fun e => e.1 != k)
  | .ADD_UNIQUE_INDEX, .str k, .strs v => indexes ++ [(k, v)]
  | _, _, _ => indexes

/-- Modelled from the spec: the structural application of one operation to the
references of a table, which the repository does not implement: `DROP_FOREIGN_KEY`
removes the reference of that relation, `ADD_FOREIGN_KEY` appends the reference, and
`UPDATE_FOREIGN_KEY` is the drop of the old reference followed by the addition of the
new one, as `createColumnMigrations` renders it. -/
def applyReferences (refs : List Reference) (m : ColumnMigration) : List Reference :=
  match m.Operation, m.ApplyOn, m.Old with
  | .DROP_FOREIGN_KEY, .reference r, _ => refs.filter (fun x => !sameRelation x r)
  | .UPDATE_FOREIGN_KEY, .reference new, .reference old =>
    refs.filter (fun x => !sameRelation x old) ++ [new]
  | .ADD_FOREIGN_KEY, .reference r, _ => refs ++ [r]
  | _, _, _ => refs

/-- Modelled from the spec: the structural application of one operation to a table. -/
def applyMigration (t : Table) (m : ColumnMigration) : Table :=
  { t with
    Columns := applyColumns t.Columns m
    IndexToUniqueCols := applyIndexes t.IndexToUniqueCols m
    References := applyReferences t.References m }

/-- Modelled from the spec: the structural application of a list of operations, in
order. -/
def applyMigrations (t : Table) (ms : List ColumnMigration) : Table :=
  ms.foldl applyMigration t

/-- What a comparison looks at in a reference: the relation and its two options
(§3: the same relation, with options that "may still differ, which is itself a
reportable change"). -/
def referenceKey (r : Reference) :
    String × String × String × String × ReferenceOption × ReferenceOption :=
  (r.TableName, r.ColumnName, r.ReferencedTableName, r.ReferencedColumnName,
    r.DeleteOption, r.UpdateOption)

/-- Modelled from the spec: the column-equality relation of §3. "Two columns are equal
iff name, type, nullability, extra, and default (presence + value) match
case-insensitively; primary-key/foreign-key/unique flags are not part of equality",
where "has no default" is a state distinct from "default is empty string". Two columns
without a default have no default value to compare. -/
def columnsEqual (lower : String → String) (c d : Column) : Bool :=
  lower c.Name == lower d.Name && lower c.ColumnType == lower d.ColumnType &&
    lower c.Null == lower d.Null && lower c.Extra == lower d.Extra &&
    c.DefaultValue.Valid == d.DefaultValue.Valid &&
    (!c.DefaultValue.Valid || lower c.DefaultValue.String == lower d.DefaultValue.String)

/-- Modelled from the spec: structural equality of a table `t` with `b` "under the
column-equality relation of §3": the same column names (as many columns of each name),
each column of `t` being equal (`columnsEqual`) to the column of `b` of its name, the
same unique-index map, and the same set of references (relation and options). -/
def StructurallyEqual (lower : String → String) (t b : Table) : Prop :=
  (t.Columns.map Column.Name).Perm (b.Columns.map Column.Name) ∧
    (∀ c ∈ t.Columns, ∀ d ∈ b.Columns, c.Name = d.Name → columnsEqual lower c d = true) ∧
    SameIndexes t b ∧
    (∀ k, k ∈ t.References.map referenceKey ↔ k ∈ b.References.map referenceKey)

/-- The relation between tables that the method `Column.Equals` of the code can tell
apart: as `StructurallyEqual`, with `Column.Equals` in the place of the column equality
of the specification. It is the weaker of the two, since `Equals` lets a changed default
pass. -/
def EqualByEquals (lower : String → String) (t b : Table) : Prop :=
  (t.Columns.map Column.Name).Perm (b.Columns.map Column.Name) ∧
    (∀ c ∈ t.Columns, ∀ d ∈ b.Columns, c.Name = d.Name → c.Equals lower d = true) ∧
    SameIndexes t b ∧
    (∀ k, k ∈ t.References.map referenceKey ↔ k ∈ b.References.map referenceKey)

/-- The invariants of a table snapshot: pairwise distinct, non-empty column names,
exactly one primary-key column, references that are pairwise different relations, and
an index map that holds each name once. -/
def Table.WellFormed (t : Table) : Prop :=
  t.DistinctColumnNames ∧ t.NonEmptyColumnNames ∧ t.SinglePrimaryKey ∧
    t.DistinctRelations ∧ UniqueKeys t.IndexToUniqueCols

instance (t : Table) : Decidable t.WellFormed := by
  unfold Table.WellFormed; infer_instance

/-! ## Names and parts of the rendered scripts -/

/-- The name `fk.<table>.<column>` of the constraint (and of the backing index) of a
reference. -/
def foreignKeyName (r : Reference) : String :=
  "fk." ++ r.TableName ++ "." ++ r.ColumnName

/-- The name `uc.<index-name>` of the constraint of a unique index. -/
def uniqueName (indexName : String) : String :=
  "uc." ++ indexName

/-- The references the two loops of `DropUniqueIndexQuery` write a statement for: for
each column name, in order, the first reference of the table on that column
(`slices.IndexFunc`), when it has one. -/
def firstReferences (table : Table) (colNames : List String) : List Reference :=
  colNames.filterMap (referenceOn table)

/-- The foreign keys entangled with the columns of an index: every reference of the
table on one of the columns, column by column in the order of the index and, for one
column, in the order of the table. -/
def entangled (table : Table) (colNames : List String) : List Reference :=
  (colNames.map (fun c => table.References.filter (fun r => r.ColumnName == c))).flatten

/-- The table holds at most one reference per column (§3: a reference is the foreign
key of its column). -/
def Table.OneReferencePerColumn (t : Table) : Prop :=
  (t.References.map Reference.ColumnName).Nodup

instance (t : Table) : Decidable t.OneReferencePerColumn := by
  unfold Table.OneReferencePerColumn; infer_instance

/-- The texts one after the other. -/
def concat (texts : List String) : String :=
  texts.foldr (fun text rest => text ++ rest) ""

/-- The texts one after the other with `sep` between them. -/
def joinWith (sep : String) : List String → String
  | [] => ""
  | [text] => text
  | text :: rest => text ++ sep ++ joinWith sep rest

/-- The `UNIQUE` clause of a `CREATE TABLE` statement for the index `indexName` on
`cols`, with the comma before it. -/
def uniqueClause (indexName : String) (cols : List String) : String :=
  ",\n\tCONSTRAINT `" ++ uniqueName indexName ++ "` UNIQUE (" ++ joinWith ", " cols ++ ")"

/-- The `FOREIGN KEY` clause of a `CREATE TABLE` statement for the reference `r`. -/
def foreignKeyClause (r : Reference) : String :=
  "\n\tCONSTRAINT `" ++ foreignKeyName r ++ "` FOREIGN KEY (" ++ r.ColumnName ++
    ") REFERENCES " ++ r.ReferencedTableName ++ "(" ++ r.ReferencedColumnName ++
    ") ON DELETE " ++ r.DeleteOption ++ " ON UPDATE " ++ r.UpdateOption

/-- The new tables: the desired tables whose name no actual table bears, in
declaration order. -/
def newTablesOf (actual desired : List Table) : List Table :=
  desired.filter (fun d => !actual.any (fun a => a.Name == d.Name))

/-- The deleted tables: the actual tables whose name no desired table bears, in
order. -/
def deletedTablesOf (actual desired : List Table) : List Table :=
  actual.filter (fun a => !desired.any (fun d => d.Name == a.Name))

/-- The last table of the list that bears the name. -/
def lastNamed : List Table → String → Option Table
  | [], _ => none
  | t :: rest, name =>
    match lastNamed rest name with
    | some u => some u
    | none => if t.Name = name then some t else none

/-- The altered pairs: for each desired table whose name an actual table bears, in
declaration order, the actual and the desired table of that name (the last one of
each list, a later table of a name replacing an earlier one in the map
`alteredTables`). -/
def alteredPairs (actual desired : List Table) : List (Table × Table) :=
  (desired.filter (fun d => actual.any (fun a => a.Name == d.Name))).filterMap (fun d =>
    match lastNamed actual d.Name, lastNamed desired d.Name with
    | some a, some b => some (a, b)
    | _, _ => none)

/-- What the comparison loop of `CreateMigration` does for the pairs, in order, to the
two builders and the rename map. -/
def renderPairs (lower upper : String → String) :
    List (Table × Table) → String × String × RenameMap →
      Except Abort (String × String × RenameMap)
  | [], state => .ok state
  | (first, second) :: rest, state =>
    match comparePair lower upper first second state with
    | .error e => .error e
    | .ok state => renderPairs lower upper rest state

/-! ## Predicates of the safety statements -/

/-- The payloads of the migration have the types `createColumnMigrations` asserts
for its operation, and a column to drop is not a primary key. -/
def Renderable (m : ColumnMigration) : Bool :=
  match m.Operation, m.ApplyOn, m.Old with
  | .ADD_COLUMN, .column _, _ => true
  | .DROP_COLUMN, .column c, _ => !c.PrimaryKey
  | .MODIFY_COLUMN, .column _, _ => true
  | .RENAME_COLUMN, .column _, .column _ => true
  | .ADD_FOREIGN_KEY, .reference _, _ => true
  | .DROP_FOREIGN_KEY, .reference _, _ => true
  | .UPDATE_FOREIGN_KEY, .reference _, .reference _ => true
  | .ADD_UNIQUE_INDEX, .str _, .strs _ => true
  | .DROP_UNIQUE_INDEX, .str _, .strs _ => true
  | _, _, _ => false

/-! ## Example tables -/

def idColumn : Column := { Name := "id", ColumnType := "int", PrimaryKey := true }

def nameColumn : Column := { Name := "name", ColumnType := "varchar(255)" }

def ageColumn : Column := { Name := "age", ColumnType := "int" }

def userIdColumn : Column := { Name := "user_id", ColumnType := "int" }

/-- A column whose name is the empty string. -/
def unnamedColumn : Column := { Name := "", ColumnType := "int" }

/-- A table with a primary key, a unique index and a foreign key. -/
def usersTable : Table :=
  { Name := "users",
    Columns := [idColumn, nameColumn],
    References :=
      [{ TableName := "users", ColumnName := "name",
         ReferencedTableName := "people", ReferencedColumnName := "name" }],
    IndexToUniqueCols := [("name", ["name"])] }

/-- Two columns of the table bear the name `age`. -/
def repeatedNameTable : Table :=
  { Name := "users",
    Columns := [idColumn, ageColumn, { Name := "age", ColumnType := "varchar(255)" }] }

/-- The last column of the table has the empty name. -/
def emptyNameTable : Table :=
  { Name := "users", Columns := [idColumn, ageColumn, unnamedColumn] }

/-- The table `users{id PK}` of `TestCompareWith_AddColumn`. -/
def usersId : Table := { Name := "users", Columns := [idColumn] }

/-- The table `users{id PK, name}` of `TestCompareWith_AddColumn`. -/
def usersIdName : Table := { Name := "users", Columns := [idColumn, nameColumn] }

/-- The table `users{user_id PK, name}`: `usersIdName` with the primary key renamed. -/
def usersUserIdName : Table :=
  { Name := "users", Columns := [{ idColumn with Name := "user_id" }, nameColumn] }

/-- The table `users{id PK, name, ""}`. -/
def usersIdNameUnnamed : Table :=
  { Name := "users", Columns := [idColumn, nameColumn, unnamedColumn] }

/-- The reference `orders.user_id -> users.id ON DELETE CASCADE` of
`TestCompareWith_AddForeignKey`. -/
def ordersUserReference : Reference :=
  { TableName := "orders", ColumnName := "user_id", ReferencedTableName := "users",
    ReferencedColumnName := "id", DeleteOption := CASCADE_OPTION }

/-- The source table of `TestCompareWith_AddForeignKey`. -/
def ordersTable : Table := { Name := "orders", Columns := [idColumn, userIdColumn] }

/-- The target table of `TestCompareWith_AddForeignKey`. -/
def ordersWithReference : Table :=
  { Name := "orders", Columns := [idColumn, userIdColumn],
    References := [ordersUserReference] }

/-- The table `orders{id PK, user_id int, user_id bigint}`. -/
def ordersRepeated : Table :=
  { Name := "orders",
    Columns := [idColumn, userIdColumn, { Name := "user_id", ColumnType := "bigint" }] }

/-- The table `ordersRepeated` with the reference `ordersUserReference`. -/
def ordersRepeatedWithReference : Table :=
  { Name := "orders",
    Columns := [idColumn, userIdColumn, { Name := "user_id", ColumnType := "bigint" }],
    References := [ordersUserReference] }

/-- A column with the default value `0`. -/
def scoreDefaultZero : Column :=
  { Name := "score", ColumnType := "int", DefaultValue := { String := "0", Valid := true } }

/-- The column `scoreDefaultZero` with the default value `1`. -/
def scoreDefaultOne : Column :=
  { Name := "score", ColumnType := "int", DefaultValue := { String := "1", Valid := true } }

/-- A column without a default value. -/
def noteNoDefault : Column := { Name := "note", ColumnType := "varchar(255)" }

/-- The column `noteNoDefault` with the empty string as its default value. -/
def noteEmptyDefault : Column :=
  { Name := "note", ColumnType := "varchar(255)",
    DefaultValue := { String := "", Valid := true } }

def kColumn : Column := { Name := "k", ColumnType := "int" }

/-- The table `t{id PK, k}`. -/
def keyOnId : Table := { Name := "t", Columns := [idColumn, kColumn] }

/-- The table `t{id, k PK}`: `keyOnId` with the primary key moved from `id` to `k`. -/
def keyOnK : Table :=
  { Name := "t",
    Columns := [{ idColumn with PrimaryKey := false }, { kColumn with PrimaryKey := true }] }

/-- The reference `accounts.owner -> people.id`. -/
def ownerReference : Reference :=
  { TableName := "accounts", ColumnName := "owner", ReferencedTableName := "people",
    ReferencedColumnName := "id", DeleteOption := RESTRICT_OPTION,
    UpdateOption := CASCADE_OPTION }

/-- The reference `accounts.bank -> banks.id`. -/
def bankReference : Reference :=
  { TableName := "accounts", ColumnName := "bank", ReferencedTableName := "banks",
    ReferencedColumnName := "id", DeleteOption := CASCADE_OPTION,
    UpdateOption := CASCADE_OPTION }

def ownerColumn : Column := { Name := "owner", ColumnType := "bigint", ForeignKey := true }

def bankColumn : Column := { Name := "bank", ColumnType := "bigint", ForeignKey := true }

/-- The table `accounts{id PK, owner, age}` with the reference on `owner` and a unique
index on `age`. -/
def accountsOld : Table :=
  { Name := "accounts",
    Columns := [idColumn, ownerColumn, ageColumn],
    References := [ownerReference],
    IndexToUniqueCols := [("age", ["age"])] }

/-- The table `accounts{account_id PK, age, bank}` with the reference on `bank` and
unique indexes on `age, bank` and on `bank`. -/
def accountsNew : Table :=
  { Name := "accounts",
    Columns := [{ idColumn with Name := "account_id" },
      { ageColumn with ColumnType := "bigint" }, bankColumn],
    References := [bankReference],
    IndexToUniqueCols := [("age", ["age", "bank"]), ("bank", ["bank"])] }

/-! ## Example references, indexes and schemas -/

/-- The reference `ordersUserReference` with `ON DELETE SET NULL`. -/
def ordersUserSetNull : Reference :=
  { ordersUserReference with DeleteOption := SET_NULL_OPTION }

/-- The table `ordersWithReference` with `ON DELETE SET NULL` on its reference. -/
def ordersSetNull : Table :=
  { Name := "orders", Columns := [idColumn, userIdColumn], References := [ordersUserSetNull] }

/-- The table `orders` holding the relation `orders.user_id -> users.id` twice: with
`ON DELETE CASCADE` and, behind it, with `ON DELETE SET NULL`. -/
def ordersTwice : Table :=
  { Name := "orders", Columns := [idColumn, userIdColumn],
    References := [ordersUserReference, ordersUserSetNull] }

def aColumn : Column := { Name := "a", ColumnType := "int" }

def bColumn : Column := { Name := "b", ColumnType := "int" }

/-- The table `pairs{id PK, a, b}` with the unique index `pair` on `a, b`. -/
def pairsAB : Table :=
  { Name := "pairs", Columns := [idColumn, aColumn, bColumn],
    IndexToUniqueCols := [("pair", ["a", "b"])] }

/-- The table `pairsAB` with the columns of the index `pair` in the order `b, a`. -/
def pairsBA : Table :=
  { Name := "pairs", Columns := [idColumn, aColumn, bColumn],
    IndexToUniqueCols := [("pair", ["b", "a"])] }

/-- The table `pairsAB` without its unique index. -/
def pairsPlain : Table := { Name := "pairs", Columns := [idColumn, aColumn, bColumn] }

/-- The table `users{name}`: no primary key and no column `id`. -/
def usersNameOnly : Table := { Name := "users", Columns := [nameColumn] }

/-- A new column that carries the unique flag. -/
def emailColumn : Column :=
  { Name := "email", ColumnType := "varchar(255)", UniqueIndex := true }

/-- The table `users{id PK, email}` with the unique index `users.email` on `email`. -/
def usersEmail : Table :=
  { Name := "users", Columns := [idColumn, emailColumn],
    IndexToUniqueCols := [("users.email", ["email"])] }

/-- The table `accounts{id PK, owner}` with the reference on `owner` and the unique
index `accounts.owner` on `owner`. -/
def accountsOwned : Table :=
  { Name := "accounts", Columns := [idColumn, ownerColumn],
    References := [ownerReference],
    IndexToUniqueCols := [("accounts.owner", ["owner"])] }

/-- The reference `accounts.owner -> users.id`, a second reference on the column
`owner`. -/
def ownerUsersReference : Reference :=
  { TableName := "accounts", ColumnName := "owner", ReferencedTableName := "users",
    ReferencedColumnName := "id", DeleteOption := CASCADE_OPTION,
    UpdateOption := CASCADE_OPTION }

/-- The table `accountsOwned` with two references on its column `owner`. -/
def accountsTwoOwners : Table :=
  { Name := "accounts", Columns := [idColumn, ownerColumn],
    References := [ownerReference, ownerUsersReference],
    IndexToUniqueCols := [("accounts.owner", ["owner"])] }

/-- The table `scores{id PK, score DEFAULT 0}`. -/
def scoresZero : Table := { Name := "scores", Columns := [idColumn, scoreDefaultZero] }

/-- The table `scores{id PK, score DEFAULT 1}`. -/
def scoresOne : Table := { Name := "scores", Columns := [idColumn, scoreDefaultOne] }

/-- The table `accountsOwned` without its reference and without its unique index. -/
def accountsFreed : Table := { Name := "accounts", Columns := [idColumn, ownerColumn] }

/-- The table `accountsNew` with its index map visited in the other order. -/
def accountsNewReordered : Table :=
  { accountsNew with IndexToUniqueCols := [("bank", ["bank"]), ("age", ["age", "bank"])] }

/-- The field `Code string` with the tag `gorm:"type:varchar(255);auto_increment"`. -/
def codeField : StructField :=
  { Name := "Code", TypeString := "string", TypeName := "string",
    GormTag := "type:varchar(255);auto_increment" }

/-! ## Properties of the prioritizer -/

theorem mem_insertStable (a m : ColumnMigration) (xs : List ColumnMigration) :
    a ∈ insertStable m xs ↔ a = m ∨ a ∈ xs := by
  induction xs with
  | nil => simp [insertStable]
  | cons x xs ih =>
    unfold insertStable
    split
    · simp only [List.mem_cons, ih]
      tauto
    · simp only [List.mem_cons]

theorem pairwise_insertStable (m : ColumnMigration) (xs : List ColumnMigration)
    (h : xs.Pairwise priorityLe) : (insertStable m xs).Pairwise priorityLe := by
  induction xs with
  | nil => simp [insertStable]
  | cons x xs ih =>
    rw [List.pairwise_cons] at h
    unfold insertStable
    split
    · rename_i hlt
      rw [List.pairwise_cons]
      refine ⟨?_, ih h.2⟩
      intro a ha
      rcases (mem_insertStable a m xs).1 ha with rfl | ha
      · unfold cmpOperation at hlt
        unfold priorityLe
        omega
      · exact h.1 a ha
    · rename_i hge
      have hmx : priorityLe m x := by
        unfold cmpOperation at hge
        unfold priorityLe
        omega
      rw [List.pairwise_cons]
      refine ⟨?_, List.pairwise_cons.2 h⟩
      intro a ha
      rcases List.mem_cons.1 ha with rfl | ha
      · exact hmx
      · exact le_trans hmx (h.1 a ha)

theorem pairwise_sortMigrations (ms : List ColumnMigration) :
    (SortMigrationsByOperationPriority ms).Pairwise priorityLe := by
  induction ms with
  | nil => simp [SortMigrationsByOperationPriority]
  | cons m ms ih => exact pairwise_insertStable m _ ih

theorem Equals_refl (lower : String → String) (c : Column) : c.Equals lower c = true := by
  simp [Column.Equals]

theorem hasColumnFrom_none_iff (r : RenameMap) (col : Column) (cs : List Column) (i : Nat) :
    hasColumnFrom r col cs i = none ↔ ∀ c ∈ cs, columnMatches r col c = false := by
  induction cs generalizing i with
  | nil => simp [hasColumnFrom]
  | cons c cs ih =>
    unfold hasColumnFrom
    by_cases h : columnMatches r col c = true
    · have h' := h
      unfold columnMatches at h'
      rw [if_pos h']
      simp [h]
    · have h' := h
      unfold columnMatches at h'
      rw [if_neg h', ih]
      simp only [Bool.not_eq_true] at h
      simp [h]

theorem hasColumnFrom_some (r : RenameMap) (col : Column) (cs : List Column) (i k : Nat)
    (h : hasColumnFrom r col cs i = some k) :
    ∃ c, cs[k - i]? = some c ∧ i ≤ k ∧ columnMatches r col c = true := by
  induction cs generalizing i with
  | nil => simp [hasColumnFrom] at h
  | cons c cs ih =>
    unfold hasColumnFrom at h
    by_cases hm : columnMatches r col c = true
    · have hm' := hm
      unfold columnMatches at hm'
      rw [if_pos hm'] at h
      cases h
      exact ⟨c, by simp, le_refl _, hm⟩
    · have hm' := hm
      unfold columnMatches at hm'
      rw [if_neg hm'] at h
      obtain ⟨c', h1, h2, h3⟩ := ih (i + 1) h
      refine ⟨c', ?_, by omega, h3⟩
      have : k - i = (k - (i + 1)) + 1 := by omega
      rw [this, List.getElem?_cons_succ]
      exact h1

theorem HasColumn_of_unique (t : Table) (r : RenameMap) (col c0 : Column)
    (hmem : c0 ∈ t.Columns) (hm : columnMatches r col c0 = true)
    (huniq : ∀ c ∈ t.Columns, columnMatches r col c = true → c = c0) :
    ∃ j, t.HasColumn r col = some j ∧ t.Columns[j]? = some c0 := by
  unfold Table.HasColumn
  cases hres : hasColumnFrom r col t.Columns 0 with
  | none =>
    rw [hasColumnFrom_none_iff] at hres
    rw [hres c0 hmem] at hm
    cases hm
  | some j =>
    obtain ⟨c, h1, _, h3⟩ := hasColumnFrom_some r col t.Columns 0 j hres
    simp only [Nat.sub_zero] at h1
    have hc : c ∈ t.Columns := List.getElem?_mem h1
    rw [huniq c hc h3] at h1
    exact ⟨j, rfl, h1⟩

/-! ## Loops that emit nothing -/

theorem checkDropped_nil (dst : Table) (cols : List Column) (r : RenameMap)
    (h : ∀ col ∈ cols, dst.HasColumn r col ≠ none) :
    checkDropped dst cols r = .ok ([], r) := by
  induction cols with
  | nil => rfl
  | cons col rest ih =>
    unfold checkDropped
    cases hc : dst.HasColumn r col with
    | none => exact absurd hc (h col (List.mem_cons_self _ _))
    | some j =>
      simp only
      exact ih (fun c hc => h c (List.mem_cons_of_mem _ hc))

theorem checkNew_nil (lower : String → String) (t : Table) (r : RenameMap)
    (cols : List Column)
    (h : ∀ col ∈ cols, ∃ i old, t.HasColumn r col = some i ∧ t.Columns[i]? = some old ∧
      col.Equals lower old = true) :
    checkNew lower t r cols = .ok [] := by
  induction cols with
  | nil => rfl
  | cons col rest ih =>
    obtain ⟨i, old, h1, h2, h3⟩ := h col (List.mem_cons_self _ _)
    unfold checkNew
    simp only [h1, h2, h3, Bool.not_true, Bool.false_eq_true, if_false]
    exact ih (fun c hc => h c (List.mem_cons_of_mem _ hc))

theorem mapLookup_of_mem (m : List (String × List String)) (hm : UniqueKeys m)
    (k : String) (v : List String) (h : (k, v) ∈ m) : mapLookup m k = some v := by
  induction m with
  | nil => cases h
  | cons e rest ih =>
    obtain ⟨k', v'⟩ := e
    unfold UniqueKeys at hm
    simp only [List.map_cons, List.nodup_cons, List.mem_map, Prod.exists, exists_and_right,
      exists_eq_right, not_exists] at hm
    unfold mapLookup
    rcases List.mem_cons.1 h with heq | hin
    · cases heq
      simp
    · have hne : k' ≠ k := by
        intro hk
        subst hk
        exact hm.1 v hin
      rw [if_neg hne]
      exact ih hm.2 hin

theorem checkIndexes_nil (other : Table) (op : ColumnOperation)
    (entries : List (String × List String)) (seen : List String)
    (h : ∀ k v, (k, v) ∈ entries → mapLookup other.IndexToUniqueCols k = some v) :
    checkIndexes other op entries seen = [] := by
  induction entries with
  | nil => rfl
  | cons e rest ih =>
    obtain ⟨k, v⟩ := e
    have hk := h k v (List.mem_cons_self _ _)
    have hrest := ih (fun k' v' hin => h k' v' (List.mem_cons_of_mem _ hin))
    unfold checkIndexes
    split
    · exact hrest
    · have h0 : other.CompareUniqueIndex k v = 0 := by
        unfold Table.CompareUniqueIndex
        rw [hk]
        simp
      rw [h0]
      simpa using hrest

theorem checkDroppedReferences_nil (dst : Table) (refs : List Reference)
    (h : ∀ r ∈ refs, ∃ r2 ∈ dst.References, sameRelation r r2 = true) :
    checkDroppedReferences dst refs = [] := by
  induction refs with
  | nil => rfl
  | cons r rest ih =>
    have hany : dst.References.any (fun r2 => sameRelation r r2) = true := by
      rw [List.any_eq_true]
      exact h r (List.mem_cons_self _ _)
    unfold checkDroppedReferences
    rw [hany]
    simp only [Bool.not_true, Bool.false_eq_true, if_false]
    exact ih (fun r' hr' => h r' (List.mem_cons_of_mem _ hr'))

theorem sameRelation_refl (r : Reference) : sameRelation r r = true := by
  simp [sameRelation]

theorem sameRelation_symm (r1 r2 : Reference) : sameRelation r1 r2 = sameRelation r2 r1 := by
  unfold sameRelation
  rw [Bool.eq_iff_iff]
  simp only [Bool.and_eq_true, beq_iff_eq]
  constructor <;>
    (rintro ⟨⟨⟨a, b⟩, c⟩, d⟩; exact ⟨⟨⟨a.symm, b.symm⟩, c.symm⟩, d.symm⟩)

theorem indexFunc_none_iff {α : Type} (p : α → Bool) (l : List α) :
    indexFunc p l = none ↔ ∀ x ∈ l, p x = false := by
  induction l with
  | nil => simp [indexFunc]
  | cons x xs ih =>
    unfold indexFunc
    by_cases hp : p x = true
    · simp [hp]
    · simp only [Bool.not_eq_true] at hp
      simp [hp, ih]

theorem indexFunc_some {α : Type} (p : α → Bool) (l : List α) (k : Nat)
    (h : indexFunc p l = some k) : ∃ x, l[k]? = some x ∧ p x = true := by
  induction l generalizing k with
  | nil => simp [indexFunc] at h
  | cons x xs ih =>
    unfold indexFunc at h
    by_cases hp : p x = true
    · rw [if_pos hp] at h
      cases h
      exact ⟨x, by simp, hp⟩
    · rw [if_neg hp] at h
      cases hrec : indexFunc p xs with
      | none => rw [hrec] at h; cases h
      | some k' =>
        rw [hrec] at h
        cases h
        obtain ⟨y, h1, h2⟩ := ih k' hrec
        exact ⟨y, by simpa using h1, h2⟩

theorem relation_unique (t : Table) (hd : t.DistinctRelations) (r1 r2 : Reference)
    (h1 : r1 ∈ t.References) (h2 : r2 ∈ t.References) (hs : sameRelation r1 r2 = true) :
    r1 = r2 := by
  by_contra hne
  have hsym : Symmetric (fun a b : Reference => sameRelation a b = false) := by
    intro a b hab
    rw [sameRelation_symm]
    exact hab
  have := List.Pairwise.forall hsym hd h1 h2 hne
  rw [hs] at this
  cases this

theorem checkNewReferences_nil (t : Table) (hd : t.DistinctRelations) (refs : List Reference)
    (h : ∀ r ∈ refs, r ∈ t.References) : checkNewReferences t refs = .ok [] := by
  induction refs with
  | nil => rfl
  | cons r rest ih =>
    have hr := h r (List.mem_cons_self _ _)
    have hrest := ih (fun r' hr' => h r' (List.mem_cons_of_mem _ hr'))
    unfold checkNewReferences
    cases hidx : indexFunc (fun r2 => sameRelation r r2) t.References with
    | none =>
      rw [indexFunc_none_iff] at hidx
      have := hidx r hr
      rw [sameRelation_refl] at this
      cases this
    | some k =>
      obtain ⟨x, hx1, hx2⟩ := indexFunc_some _ _ _ hidx
      have hxr : r = x := relation_unique t hd r x hr (List.getElem?_mem hx1) hx2
      subst hxr
      simp only [hx1, bne_self_eq_false, Bool.or_self, Bool.false_eq_true, if_false]
      exact hrest

/-! ## Looking a column up in a table -/

theorem HasColumn_self (t : Table) (hd : t.DistinctColumnNames) (r : RenameMap) (col : Column)
    (hmem : col ∈ t.Columns)
    (hr : ∀ c ∈ t.Columns, c.PrimaryKey = col.PrimaryKey → r.get c.Name ≠ col.Name) :
    ∃ j, t.HasColumn r col = some j ∧ t.Columns[j]? = some col := by
  apply HasColumn_of_unique t r col col hmem
  · simp [columnMatches]
  · intro c hc hm
    unfold columnMatches at hm
    simp only [Bool.and_eq_true, Bool.or_eq_true, beq_iff_eq] at hm
    rcases hm.1 with hn | hn
    · exact List.inj_on_of_nodup_map hd hc hmem hn
    · exact absurd hn (hr c hc hm.2)

theorem HasColumn_self_nil (t : Table) (hd : t.DistinctColumnNames)
    (hne : t.NonEmptyColumnNames) (col : Column) (hmem : col ∈ t.Columns) :
    ∃ j, t.HasColumn [] col = some j ∧ t.Columns[j]? = some col := by
  apply HasColumn_self t hd [] col hmem
  intro c _ _ h
  exact hne col hmem (by simpa [RenameMap.get] using h.symm)

theorem HasColumn_ne_none_of_mem (t : Table) (r : RenameMap) (col : Column)
    (hmem : col ∈ t.Columns) : t.HasColumn r col ≠ none := by
  intro h
  unfold Table.HasColumn at h
  rw [hasColumnFrom_none_iff] at h
  have := h col hmem
  simp [columnMatches] at this

theorem HasColumn_eq_none (t : Table) (r : RenameMap) (col : Column)
    (h : ∀ c ∈ t.Columns, columnMatches r col c = false) : t.HasColumn r col = none := by
  unfold Table.HasColumn
  rw [hasColumnFrom_none_iff]
  exact h

theorem checkDropped_skip (dst : Table) (xs ys : List Column) (r : RenameMap)
    (h : ∀ col ∈ xs, dst.HasColumn r col ≠ none) :
    checkDropped dst (xs ++ ys) r = checkDropped dst ys r := by
  induction xs with
  | nil => rfl
  | cons col rest ih =>
    rw [List.cons_append]
    simp only [checkDropped]
    cases hc : dst.HasColumn r col with
    | none => exact absurd hc (h col (List.mem_cons_self _ _))
    | some j =>
      simp only
      exact ih (fun c hc => h c (List.mem_cons_of_mem _ hc))

theorem checkNew_skip (lower : String → String) (t : Table) (r : RenameMap)
    (xs ys : List Column)
    (h : ∀ col ∈ xs, ∃ i old, t.HasColumn r col = some i ∧ t.Columns[i]? = some old ∧
      col.Equals lower old = true) :
    checkNew lower t r (xs ++ ys) = checkNew lower t r ys := by
  induction xs with
  | nil => rfl
  | cons col rest ih =>
    obtain ⟨i, old, h1, h2, h3⟩ := h col (List.mem_cons_self _ _)
    rw [List.cons_append]
    simp only [checkNew, h1, h2, h3, Bool.not_true, Bool.false_eq_true, if_false]
    exact ih (fun c hc => h c (List.mem_cons_of_mem _ hc))

theorem checkNewReferences_skip (t : Table) (hd : t.DistinctRelations)
    (xs ys : List Reference) (h : ∀ r ∈ xs, r ∈ t.References) :
    checkNewReferences t (xs ++ ys) = checkNewReferences t ys := by
  induction xs with
  | nil => rfl
  | cons r rest ih =>
    have hr := h r (List.mem_cons_self _ _)
    have hrest := ih (fun r' hr' => h r' (List.mem_cons_of_mem _ hr'))
    rw [List.cons_append]
    simp only [checkNewReferences]
    cases hidx : indexFunc (fun r2 => sameRelation r r2) t.References with
    | none =>
      rw [indexFunc_none_iff] at hidx
      have := hidx r hr
      rw [sameRelation_refl] at this
      cases this
    | some k =>
      obtain ⟨x, hx1, hx2⟩ := indexFunc_some _ _ _ hidx
      have hxr : r = x := relation_unique t hd r x hr (List.getElem?_mem hx1) hx2
      subst hxr
      simp only [hx1, bne_self_eq_false, Bool.or_self, Bool.false_eq_true, if_false]
      exact hrest

theorem GetPrimaryKeyColumn_middle (t : Table) (pre post : List Column) (pk : Column)
    (ht : t.Columns = pre ++ pk :: post) (hpre : ∀ c ∈ pre, c.PrimaryKey = false)
    (hpk : pk.PrimaryKey = true) : t.GetPrimaryKeyColumn = some pk := by
  unfold Table.GetPrimaryKeyColumn
  rw [ht]
  clear ht
  induction pre with
  | nil => simp [hpk]
  | cons c rest ih =>
    have hc := hpre c (List.mem_cons_self _ _)
    simp only [List.cons_append, List.find?_cons, hc]
    exact ih (fun c hc => hpre c (List.mem_cons_of_mem _ hc))

/-- The part of a comparison that does not concern columns emits nothing when
the two tables hold the same references and the same unique indexes. -/
theorem compare_rest_nil (A B : Table) (hrefs : B.References = A.References)
    (hrel : A.DistinctRelations) (hidx : SameIndexes A B)
    (hkA : UniqueKeys A.IndexToUniqueCols) (hkB : UniqueKeys B.IndexToUniqueCols) :
    checkNewReferences A B.References = .ok [] ∧
      checkIndexes A .ADD_UNIQUE_INDEX B.IndexToUniqueCols [] = [] ∧
      checkIndexes B .DROP_UNIQUE_INDEX A.IndexToUniqueCols [] = [] ∧
      checkDroppedReferences B A.References = [] := by
  refine ⟨?_, ?_, ?_, ?_⟩
  · rw [hrefs]
    exact checkNewReferences_nil A hrel A.References (fun _ h => h)
  · apply checkIndexes_nil
    intro k v h
    rw [hidx k]
    exact mapLookup_of_mem _ hkB k v h
  · apply checkIndexes_nil
    intro k v h
    rw [← hidx k]
    exact mapLookup_of_mem _ hkA k v h
  · apply checkDroppedReferences_nil
    intro r h
    rw [hrefs]
    exact ⟨r, h, sameRelation_refl r⟩

/-! ## The claim about a renamed primary key -/

theorem RenameMap_get_single (k v k' : String) :
    RenameMap.get [(k, v)] k' = if k = k' then v else "" := by
  simp [RenameMap.get]

theorem Equals_rename (lower : String → String) (pk : Column) (newName : String) :
    Column.Equals lower { pk with Name := newName } pk =
      decide (lower newName = lower pk.Name) := by
  by_cases h : lower newName = lower pk.Name <;> simp [Column.Equals, h]

/-- C2 (as amended): for tables `A` and `B` that are identical except for the name
of their single primary-key column (the column names of `A` pairwise distinct and
non-empty, its references pairwise different relations), `A.CompareWith(B)` yields no
`DROP_COLUMN` and no `ADD_COLUMN` but a `RENAME_COLUMN` from the primary-key column of
`A` to that of `B`, followed by one `MODIFY_COLUMN` of the same pair of columns
unless the two names differ in letter case only. -/
theorem compareWith_renamed_primary_key (lower : String → String) (A B : Table) (g : RenameMap)
    (pre post : List Column) (pk : Column) (newName : String)
    (hA : A.Columns = pre ++ pk :: post)
    (hB : B.Columns = pre ++ { pk with Name := newName } :: post)
    (hpk : pk.PrimaryKey = true) (hother : ∀ c ∈ pre ++ post, c.PrimaryKey = false)
    (hname : newName ≠ pk.Name)
    (hdA : A.DistinctColumnNames) (hneA : A.NonEmptyColumnNames)
    (hrefs : B.References = A.References) (hrel : A.DistinctRelations)
    (hidx : SameIndexes A B) (hkA : UniqueKeys A.IndexToUniqueCols)
    (hkB : UniqueKeys B.IndexToUniqueCols) :
    A.CompareWith lower B g =
      .ok (NewColumnMigration (.column { pk with Name := newName }) (.column pk) .RENAME_COLUMN ::
        if lower newName = lower pk.Name then []
        else [NewColumnMigration (.column { pk with Name := newName }) (.column pk)
          .MODIFY_COLUMN]) := by
  have hpre : ∀ c ∈ pre, c.PrimaryKey = false := fun c hc =>
    hother c (List.mem_append_left _ hc)
  have hpost : ∀ c ∈ post, c.PrimaryKey = false := fun c hc =>
    hother c (List.mem_append_right _ hc)
  have hpkA : pk ∈ A.Columns := by rw [hA]; simp
  have hpkne : pk.Name ≠ "" := hneA pk hpkA
  have hBpk : B.GetPrimaryKeyColumn = some { pk with Name := newName } :=
    GetPrimaryKeyColumn_middle B pre post _ hB hpre hpk
  have hnone : B.HasColumn [] pk = none := by
    apply HasColumn_eq_none
    intro c hc
    rw [hB] at hc
    rcases List.mem_append.1 hc with hc | hc
    · simp [columnMatches, hpre c hc, hpk]
    · rcases List.mem_cons.1 hc with hc | hc
      · subst hc
        simp [columnMatches, RenameMap.get, hname, Ne.symm hpkne]
      · simp [columnMatches, hpost c hc, hpk]
  have h1 : checkDropped B A.Columns [] =
      .ok ([NewColumnMigration (.column { pk with Name := newName }) (.column pk)
        .RENAME_COLUMN], [(pk.Name, newName)]) := by
    rw [hA, checkDropped_skip B pre _ [] (fun c hc =>
      HasColumn_ne_none_of_mem B [] c (by rw [hB]; simp [hc]))]
    have hrest : checkDropped B post [(pk.Name, newName)] = .ok ([], [(pk.Name, newName)]) :=
      checkDropped_nil B post _ (fun c hc =>
        HasColumn_ne_none_of_mem B _ c (by rw [hB]; simp [hc]))
    simp only [checkDropped, hnone, hpk, if_true, hBpk, hrest]
  have hself : ∀ col ∈ pre ++ post, ∃ i old, A.HasColumn [(pk.Name, newName)] col = some i ∧
      A.Columns[i]? = some old ∧ col.Equals lower old = true := by
    intro col hcol
    have hcolA : col ∈ A.Columns := by
      rw [hA]
      rcases List.mem_append.1 hcol with h | h
      · simp [h]
      · simp [h]
    obtain ⟨j, hj, hj'⟩ := HasColumn_self A hdA [(pk.Name, newName)] col hcolA (by
      intro c hc hflag
      rw [RenameMap_get_single]
      have hcne : pk.Name ≠ c.Name := by
        intro heq
        have := List.inj_on_of_nodup_map hdA hpkA hc heq
        subst this
        rw [hother col hcol] at hflag
        rw [hpk] at hflag
        cases hflag
      rw [if_neg hcne]
      exact Ne.symm (hneA col hcolA))
    exact ⟨j, col, hj, hj', Equals_refl lower col⟩
  have hfind : ∃ j, A.HasColumn [(pk.Name, newName)] { pk with Name := newName } = some j ∧
      A.Columns[j]? = some pk := by
    apply HasColumn_of_unique A _ _ pk hpkA
    · simp [columnMatches, RenameMap.get]
    · intro c hc hm
      rw [hA] at hc
      simp only [columnMatches, Bool.and_eq_true, beq_iff_eq, hpk] at hm
      rcases List.mem_append.1 hc with hc | hc
      · rw [hpre c hc] at hm
        cases hm.2
      · rcases List.mem_cons.1 hc with hc | hc
        · exact hc
        · rw [hpost c hc] at hm
          cases hm.2
  obtain ⟨j, hj, hj'⟩ := hfind
  have h2 : checkNew lower A [(pk.Name, newName)] B.Columns =
      .ok (if lower newName = lower pk.Name then []
        else [NewColumnMigration (.column { pk with Name := newName }) (.column pk)
          .MODIFY_COLUMN]) := by
    rw [hB, checkNew_skip lower A _ pre _ (fun c hc => hself c (List.mem_append_left _ hc))]
    have hrest : checkNew lower A [(pk.Name, newName)] post = .ok [] :=
      checkNew_nil lower A _ post (fun c hc => hself c (List.mem_append_right _ hc))
    simp only [checkNew, hj, hj', hrest, Equals_rename]
    by_cases h : lower newName = lower pk.Name <;> simp [h]
  obtain ⟨h3, h4, h5, h6⟩ := compare_rest_nil A B hrefs hrel hidx hkA hkB
  simp [Table.CompareWith, Table.CompareWithState, h1, h2, h3, h4, h5, h6]

/-- C2, witness: `users{id PK, name}` compared with `users{user_id PK, name}`; the names
`id` and `user_id` differ in more than letter case, so the list has two operations. -/
theorem compareWith_renamed_primary_key_witness :
    usersIdName.Columns = [] ++ idColumn :: [nameColumn] ∧
      usersUserIdName.Columns = [] ++ { idColumn with Name := "user_id" } :: [nameColumn] ∧
      idColumn.PrimaryKey = true ∧ (∀ c ∈ [] ++ [nameColumn], c.PrimaryKey = false) ∧
      "user_id" ≠ idColumn.Name ∧
      usersIdName.CompareWith asciiLower usersUserIdName [] =
        .ok (NewColumnMigration (.column { idColumn with Name := "user_id" })
            (.column idColumn) .RENAME_COLUMN ::
          if asciiLower "user_id" = asciiLower idColumn.Name then []
          else [NewColumnMigration (.column { idColumn with Name := "user_id" })
            (.column idColumn) .MODIFY_COLUMN]) :=
  ⟨rfl, rfl, rfl, by decide, by decide,
    compareWith_renamed_primary_key asciiLower usersIdName usersUserIdName [] [] [nameColumn]
      idColumn "user_id" rfl rfl rfl (by decide) (by decide) (by decide) (by decide) rfl
      (by decide) (fun _ => rfl) (by decide) (by decide)⟩

/-- C2, counterexample: renaming the primary key `id` of `users{id PK, name}` to
`user_id` yields two operations, the `RENAME_COLUMN` and a `MODIFY_COLUMN` of the
renamed column, not one. -/
theorem compareWith_rename_two_operations :
    usersIdName.CompareWith asciiLower usersUserIdName [] =
      .ok [NewColumnMigration (.column { idColumn with Name := "user_id" })
          (.column idColumn) .RENAME_COLUMN,
        NewColumnMigration (.column { idColumn with Name := "user_id" })
          (.column idColumn) .MODIFY_COLUMN] :=
  rfl

/-! ## The claims about one added reference, one added and one removed column -/

theorem find?_of_unique {α : Type} (p : α → Bool) (l : List α) (x : α) (hx : x ∈ l)
    (hp : p x = true) (hu : ∀ y ∈ l, p y = true → y = x) : l.find? p = some x := by
  induction l with
  | nil => cases hx
  | cons a rest ih =>
    by_cases ha : p a = true
    · rw [List.find?_cons_of_pos _ ha, hu a (List.mem_cons_self _ _) ha]
    · rw [List.find?_cons_of_neg _ ha]
      rcases List.mem_cons.1 hx with h | h
      · subst h
        exact absurd hp ha
      · exact ih h (fun y hy => hu y (List.mem_cons_of_mem _ hy))

theorem HasColumn_congr (A B : Table) (h : B.Columns = A.Columns) (r : RenameMap)
    (col : Column) : B.HasColumn r col = A.HasColumn r col := by
  unfold Table.HasColumn
  rw [h]

/-- C3 (as amended): for every table `A` whose column names are pairwise distinct and
non-empty and whose references are pairwise different relations, and every table `B`
with the same columns, indexes and references plus one additional reference `r` that
is the same relation as no reference of `A`, `A.CompareWith(B)` yields exactly one
operation, `ADD_FOREIGN_KEY` carrying `r`. -/
theorem compareWith_added_reference (lower : String → String) (A B : Table) (g : RenameMap)
    (pre post : List Reference) (r : Reference)
    (hcols : B.Columns = A.Columns)
    (hA : A.References = pre ++ post) (hB : B.References = pre ++ r :: post)
    (hnew : ∀ r2 ∈ A.References, sameRelation r r2 = false)
    (hd : A.DistinctColumnNames) (hne : A.NonEmptyColumnNames) (hrel : A.DistinctRelations)
    (hidx : SameIndexes A B) (hkA : UniqueKeys A.IndexToUniqueCols)
    (hkB : UniqueKeys B.IndexToUniqueCols) :
    A.CompareWith lower B g =
      .ok [NewColumnMigration (.reference r) .nil .ADD_FOREIGN_KEY] := by
  have h1 : checkDropped B A.Columns [] = .ok ([], []) := by
    apply checkDropped_nil
    intro col hcol
    exact HasColumn_ne_none_of_mem B [] col (by rw [hcols]; exact hcol)
  have h2 : checkNew lower A [] B.Columns = .ok [] := by
    rw [hcols]
    apply checkNew_nil
    intro col hcol
    obtain ⟨j, hj, hj'⟩ := HasColumn_self_nil A hd hne col hcol
    exact ⟨j, col, hj, hj', Equals_refl lower col⟩
  have hpreA : ∀ x ∈ pre, x ∈ A.References := fun x hx => by rw [hA]; simp [hx]
  have hpostA : ∀ x ∈ post, x ∈ A.References := fun x hx => by rw [hA]; simp [hx]
  have h3 : checkNewReferences A B.References =
      .ok [NewColumnMigration (.reference r) .nil .ADD_FOREIGN_KEY] := by
    rw [hB, checkNewReferences_skip A hrel pre _ hpreA]
    have hnone : indexFunc (fun r2 => sameRelation r r2) A.References = none := by
      rw [indexFunc_none_iff]
      exact hnew
    simp only [checkNewReferences, hnone, checkNewReferences_nil A hrel post hpostA]
  have h4 : checkIndexes A .ADD_UNIQUE_INDEX B.IndexToUniqueCols [] = [] := by
    apply checkIndexes_nil
    intro k v h
    rw [hidx k]
    exact mapLookup_of_mem _ hkB k v h
  have h5 : checkIndexes B .DROP_UNIQUE_INDEX A.IndexToUniqueCols [] = [] := by
    apply checkIndexes_nil
    intro k v h
    rw [← hidx k]
    exact mapLookup_of_mem _ hkA k v h
  have h6 : checkDroppedReferences B A.References = [] := by
    apply checkDroppedReferences_nil
    intro x hx
    refine ⟨x, ?_, sameRelation_refl x⟩
    rw [hA] at hx
    rw [hB]
    rcases List.mem_append.1 hx with h | h
    · simp [h]
    · simp [h]
  simp [Table.CompareWith, Table.CompareWithState, h1, h2, h3, h4, h5, h6]

/-- C4 (as amended): for every table `A` whose column names are pairwise distinct and
non-empty (its references pairwise different relations) and every table `B` obtained
from `A` by appending one non-primary-key column `c` whose name is non-empty and does
not occur in `A`, `A.CompareWith(B)` yields exactly one operation, `ADD_COLUMN` with
`c` as its payload. -/
theorem compareWith_appended_column (lower : String → String) (A B : Table) (g : RenameMap)
    (c : Column) (hB : B.Columns = A.Columns ++ [c]) (hc : c.PrimaryKey = false)
    (hfresh : ∀ a ∈ A.Columns, a.Name ≠ c.Name) (hcne : c.Name ≠ "")
    (hd : A.DistinctColumnNames) (hne : A.NonEmptyColumnNames)
    (hrefs : B.References = A.References) (hrel : A.DistinctRelations)
    (hidx : SameIndexes A B) (hkA : UniqueKeys A.IndexToUniqueCols)
    (hkB : UniqueKeys B.IndexToUniqueCols) :
    A.CompareWith lower B g = .ok [NewColumnMigration (.column c) .nil .ADD_COLUMN] := by
  have h1 : checkDropped B A.Columns [] = .ok ([], []) := by
    apply checkDropped_nil
    intro col hcol
    exact HasColumn_ne_none_of_mem B [] col (by rw [hB]; simp [hcol])
  have hnone : A.HasColumn [] c = none := by
    apply HasColumn_eq_none
    intro a ha
    simp [columnMatches, RenameMap.get, hfresh a ha, Ne.symm hcne]
  have h2 : checkNew lower A [] B.Columns =
      .ok [NewColumnMigration (.column c) .nil .ADD_COLUMN] := by
    rw [hB, checkNew_skip lower A [] A.Columns _ (fun col hcol => by
      obtain ⟨j, hj, hj'⟩ := HasColumn_self_nil A hd hne col hcol
      exact ⟨j, col, hj, hj', Equals_refl lower col⟩)]
    simp [checkNew, hnone, hc]
  obtain ⟨h3, h4, h5, h6⟩ := compare_rest_nil A B hrefs hrel hidx hkA hkB
  simp [Table.CompareWith, Table.CompareWithState, h1, h2, h3, h4, h5, h6]

/-- C5 (as amended): for every table `A` whose column names are pairwise distinct and
non-empty (its references pairwise different relations) and every table `B` obtained
from `A` by removing one non-primary-key column `c`, `A.CompareWith(B)` yields exactly
one operation, `DROP_COLUMN` with `c` as its payload. -/
theorem compareWith_removed_column (lower : String → String) (A B : Table) (g : RenameMap)
    (pre post : List Column) (c : Column)
    (hA : A.Columns = pre ++ c :: post) (hB : B.Columns = pre ++ post)
    (hc : c.PrimaryKey = false)
    (hd : A.DistinctColumnNames) (hne : A.NonEmptyColumnNames)
    (hrefs : B.References = A.References) (hrel : A.DistinctRelations)
    (hidx : SameIndexes A B) (hkA : UniqueKeys A.IndexToUniqueCols)
    (hkB : UniqueKeys B.IndexToUniqueCols) :
    A.CompareWith lower B g = .ok [NewColumnMigration (.column c) .nil .DROP_COLUMN] := by
  have hcA : c ∈ A.Columns := by rw [hA]; simp
  have hBA : ∀ b ∈ B.Columns, b ∈ A.Columns := by
    intro b hb
    rw [hB] at hb
    rw [hA]
    rcases List.mem_append.1 hb with h | h
    · simp [h]
    · simp [h]
  have hnames : ∀ b ∈ B.Columns, b.Name ≠ c.Name := by
    intro b hb heq
    have hd' := hd
    unfold Table.DistinctColumnNames at hd'
    rw [hA, List.map_append, List.map_cons, List.nodup_middle, List.nodup_cons] at hd'
    apply hd'.1
    rw [← List.map_append, ← hB, ← heq]
    exact List.mem_map_of_mem _ hb
  have hnone : B.HasColumn [] c = none := by
    apply HasColumn_eq_none
    intro b hb
    simp [columnMatches, RenameMap.get, hnames b hb, Ne.symm (hne c hcA)]
  have h1 : checkDropped B A.Columns [] =
      .ok ([NewColumnMigration (.column c) .nil .DROP_COLUMN], []) := by
    rw [hA, checkDropped_skip B pre _ [] (fun col hcol =>
      HasColumn_ne_none_of_mem B [] col (by rw [hB]; simp [hcol]))]
    have hrest : checkDropped B post [] = .ok ([], []) :=
      checkDropped_nil B post _ (fun col hcol =>
        HasColumn_ne_none_of_mem B _ col (by rw [hB]; simp [hcol]))
    simp [checkDropped, hnone, hc, hrest]
  have h2 : checkNew lower A [] B.Columns = .ok [] := by
    apply checkNew_nil
    intro col hcol
    obtain ⟨j, hj, hj'⟩ := HasColumn_self_nil A hd hne col (hBA col hcol)
    exact ⟨j, col, hj, hj', Equals_refl lower col⟩
  obtain ⟨h3, h4, h5, h6⟩ := compare_rest_nil A B hrefs hrel hidx hkA hkB
  simp [Table.CompareWith, Table.CompareWithState, h1, h2, h3, h4, h5, h6]

/-- C3, witness: the tables of `TestCompareWith_AddForeignKey`. -/
theorem compareWith_added_reference_witness :
    ordersWithReference.Columns = ordersTable.Columns ∧
      ordersTable.References = [] ++ [] ∧
      ordersWithReference.References = [] ++ ordersUserReference :: [] ∧
      (∀ r2 ∈ ordersTable.References, sameRelation ordersUserReference r2 = false) ∧
      ordersTable.CompareWith asciiLower ordersWithReference [] =
        .ok [NewColumnMigration (.reference ordersUserReference) .nil .ADD_FOREIGN_KEY] :=
  ⟨rfl, rfl, rfl, by decide,
    compareWith_added_reference asciiLower ordersTable ordersWithReference [] [] []
      ordersUserReference rfl rfl rfl (by decide) (by decide) (by decide) (by decide)
      (fun _ => rfl) (by decide) (by decide)⟩

/-- C3, counterexample: `orders{id PK, user_id int, user_id bigint}` and the same
table with the reference `orders.user_id -> users.id` added differ in that one
reference only, and the comparison yields two operations, a `MODIFY_COLUMN` of the
second `user_id` column before the `ADD_FOREIGN_KEY`. -/
theorem compareWith_added_reference_two_operations :
    ordersRepeatedWithReference.Columns = ordersRepeated.Columns ∧
      ordersRepeatedWithReference.IndexToUniqueCols = ordersRepeated.IndexToUniqueCols ∧
      ordersRepeatedWithReference.References =
        ordersRepeated.References ++ [ordersUserReference] ∧
      (∀ r2 ∈ ordersRepeated.References, sameRelation ordersUserReference r2 = false) ∧
      ordersRepeated.CompareWith asciiLower ordersRepeatedWithReference [] =
      .ok [NewColumnMigration (.column { Name := "user_id", ColumnType := "bigint" })
          (.column userIdColumn) .MODIFY_COLUMN,
        NewColumnMigration (.reference ordersUserReference) .nil .ADD_FOREIGN_KEY] :=
  ⟨rfl, rfl, rfl, by decide, rfl⟩

/-- C4, witness: the tables of `TestCompareWith_AddColumn`. -/
theorem compareWith_appended_column_witness :
    usersIdName.Columns = usersId.Columns ++ [nameColumn] ∧
      nameColumn.PrimaryKey = false ∧
      (∀ a ∈ usersId.Columns, a.Name ≠ nameColumn.Name) ∧
      usersId.CompareWith asciiLower usersIdName [] =
        .ok [NewColumnMigration (.column nameColumn) .nil .ADD_COLUMN] :=
  ⟨rfl, rfl, by decide,
    compareWith_appended_column asciiLower usersId usersIdName [] nameColumn rfl rfl
      (by decide) (by decide) (by decide) (by decide) rfl (by decide) (fun _ => rfl)
      (by decide) (by decide)⟩

/-- C4, counterexample: appending to `users{id PK, name}`, whose column names are
distinct, a non-primary-key column with the empty name, which does not occur in the
table, yields a `MODIFY_COLUMN` of that column against `name` and no `ADD_COLUMN`. -/
theorem compareWith_appended_unnamed_column :
    usersIdName.DistinctColumnNames ∧
      usersIdNameUnnamed.Columns = usersIdName.Columns ++ [unnamedColumn] ∧
      unnamedColumn.PrimaryKey = false ∧
      (∀ a ∈ usersIdName.Columns, a.Name ≠ unnamedColumn.Name) ∧
      usersIdName.CompareWith asciiLower usersIdNameUnnamed [] =
        .ok [NewColumnMigration (.column unnamedColumn) (.column nameColumn)
          .MODIFY_COLUMN] :=
  ⟨by decide, rfl, rfl, by decide, rfl⟩

/-- C5, witness: the tables of `TestCompareWith_DropColumn`. -/
theorem compareWith_removed_column_witness :
    usersIdName.Columns = [idColumn] ++ nameColumn :: [] ∧
      usersId.Columns = [idColumn] ++ [] ∧ nameColumn.PrimaryKey = false ∧
      usersIdName.CompareWith asciiLower usersId [] =
        .ok [NewColumnMigration (.column nameColumn) .nil .DROP_COLUMN] :=
  ⟨rfl, rfl, rfl,
    compareWith_removed_column asciiLower usersIdName usersId [] [idColumn] [] nameColumn
      rfl rfl rfl (by decide) (by decide) rfl (by decide) (fun _ => rfl) (by decide)
      (by decide)⟩

/-- C5, counterexample: removing from `users{id PK, name, ""}`, whose column names
are distinct, the non-primary-key column with the empty name yields no operation:
the column is taken to be present in the target table. -/
theorem compareWith_removed_unnamed_column :
    usersIdNameUnnamed.DistinctColumnNames ∧
      usersIdNameUnnamed.Columns = [idColumn, nameColumn] ++ unnamedColumn :: [] ∧
      usersIdName.Columns = [idColumn, nameColumn] ++ [] ∧
      unnamedColumn.PrimaryKey = false ∧
      usersIdNameUnnamed.CompareWith asciiLower usersIdName [] = .ok [] :=
  ⟨by decide, rfl, rfl, rfl, rfl⟩

/-! ## The claim about modified columns -/

/-- C1 (as amended): for every table `T` whose column names are pairwise distinct and
non-empty and whose references are pairwise different relations (its index map holding
each key once, as a Go map does), `T.CompareWith(T)` returns the empty operation list,
whatever the rename map held before. -/
theorem compareWith_self_empty (lower : String → String) (T : Table) (g : RenameMap)
    (hd : T.DistinctColumnNames) (hne : T.NonEmptyColumnNames) (hr : T.DistinctRelations)
    (hk : UniqueKeys T.IndexToUniqueCols) :
    T.CompareWith lower T g = .ok [] := by
  have h1 : checkDropped T T.Columns [] = .ok ([], []) := by
    apply checkDropped_nil
    intro col hcol
    exact HasColumn_ne_none_of_mem T [] col hcol
  have h2 : checkNew lower T [] T.Columns = .ok [] := by
    apply checkNew_nil
    intro col hcol
    obtain ⟨j, hj, hj'⟩ := HasColumn_self_nil T hd hne col hcol
    exact ⟨j, col, hj, hj', Equals_refl lower col⟩
  obtain ⟨h3, h4, h5, h6⟩ := compare_rest_nil T T rfl hr (fun _ => rfl) hk hk
  simp [Table.CompareWith, Table.CompareWithState, h1, h2, h3, h4, h5, h6]

/-- C1, witness: `usersTable` compared with itself, after a comparison that left a
rename behind. -/
theorem compareWith_self_empty_witness :
    usersTable.DistinctColumnNames ∧ usersTable.NonEmptyColumnNames ∧
      usersTable.DistinctRelations ∧ UniqueKeys usersTable.IndexToUniqueCols ∧
      usersTable.CompareWith asciiLower usersTable [("id", "user_id")] = .ok [] :=
  ⟨by decide, by decide, by decide, by decide,
    compareWith_self_empty asciiLower usersTable [("id", "user_id")] (by decide) (by decide)
      (by decide) (by decide)⟩

/-- C1, counterexample: a table with two columns named `age` compared with itself
yields a `MODIFY_COLUMN` of the second `age` against the first, and a table whose
third column has the empty name yields a `MODIFY_COLUMN` of that column against
`age`, because `renamedColumns["age"]` reads as the empty string. -/
theorem compareWith_self_nonempty :
    repeatedNameTable.CompareWith asciiLower repeatedNameTable [] =
        .ok [NewColumnMigration (.column { Name := "age", ColumnType := "varchar(255)" })
          (.column ageColumn) .MODIFY_COLUMN] ∧
      emptyNameTable.CompareWith asciiLower emptyNameTable [] =
        .ok [NewColumnMigration (.column unnamedColumn) (.column ageColumn)
          .MODIFY_COLUMN] :=
  ⟨rfl, rfl⟩


/-! ## The claims about column equality and about the order after sorting -/

theorem Equals_iff (lower : String → String) (c d : Column) :
    c.Equals lower d = true ↔
      lower c.Name = lower d.Name ∧ lower c.ColumnType = lower d.ColumnType ∧
        lower c.Null = lower d.Null ∧ lower c.Extra = lower d.Extra ∧
        ¬ (c.DefaultValue.Valid ≠ d.DefaultValue.Valid ∧
          c.DefaultValue.String ≠ d.DefaultValue.String) := by
  unfold Column.Equals
  simp only [Bool.or_eq_true, Bool.and_eq_true, bne_iff_ne, ne_eq]
  constructor
  · intro h
    split at h
    · cases h
    · tauto
  · intro h
    split
    · tauto
    · rfl

/-- C7: `Equals` at the failing inputs. Two columns that differ in their default value
only (`0` and `1`) are reported equal, and so are a column without a default value and
the same column with the empty string as its default value. -/
theorem Equals_ignores_default :
    scoreDefaultZero.Equals asciiLower scoreDefaultOne = true ∧
      noteNoDefault.Equals asciiLower noteEmptyDefault = true :=
  ⟨rfl, rfl⟩

theorem perm_insertStable (m : ColumnMigration) (xs : List ColumnMigration) :
    (insertStable m xs).Perm (m :: xs) := by
  induction xs with
  | nil => simp [insertStable]
  | cons x xs ih =>
    unfold insertStable
    split
    · exact (List.Perm.cons x ih).trans (List.Perm.swap m x xs)
    · exact List.Perm.refl _

theorem perm_sortMigrations (ms : List ColumnMigration) :
    (SortMigrationsByOperationPriority ms).Perm ms := by
  induction ms with
  | nil => simp [SortMigrationsByOperationPriority]
  | cons m ms ih =>
    unfold SortMigrationsByOperationPriority
    exact (perm_insertStable m _).trans (List.Perm.cons m ih)

/-- C10: for every list of operations, `SortMigrationsByOperationPriority` rearranges
the list so that no operation is followed by one of a higher-priority kind, for the
fixed priority `DROP_FOREIGN_KEY < DROP_UNIQUE_INDEX < DROP_COLUMN < RENAME_COLUMN <
MODIFY_COLUMN < ADD_COLUMN < UPDATE_FOREIGN_KEY < ADD_FOREIGN_KEY < ADD_UNIQUE_INDEX`;
in particular no `DROP_COLUMN` stands before a `DROP_FOREIGN_KEY` and no
`ADD_FOREIGN_KEY` before an `ADD_COLUMN`. -/
theorem sortMigrations_ordered (ms : List ColumnMigration) :
    (SortMigrationsByOperationPriority ms).Perm ms ∧
      (SortMigrationsByOperationPriority ms).Pairwise
        (fun a b => a.Operation.toInt ≤ b.Operation.toInt) ∧
      (ColumnOperation.DROP_FOREIGN_KEY.toInt < ColumnOperation.DROP_UNIQUE_INDEX.toInt ∧
        ColumnOperation.DROP_UNIQUE_INDEX.toInt < ColumnOperation.DROP_COLUMN.toInt ∧
        ColumnOperation.DROP_COLUMN.toInt < ColumnOperation.RENAME_COLUMN.toInt ∧
        ColumnOperation.RENAME_COLUMN.toInt < ColumnOperation.MODIFY_COLUMN.toInt ∧
        ColumnOperation.MODIFY_COLUMN.toInt < ColumnOperation.ADD_COLUMN.toInt ∧
        ColumnOperation.ADD_COLUMN.toInt < ColumnOperation.UPDATE_FOREIGN_KEY.toInt ∧
        ColumnOperation.UPDATE_FOREIGN_KEY.toInt < ColumnOperation.ADD_FOREIGN_KEY.toInt ∧
        ColumnOperation.ADD_FOREIGN_KEY.toInt < ColumnOperation.ADD_UNIQUE_INDEX.toInt) ∧
      (SortMigrationsByOperationPriority ms).Pairwise
        (fun a b => ¬ (a.Operation = .DROP_COLUMN ∧ b.Operation = .DROP_FOREIGN_KEY)) ∧
      (SortMigrationsByOperationPriority ms).Pairwise
        (fun a b => ¬ (a.Operation = .ADD_FOREIGN_KEY ∧ b.Operation = .ADD_COLUMN)) := by
  have hp := pairwise_sortMigrations ms
  refine ⟨perm_sortMigrations ms, hp, by decide, ?_, ?_⟩
  · refine hp.imp ?_
    intro a b hab h
    unfold priorityLe at hab
    rw [h.1, h.2] at hab
    exact absurd hab (by decide)
  · refine hp.imp ?_
    intro a b hab h
    unfold priorityLe at hab
    rw [h.1, h.2] at hab
    exact absurd hab (by decide)


/-! ## What each loop of `CompareWith` computes -/

theorem hasColumnFrom_find? (r : RenameMap) (col : Column) (cs : List Column) (i : Nat) :
    match hasColumnFrom r col cs i with
    | none => cs.find? (columnMatches r col) = none
    | some k => i ≤ k ∧ cs[k - i]? = cs.find? (columnMatches r col) ∧
        (cs.find? (columnMatches r col)).isSome = true := by
  induction cs generalizing i with
  | nil => simp [hasColumnFrom]
  | cons c cs ih =>
    unfold hasColumnFrom
    by_cases hm : columnMatches r col c = true
    · have hm' := hm
      unfold columnMatches at hm'
      rw [if_pos hm']
      simp [hm]
    · have hm' := hm
      unfold columnMatches at hm'
      rw [if_neg hm']
      have := ih (i + 1)
      cases hres : hasColumnFrom r col cs (i + 1) with
      | none =>
        rw [hres] at this
        simp only at this
        simp [hm, this]
      | some k =>
        rw [hres] at this
        simp only at this
        obtain ⟨h1, h2, h3⟩ := this
        have hk : k - i = (k - (i + 1)) + 1 := by omega
        refine ⟨by omega, ?_, ?_⟩
        · rw [hk, List.getElem?_cons_succ, h2, List.find?_cons_of_neg _ hm]
        · rw [List.find?_cons_of_neg _ hm]
          exact h3

/-- The column `HasColumn` finds is the first column that passes `columnMatches`. -/
theorem HasColumn_find? (t : Table) (r : RenameMap) (col : Column) :
    match t.HasColumn r col with
    | none => t.Columns.find? (columnMatches r col) = none
    | some k => t.Columns[k]? = t.Columns.find? (columnMatches r col) ∧
        (t.Columns.find? (columnMatches r col)).isSome = true := by
  have := hasColumnFrom_find? r col t.Columns 0
  unfold Table.HasColumn
  cases hres : hasColumnFrom r col t.Columns 0 with
  | none =>
    rw [hres] at this
    exact this
  | some k =>
    rw [hres] at this
    simp only [Nat.sub_zero] at this
    exact ⟨this.2.1, this.2.2⟩

/-- The step of the second loop of `CompareWith` for the target column `col`. -/
theorem checkNew_eq (lower : String → String) (t : Table) (r : RenameMap)
    (cols : List Column) :
    checkNew lower t r cols = .ok (cols.filterMap (fun col =>
      match t.Columns.find? (columnMatches r col) with
      | none =>
        if col.PrimaryKey then none
        else some (NewColumnMigration (.column col) .nil .ADD_COLUMN)
      | some old =>
        if col.Equals lower old then none
        else some (NewColumnMigration (.column col) (.column old) .MODIFY_COLUMN))) := by
  induction cols with
  | nil => rfl
  | cons col rest ih =>
    have hf := HasColumn_find? t r col
    simp only [checkNew, ih, List.filterMap_cons]
    cases hres : t.HasColumn r col with
    | none =>
      rw [hres] at hf
      simp only at hf
      rw [hf]
      by_cases hpk : col.PrimaryKey = true <;> simp [hpk]
    | some k =>
      rw [hres] at hf
      simp only at hf
      obtain ⟨h1, h2⟩ := hf
      obtain ⟨old, hold⟩ := Option.isSome_iff_exists.1 h2
      rw [hold] at h1
      simp only [h1, hold]
      by_cases he : col.Equals lower old = true <;> simp [he]

theorem checkDroppedReferences_eq (dst : Table) (refs : List Reference) :
    checkDroppedReferences dst refs = refs.filterMap (fun r1 =>
      if dst.References.any (fun r2 => sameRelation r1 r2) then none
      else some (NewColumnMigration (.reference r1) .nil .DROP_FOREIGN_KEY)) := by
  induction refs with
  | nil => rfl
  | cons r rest ih =>
    simp only [checkDroppedReferences, ih, List.filterMap_cons]
    by_cases h : dst.References.any (fun r2 => sameRelation r r2) = true <;> simp [h]

theorem indexFunc_find? {α : Type} (p : α → Bool) (l : List α) :
    match indexFunc p l with
    | none => l.find? p = none
    | some k => l[k]? = l.find? p ∧ (l.find? p).isSome = true := by
  induction l with
  | nil => simp [indexFunc]
  | cons x xs ih =>
    unfold indexFunc
    by_cases hp : p x = true
    · simp [hp]
    · rw [if_neg hp]
      cases hres : indexFunc p xs with
      | none =>
        rw [hres] at ih
        simp only at ih
        simp [hp, ih]
      | some k =>
        rw [hres] at ih
        simp only at ih
        simp [hp, ih]

theorem checkNewReferences_eq (t : Table) (refs : List Reference) :
    checkNewReferences t refs = .ok (refs.filterMap (fun r1 =>
      match t.References.find? (fun r2 => sameRelation r1 r2) with
      | none => some (NewColumnMigration (.reference r1) .nil .ADD_FOREIGN_KEY)
      | some old =>
        if old.UpdateOption != r1.UpdateOption || old.DeleteOption != r1.DeleteOption then
          some (NewColumnMigration (.reference r1) (.reference old) .UPDATE_FOREIGN_KEY)
        else none)) := by
  induction refs with
  | nil => rfl
  | cons r rest ih =>
    have hf := indexFunc_find? (fun r2 => sameRelation r r2) t.References
    simp only [checkNewReferences, ih, List.filterMap_cons]
    cases hres : indexFunc (fun r2 => sameRelation r r2) t.References with
    | none =>
      rw [hres] at hf
      simp only at hf
      simp [hf]
    | some k =>
      rw [hres] at hf
      simp only at hf
      obtain ⟨h1, h2⟩ := hf
      obtain ⟨old, hold⟩ := Option.isSome_iff_exists.1 h2
      rw [hold] at h1
      simp only [h1, hold]
      by_cases he : (old.UpdateOption != r.UpdateOption || old.DeleteOption != r.DeleteOption)
          = true <;> simp [he]

theorem checkIndexes_eq (other : Table) (op : ColumnOperation)
    (entries : List (String × List String)) (seen : List String)
    (hk : UniqueKeys entries) (hseen : ∀ k ∈ seen, k ∉ entries.map Prod.fst) :
    checkIndexes other op entries seen = entries.filterMap (fun e =>
      if mapLookup other.IndexToUniqueCols e.1 = some e.2 then none
      else some (NewColumnMigration (.str e.1) (.strs e.2) op)) := by
  induction entries generalizing seen with
  | nil => rfl
  | cons e rest ih =>
    obtain ⟨k, v⟩ := e
    unfold UniqueKeys at hk
    rw [List.map_cons, List.nodup_cons] at hk
    have hks : seen.contains k = false := by
      rw [← Bool.not_eq_true]
      intro hmem
      exact hseen k (by simpa using hmem) (by simp)
    have hcmp : (other.CompareUniqueIndex k v == 1) =
        !decide (mapLookup other.IndexToUniqueCols k = some v) := by
      unfold Table.CompareUniqueIndex
      cases hl : mapLookup other.IndexToUniqueCols k with
      | none => simp
      | some cols =>
        by_cases hc : cols = v
        · simp [hc]
        · simp [hc]
    simp only [checkIndexes, hks, hcmp, List.filterMap_cons]
    by_cases hl : mapLookup other.IndexToUniqueCols k = some v
    · simp only [hl, decide_True, Bool.not_true, Bool.false_eq_true, if_false, if_true]
      exact ih seen hk.2 (fun k' hk' hin =>
        hseen k' hk' (by rw [List.map_cons]; exact List.mem_cons_of_mem _ hin))
    · simp only [hl, decide_False, Bool.not_false, if_true, if_false, Bool.false_eq_true]
      congr 1
      apply ih (seen ++ [k]) hk.2
      intro k' hk' hin
      rcases List.mem_append.1 hk' with h | h
      · exact hseen k' h (by rw [List.map_cons]; exact List.mem_cons_of_mem _ hin)
      · simp only [List.mem_singleton] at h
        subst h
        exact hk.1 hin


/-! ## The column loops on tables with one primary key -/

theorem filter_length_one {α : Type} (p : α → Bool) (l : List α)
    (h : (l.filter p).length = 1) :
    ∃ pre x post, l = pre ++ x :: post ∧ p x = true ∧ (∀ c ∈ pre, p c = false) ∧
      (∀ c ∈ post, p c = false) := by
  induction l with
  | nil => simp at h
  | cons a rest ih =>
    by_cases ha : p a = true
    · rw [List.filter_cons_of_pos ha] at h
      simp only [List.length_cons, Nat.add_left_eq_self, List.length_eq_zero] at h
      refine ⟨[], a, rest, rfl, ha, by simp, ?_⟩
      intro c hc
      by_contra hpc
      simp only [Bool.not_eq_false] at hpc
      have : c ∈ rest.filter p := List.mem_filter.2 ⟨hc, hpc⟩
      rw [h] at this
      cases this
    · rw [List.filter_cons_of_neg ha] at h
      obtain ⟨pre, x, post, h1, h2, h3, h4⟩ := ih h
      refine ⟨a :: pre, x, post, by rw [h1]; rfl, h2, ?_, h4⟩
      intro c hc
      rcases List.mem_cons.1 hc with hc | hc
      · subst hc
        simpa using ha
      · exact h3 c hc

theorem SinglePrimaryKey_split (t : Table) (h : t.SinglePrimaryKey) :
    ∃ pre pk post, t.Columns = pre ++ pk :: post ∧ pk.PrimaryKey = true ∧
      (∀ c ∈ pre, c.PrimaryKey = false) ∧ (∀ c ∈ post, c.PrimaryKey = false) := by
  unfold Table.SinglePrimaryKey at h
  exact filter_length_one (fun c : Column => c.PrimaryKey) t.Columns h

theorem find?_congr {α : Type} (p q : α → Bool) (l : List α)
    (h : ∀ x ∈ l, p x = q x) : l.find? p = l.find? q := by
  induction l with
  | nil => rfl
  | cons a rest ih =>
    simp only [List.find?_cons, h a (List.mem_cons_self _ _)]
    rw [ih (fun x hx => h x (List.mem_cons_of_mem _ hx))]

theorem filterMap_congr_mem {α β : Type} (f g : α → Option β) (l : List α)
    (h : ∀ x ∈ l, f x = g x) : l.filterMap f = l.filterMap g := by
  induction l with
  | nil => rfl
  | cons a rest ih =>
    simp only [List.filterMap_cons, h a (List.mem_cons_self _ _)]
    rw [ih (fun x hx => h x (List.mem_cons_of_mem _ hx))]

/-- The first loop on source columns that are not primary keys: the rename map is
left as it is. -/
theorem checkDropped_plain (dst : Table) (cols : List Column) (r : RenameMap)
    (hcols : ∀ col ∈ cols, col.PrimaryKey = false) :
    checkDropped dst cols r = .ok (cols.filterMap (fun col =>
      match dst.Columns.find? (columnMatches r col) with
      | some _ => none
      | none => some (NewColumnMigration (.column col) .nil .DROP_COLUMN)), r) := by
  induction cols with
  | nil => rfl
  | cons col rest ih =>
    have hf := HasColumn_find? dst r col
    have hrest := ih (fun c hc => hcols c (List.mem_cons_of_mem _ hc))
    have hpk := hcols col (List.mem_cons_self _ _)
    simp only [checkDropped, hrest, List.filterMap_cons, hpk]
    cases hres : dst.HasColumn r col with
    | none =>
      rw [hres] at hf
      simp only at hf
      simp [hf]
    | some k =>
      rw [hres] at hf
      simp only at hf
      obtain ⟨old, hold⟩ := Option.isSome_iff_exists.1 hf.2
      simp [hold]

theorem checkDropped_append_plain (dst : Table) (xs ys : List Column) (r : RenameMap)
    (hxs : ∀ col ∈ xs, col.PrimaryKey = false) :
    checkDropped dst (xs ++ ys) r =
      match checkDropped dst ys r with
      | .error e => .error e
      | .ok (ms, r') => .ok (xs.filterMap (fun col =>
          match dst.Columns.find? (columnMatches r col) with
          | some _ => none
          | none => some (NewColumnMigration (.column col) .nil .DROP_COLUMN)) ++ ms, r') := by
  induction xs with
  | nil =>
    simp only [List.nil_append, List.filterMap_nil]
    cases checkDropped dst ys r with
    | error e => rfl
    | ok p => rfl
  | cons col rest ih =>
    have hf := HasColumn_find? dst r col
    have hrest := ih (fun c hc => hxs c (List.mem_cons_of_mem _ hc))
    have hpk := hxs col (List.mem_cons_self _ _)
    rw [List.cons_append]
    simp only [checkDropped, hrest, List.filterMap_cons, hpk]
    cases hres : dst.HasColumn r col with
    | none =>
      rw [hres] at hf
      simp only at hf
      simp only [hf, Bool.false_eq_true, if_false]
      cases checkDropped dst ys r with
      | error e => rfl
      | ok p => rfl
    | some k =>
      rw [hres] at hf
      simp only at hf
      obtain ⟨old, hold⟩ := Option.isSome_iff_exists.1 hf.2
      simp only [hold]

theorem RenameMap_get_nil (k : String) : RenameMap.get [] k = "" := rfl

/-- On tables that do not exchange their key names, a non-primary column of the
source is looked up in the target by its name among the non-primary columns,
whether the primary key was renamed or not. -/
theorem columnMatches_plain_target (S D : Table) (pkS pkD : Column)
    (hpkS : pkS ∈ S.Columns) (hpkD : pkD ∈ D.Columns)
    (hfS : pkS.PrimaryKey = true) (hfD : pkD.PrimaryKey = true)
    (hswap : NoKeySwap S D) (r : RenameMap)
    (hr : r = [] ∨ r = [(pkS.Name, pkD.Name)])
    (col : Column) (hcol : col ∈ S.Columns) (hplain : col.PrimaryKey = false)
    (hne : col.Name ≠ "") (c : Column) (hc : c ∈ D.Columns) :
    columnMatches r col c = (c.Name == col.Name && !c.PrimaryKey) := by
  unfold columnMatches
  rw [hplain]
  cases hcpk : c.PrimaryKey with
  | true => simp
  | false =>
    have hget : (r.get c.Name == col.Name) = false := by
      rw [beq_eq_false_iff_ne]
      rcases hr with hr | hr
      · rw [hr, RenameMap_get_nil]
        exact Ne.symm hne
      · rw [hr, RenameMap_get_single]
        split
        · rename_i hname
          intro hname2
          rcases hswap with h | h
          · exact h col hcol hplain pkD hpkD hfD hname2.symm
          · exact h c hc hcpk pkS hpkS hfS hname.symm
        · exact Ne.symm hne
    simp [hget]

/-- A non-primary column of the target is looked up in a source with distinct column
names by its name among the non-primary columns, whether the primary key was renamed
or not. -/
theorem columnMatches_plain_source (S : Table) (pkS : Column) (newName : String)
    (hpkS : pkS ∈ S.Columns) (hfS : pkS.PrimaryKey = true) (hdS : S.DistinctColumnNames)
    (r : RenameMap) (hr : r = [] ∨ r = [(pkS.Name, newName)])
    (col : Column) (hplain : col.PrimaryKey = false) (hne : col.Name ≠ "")
    (c : Column) (hc : c ∈ S.Columns) :
    columnMatches r col c = (c.Name == col.Name && !c.PrimaryKey) := by
  unfold columnMatches
  rw [hplain]
  cases hcpk : c.PrimaryKey with
  | true => simp
  | false =>
    have hget : (r.get c.Name == col.Name) = false := by
      rw [beq_eq_false_iff_ne]
      rcases hr with hr | hr
      · rw [hr, RenameMap_get_nil]
        exact Ne.symm hne
      · rw [hr, RenameMap_get_single]
        split
        · rename_i hname
          have := List.inj_on_of_nodup_map hdS hpkS hc hname
          subst this
          rw [hfS] at hcpk
          cases hcpk
        · exact Ne.symm hne
    simp [hget]


/-- The operations of the two column loops on tables with one primary key each,
distinct and non-empty column names in the source and no exchange of key names. -/
theorem compare_columns (lower : String → String) (S D : Table)
    (preS postS preD postD : List Column) (pkS pkD : Column)
    (hS : S.Columns = preS ++ pkS :: postS) (hD : D.Columns = preD ++ pkD :: postD)
    (hfS : pkS.PrimaryKey = true) (hfD : pkD.PrimaryKey = true)
    (hpreS : ∀ c ∈ preS, c.PrimaryKey = false) (hpostS : ∀ c ∈ postS, c.PrimaryKey = false)
    (hpreD : ∀ c ∈ preD, c.PrimaryKey = false) (hpostD : ∀ c ∈ postD, c.PrimaryKey = false)
    (hdS : S.DistinctColumnNames) (hneS : S.NonEmptyColumnNames)
    (hneD : D.NonEmptyColumnNames) (hswap : NoKeySwap S D) :
    ∃ r, checkDropped D S.Columns [] =
        .ok (plainDrops D preS ++
          (if pkS.Name = pkD.Name then []
            else [NewColumnMigration (.column pkD) (.column pkS) .RENAME_COLUMN]) ++
          plainDrops D postS, r) ∧
      checkNew lower S r D.Columns =
        .ok (plainChanges lower S preD ++
          (if pkD.Equals lower pkS then []
            else [NewColumnMigration (.column pkD) (.column pkS) .MODIFY_COLUMN]) ++
          plainChanges lower S postD) := by
  have hpkS : pkS ∈ S.Columns := by rw [hS]; simp
  have hpkD : pkD ∈ D.Columns := by rw [hD]; simp
  have hmemS : ∀ c ∈ preS ++ postS, c ∈ S.Columns := by
    intro c hc
    rw [hS]
    rcases List.mem_append.1 hc with h | h
    · simp [h]
    · simp [h]
  have hmemD : ∀ c ∈ preD ++ postD, c ∈ D.Columns := by
    intro c hc
    rw [hD]
    rcases List.mem_append.1 hc with h | h
    · simp [h]
    · simp [h]
  have hplainS : ∀ c ∈ preS ++ postS, c.PrimaryKey = false := by
    intro c hc
    rcases List.mem_append.1 hc with h | h
    · exact hpreS c h
    · exact hpostS c h
  have hplainD : ∀ c ∈ preD ++ postD, c.PrimaryKey = false := by
    intro c hc
    rcases List.mem_append.1 hc with h | h
    · exact hpreD c h
    · exact hpostD c h
  -- the lookups of the non-primary columns
  have hdrop : ∀ (r : RenameMap), (r = [] ∨ r = [(pkS.Name, pkD.Name)]) →
      ∀ cols : List Column, (∀ c ∈ cols, c ∈ preS ++ postS) →
      cols.filterMap (fun col =>
        match D.Columns.find? (columnMatches r col) with
        | some _ => none
        | none => some (NewColumnMigration (.column col) .nil .DROP_COLUMN)) =
      plainDrops D cols := by
    intro r hr cols hcols
    unfold plainDrops
    apply filterMap_congr_mem
    intro col hcol
    have h := hcols col hcol
    unfold Table.plainColumn?
    rw [find?_congr _ _ _ (columnMatches_plain_target S D pkS pkD hpkS hpkD hfS hfD hswap r hr
      col (hmemS col h) (hplainS col h) (hneS col (hmemS col h)))]
  have hnew : ∀ (r : RenameMap), (r = [] ∨ r = [(pkS.Name, pkD.Name)]) →
      ∀ cols : List Column, (∀ c ∈ cols, c ∈ preD ++ postD) →
      cols.filterMap (fun col =>
        match S.Columns.find? (columnMatches r col) with
        | none =>
          if col.PrimaryKey then none
          else some (NewColumnMigration (.column col) .nil .ADD_COLUMN)
        | some old =>
          if col.Equals lower old then none
          else some (NewColumnMigration (.column col) (.column old) .MODIFY_COLUMN)) =
      plainChanges lower S cols := by
    intro r hr cols hcols
    unfold plainChanges
    apply filterMap_congr_mem
    intro col hcol
    have h := hcols col hcol
    unfold Table.plainColumn?
    rw [find?_congr _ _ _ (columnMatches_plain_source S pkS pkD.Name hpkS hfS hdS r hr
      col (hplainD col h) (hneD col (hmemD col h)))]
    simp [hplainD col h]
  -- the primary key of the target, looked up in the source
  have hfindpk : ∀ (r : RenameMap), (pkS.Name = pkD.Name ∨ r = [(pkS.Name, pkD.Name)]) →
      S.Columns.find? (columnMatches r pkD) = some pkS := by
    intro r hr
    apply find?_of_unique _ _ pkS hpkS
    · unfold columnMatches
      rcases hr with h | h
      · simp [h, hfS, hfD]
      · simp [h, RenameMap.get, hfS, hfD]
    · intro c hc hm
      simp only [columnMatches, Bool.and_eq_true, beq_iff_eq, hfD] at hm
      rw [hS] at hc
      rcases List.mem_append.1 hc with hc | hc
      · rw [hpreS c hc] at hm
        cases hm.2
      · rcases List.mem_cons.1 hc with hc | hc
        · exact hc
        · rw [hpostS c hc] at hm
          cases hm.2
  have hsecond : ∀ (r : RenameMap), (r = [] ∨ r = [(pkS.Name, pkD.Name)]) →
      (pkS.Name = pkD.Name ∨ r = [(pkS.Name, pkD.Name)]) →
      checkNew lower S r D.Columns =
        .ok (plainChanges lower S preD ++
          (if pkD.Equals lower pkS then []
            else [NewColumnMigration (.column pkD) (.column pkS) .MODIFY_COLUMN]) ++
          plainChanges lower S postD) := by
    intro r hr hr'
    rw [checkNew_eq, hD, List.filterMap_append, List.filterMap_cons,
      hnew r hr preD (fun c hc => List.mem_append_left _ hc),
      hnew r hr postD (fun c hc => List.mem_append_right _ hc), hfindpk r hr']
    by_cases he : pkD.Equals lower pkS = true <;> simp [he]
  by_cases hnames : pkS.Name = pkD.Name
  · refine ⟨[], ?_, hsecond [] (Or.inl rfl) (Or.inl hnames)⟩
    have hfound : D.HasColumn [] pkS ≠ none := by
      intro h
      unfold Table.HasColumn at h
      rw [hasColumnFrom_none_iff] at h
      have := h pkD hpkD
      simp [columnMatches, hnames, hfS, hfD] at this
    obtain ⟨k, hk⟩ := Option.ne_none_iff_exists'.1 hfound
    rw [hS, checkDropped_append_plain D preS _ [] hpreS]
    simp only [checkDropped, hk, checkDropped_plain D postS [] hpostS,
      hdrop [] (Or.inl rfl) preS (fun c hc => List.mem_append_left _ hc),
      hdrop [] (Or.inl rfl) postS (fun c hc => List.mem_append_right _ hc), hnames, if_true,
      List.append_nil]
  · refine ⟨[(pkS.Name, pkD.Name)], ?_, hsecond _ (Or.inr rfl) (Or.inr rfl)⟩
    have hnone : D.HasColumn [] pkS = none := by
      apply HasColumn_eq_none
      intro c hc
      rw [hD] at hc
      rcases List.mem_append.1 hc with hc | hc
      · simp [columnMatches, hpreD c hc, hfS]
      · rcases List.mem_cons.1 hc with hc | hc
        · subst hc
          simp [columnMatches, RenameMap.get, Ne.symm hnames, Ne.symm (hneS pkS hpkS)]
        · simp [columnMatches, hpostD c hc, hfS]
    have hget : D.GetPrimaryKeyColumn = some pkD :=
      GetPrimaryKeyColumn_middle D preD postD pkD hD hpreD hfD
    rw [hS, checkDropped_append_plain D preS _ [] hpreS]
    simp only [checkDropped, hnone, hfS, if_true, hget,
      checkDropped_plain D postS _ hpostS,
      hdrop [] (Or.inl rfl) preS (fun c hc => List.mem_append_left _ hc),
      hdrop _ (Or.inr rfl) postS (fun c hc => List.mem_append_right _ hc), hnames, if_false,
      List.append_assoc, List.singleton_append]


/-! ## The sorted list, kind by kind -/

theorem ofKind_nil (op : ColumnOperation) : ofKind op [] = [] := rfl

theorem ofKind_append (op : ColumnOperation) (xs ys : List ColumnMigration) :
    ofKind op (xs ++ ys) = ofKind op xs ++ ofKind op ys := by
  unfold ofKind
  exact List.filter_append _ _

theorem ofKind_cons (op : ColumnOperation) (m : ColumnMigration) (ms : List ColumnMigration) :
    ofKind op (m :: ms) = if m.Operation = op then m :: ofKind op ms else ofKind op ms := by
  unfold ofKind
  by_cases h : m.Operation = op <;> simp [List.filter_cons, h]

theorem ofKind_same (op : ColumnOperation) (ms : List ColumnMigration)
    (h : ∀ m ∈ ms, m.Operation = op) : ofKind op ms = ms := by
  unfold ofKind
  rw [List.filter_eq_self]
  intro m hm
  simp [h m hm]

theorem ofKind_other (op : ColumnOperation) (ms : List ColumnMigration)
    (h : ∀ m ∈ ms, m.Operation ≠ op) : ofKind op ms = [] := by
  unfold ofKind
  rw [List.filter_eq_nil_iff]
  intro m hm
  simp [h m hm]

theorem mem_ofKind (op : ColumnOperation) (m : ColumnMigration) (ms : List ColumnMigration) :
    m ∈ ofKind op ms ↔ m ∈ ms ∧ m.Operation = op := by
  unfold ofKind
  simp [List.mem_filter]

theorem appearsAs_iff (op : ColumnOperation) (p : Payload) (ms : List ColumnMigration) :
    appearsAs op p ms ↔ ∃ m ∈ ofKind op ms, m.ApplyOn = p := by
  unfold appearsAs
  constructor
  · rintro ⟨m, hm, hop, hp⟩
    exact ⟨m, (mem_ofKind op m ms).2 ⟨hm, hop⟩, hp⟩
  · rintro ⟨m, hm, hp⟩
    obtain ⟨h1, h2⟩ := (mem_ofKind op m ms).1 hm
    exact ⟨m, h1, h2, hp⟩

/-- Stability: inserting an operation keeps the operations of each kind in their
order. -/
theorem ofKind_insertStable (op : ColumnOperation) (m : ColumnMigration)
    (xs : List ColumnMigration) :
    ofKind op (insertStable m xs) = ofKind op (m :: xs) := by
  induction xs with
  | nil => rfl
  | cons x xs ih =>
    unfold insertStable
    split
    · rename_i hlt
      have hne : x.Operation ≠ m.Operation := by
        intro h
        unfold cmpOperation at hlt
        rw [h] at hlt
        omega
      rw [ofKind_cons, ih, ofKind_cons, ofKind_cons, ofKind_cons]
      by_cases h1 : x.Operation = op
      · have h2 : m.Operation ≠ op := fun h => hne (h1.trans h.symm)
        simp [h1, h2]
      · simp [h1]
    · rfl

theorem ofKind_sortMigrations (op : ColumnOperation) (ms : List ColumnMigration) :
    ofKind op (SortMigrationsByOperationPriority ms) = ofKind op ms := by
  induction ms with
  | nil => rfl
  | cons m ms ih =>
    unfold SortMigrationsByOperationPriority
    rw [ofKind_insertStable, ofKind_cons, ofKind_cons, ih]

/-- A list in priority order is the concatenation of its operations kind by kind. -/
theorem sorted_eq_kinds (l : List ColumnMigration) (h : l.Pairwise priorityLe) :
    l = ofKind .DROP_FOREIGN_KEY l ++ ofKind .DROP_UNIQUE_INDEX l ++ ofKind .DROP_COLUMN l ++
      ofKind .RENAME_COLUMN l ++ ofKind .MODIFY_COLUMN l ++ ofKind .ADD_COLUMN l ++
      ofKind .UPDATE_FOREIGN_KEY l ++ ofKind .ADD_FOREIGN_KEY l ++
      ofKind .ADD_UNIQUE_INDEX l := by
  induction l with
  | nil => rfl
  | cons x rest ih =>
    rw [List.pairwise_cons] at h
    have hrest := ih h.2
    have hnil : ∀ op : ColumnOperation, op.toInt < x.Operation.toInt → ofKind op rest = [] := by
      intro op hop
      apply ofKind_other
      intro m hm heq
      have := h.1 m hm
      unfold priorityLe at this
      rw [heq] at this
      omega
    cases hx : x.Operation <;> rw [hx] at hnil <;>
      simp only [ofKind_cons, hx, if_true, reduceCtorEq, if_false]
    · simp only [List.cons_append, List.cons.injEq, true_and]
      exact hrest
    · rw [hnil .DROP_FOREIGN_KEY (by decide)] at hrest ⊢
      simp only [List.nil_append, List.cons_append, List.cons.injEq, true_and] at hrest ⊢
      exact hrest
    · rw [hnil .DROP_FOREIGN_KEY (by decide), hnil .DROP_UNIQUE_INDEX (by decide)] at hrest ⊢
      simp only [List.nil_append, List.cons_append, List.cons.injEq, true_and] at hrest ⊢
      exact hrest
    · rw [hnil .DROP_FOREIGN_KEY (by decide), hnil .DROP_UNIQUE_INDEX (by decide),
        hnil .DROP_COLUMN (by decide)] at hrest ⊢
      simp only [List.nil_append, List.cons_append, List.cons.injEq, true_and] at hrest ⊢
      exact hrest
    · rw [hnil .DROP_FOREIGN_KEY (by decide), hnil .DROP_UNIQUE_INDEX (by decide),
        hnil .DROP_COLUMN (by decide), hnil .RENAME_COLUMN (by decide)] at hrest ⊢
      simp only [List.nil_append, List.cons_append, List.cons.injEq, true_and] at hrest ⊢
      exact hrest
    · rw [hnil .DROP_FOREIGN_KEY (by decide), hnil .DROP_UNIQUE_INDEX (by decide),
        hnil .DROP_COLUMN (by decide), hnil .RENAME_COLUMN (by decide),
        hnil .MODIFY_COLUMN (by decide)] at hrest ⊢
      simp only [List.nil_append, List.cons_append, List.cons.injEq, true_and] at hrest ⊢
      exact hrest
    · rw [hnil .DROP_FOREIGN_KEY (by decide), hnil .DROP_UNIQUE_INDEX (by decide),
        hnil .DROP_COLUMN (by decide), hnil .RENAME_COLUMN (by decide),
        hnil .MODIFY_COLUMN (by decide), hnil .ADD_COLUMN (by decide)] at hrest ⊢
      simp only [List.nil_append, List.cons_append, List.cons.injEq, true_and] at hrest ⊢
      exact hrest
    · rw [hnil .DROP_FOREIGN_KEY (by decide), hnil .DROP_UNIQUE_INDEX (by decide),
        hnil .DROP_COLUMN (by decide), hnil .RENAME_COLUMN (by decide),
        hnil .MODIFY_COLUMN (by decide), hnil .ADD_COLUMN (by decide),
        hnil .UPDATE_FOREIGN_KEY (by decide)] at hrest ⊢
      simp only [List.nil_append, List.cons_append, List.cons.injEq, true_and] at hrest ⊢
      exact hrest
    · rw [hnil .DROP_FOREIGN_KEY (by decide), hnil .DROP_UNIQUE_INDEX (by decide),
        hnil .DROP_COLUMN (by decide), hnil .RENAME_COLUMN (by decide),
        hnil .MODIFY_COLUMN (by decide), hnil .ADD_COLUMN (by decide),
        hnil .UPDATE_FOREIGN_KEY (by decide), hnil .ADD_FOREIGN_KEY (by decide)] at hrest ⊢
      simp only [List.nil_append, List.cons_append, List.cons.injEq, true_and] at hrest ⊢
      exact hrest

/-- The sorted list is the concatenation, in priority order, of the operations of
each kind in their original order. -/
theorem sortMigrations_eq_kinds (ms : List ColumnMigration) :
    SortMigrationsByOperationPriority ms =
      ofKind .DROP_FOREIGN_KEY ms ++ ofKind .DROP_UNIQUE_INDEX ms ++ ofKind .DROP_COLUMN ms ++
      ofKind .RENAME_COLUMN ms ++ ofKind .MODIFY_COLUMN ms ++ ofKind .ADD_COLUMN ms ++
      ofKind .UPDATE_FOREIGN_KEY ms ++ ofKind .ADD_FOREIGN_KEY ms ++
      ofKind .ADD_UNIQUE_INDEX ms := by
  have h := sorted_eq_kinds _ (pairwise_sortMigrations ms)
  simp only [ofKind_sortMigrations] at h
  exact h


/-! ## The comparison in both directions -/

theorem compareWith_eq (lower : String → String) (A B : Table) (g : RenameMap)
    (ms1 ms2 : List ColumnMigration) (r : RenameMap)
    (h1 : checkDropped B A.Columns [] = .ok (ms1, r))
    (h2 : checkNew lower A r B.Columns = .ok ms2) :
    A.CompareWith lower B g =
      .ok (ms1 ++ ms2 ++ checkIndexes A .ADD_UNIQUE_INDEX B.IndexToUniqueCols [] ++
        checkIndexes B .DROP_UNIQUE_INDEX A.IndexToUniqueCols [] ++
        checkDroppedReferences B A.References ++ referenceChanges A B.References) := by
  have h3 : checkNewReferences A B.References = .ok (referenceChanges A B.References) :=
    checkNewReferences_eq A B.References
  simp [Table.CompareWith, Table.CompareWithState, h1, h2, h3]

theorem appearsAs_append (op : ColumnOperation) (p : Payload) (xs ys : List ColumnMigration) :
    appearsAs op p (xs ++ ys) ↔ appearsAs op p xs ∨ appearsAs op p ys := by
  unfold appearsAs
  constructor
  · rintro ⟨m, hm, h⟩
    rcases List.mem_append.1 hm with hm | hm
    · exact Or.inl ⟨m, hm, h⟩
    · exact Or.inr ⟨m, hm, h⟩
  · rintro (⟨m, hm, h⟩ | ⟨m, hm, h⟩)
    · exact ⟨m, List.mem_append_left _ hm, h⟩
    · exact ⟨m, List.mem_append_right _ hm, h⟩

theorem not_appearsAs (op : ColumnOperation) (p : Payload) (ms : List ColumnMigration)
    (h : ∀ m ∈ ms, m.Operation ≠ op) : ¬ appearsAs op p ms := by
  rintro ⟨m, hm, hop, _⟩
  exact h m hm hop

theorem mem_plainDrops (D : Table) (cols : List Column) (m : ColumnMigration) :
    m ∈ plainDrops D cols ↔
      ∃ col ∈ cols, D.plainColumn? col.Name = none ∧
        m = NewColumnMigration (.column col) .nil .DROP_COLUMN := by
  unfold plainDrops
  rw [List.mem_filterMap]
  constructor
  · rintro ⟨col, hcol, h⟩
    cases hp : D.plainColumn? col.Name with
    | none =>
      rw [hp] at h
      simp only [Option.some.injEq] at h
      exact ⟨col, hcol, hp, h.symm⟩
    | some old =>
      rw [hp] at h
      cases h
  · rintro ⟨col, hcol, hp, rfl⟩
    exact ⟨col, hcol, by rw [hp]⟩

theorem mem_plainChanges (lower : String → String) (S : Table) (cols : List Column)
    (m : ColumnMigration) :
    m ∈ plainChanges lower S cols ↔
      ∃ col ∈ cols,
        (S.plainColumn? col.Name = none ∧
          m = NewColumnMigration (.column col) .nil .ADD_COLUMN) ∨
        (∃ old, S.plainColumn? col.Name = some old ∧ col.Equals lower old = false ∧
          m = NewColumnMigration (.column col) (.column old) .MODIFY_COLUMN) := by
  unfold plainChanges
  rw [List.mem_filterMap]
  constructor
  · rintro ⟨col, hcol, h⟩
    refine ⟨col, hcol, ?_⟩
    cases hp : S.plainColumn? col.Name with
    | none =>
      rw [hp] at h
      simp only [Option.some.injEq] at h
      exact Or.inl ⟨rfl, h.symm⟩
    | some old =>
      rw [hp] at h
      simp only at h
      by_cases he : col.Equals lower old = true
      · rw [if_pos he] at h
        cases h
      · rw [if_neg he] at h
        simp only [Option.some.injEq] at h
        exact Or.inr ⟨old, rfl, by simpa using he, h.symm⟩
  · rintro ⟨col, hcol, h⟩
    refine ⟨col, hcol, ?_⟩
    rcases h with ⟨hp, rfl⟩ | ⟨old, hp, he, rfl⟩
    · rw [hp]
    · rw [hp]
      simp [he]

theorem mem_checkIndexes_kind (other : Table) (op : ColumnOperation)
    (entries : List (String × List String)) (seen : List String) (m : ColumnMigration)
    (h : m ∈ checkIndexes other op entries seen) :
    m.Operation = op ∧
      ∃ k v, (k, v) ∈ entries ∧ m.ApplyOn = .str k ∧ m.Old = .strs v := by
  induction entries generalizing seen with
  | nil => simp [checkIndexes] at h
  | cons e rest ih =>
    obtain ⟨k, v⟩ := e
    unfold checkIndexes at h
    have lift : (m.Operation = op ∧ ∃ k' v', (k', v') ∈ rest ∧ m.ApplyOn = .str k' ∧
        m.Old = .strs v') → (m.Operation = op ∧ ∃ k' v', (k', v') ∈ (k, v) :: rest ∧
        m.ApplyOn = .str k' ∧ m.Old = .strs v') := by
      rintro ⟨h1, k', v', h2, h3⟩
      exact ⟨h1, k', v', List.mem_cons_of_mem _ h2, h3⟩
    split at h
    · exact lift (ih seen h)
    · split at h
      · rcases List.mem_cons.1 h with h | h
        · subst h
          exact ⟨rfl, k, v, List.mem_cons_self _ _, rfl, rfl⟩
        · exact lift (ih _ h)
      · exact lift (ih seen h)

theorem mem_checkDroppedReferences (dst : Table) (refs : List Reference)
    (m : ColumnMigration) :
    m ∈ checkDroppedReferences dst refs ↔
      ∃ r ∈ refs, dst.References.any (fun r2 => sameRelation r r2) = false ∧
        m = NewColumnMigration (.reference r) .nil .DROP_FOREIGN_KEY := by
  rw [checkDroppedReferences_eq, List.mem_filterMap]
  constructor
  · rintro ⟨r, hr, h⟩
    by_cases ha : dst.References.any (fun r2 => sameRelation r r2) = true
    · rw [if_pos ha] at h
      cases h
    · rw [if_neg ha] at h
      simp only [Option.some.injEq] at h
      exact ⟨r, hr, by simpa using ha, h.symm⟩
  · rintro ⟨r, hr, ha, rfl⟩
    exact ⟨r, hr, by simp [ha]⟩

theorem mem_referenceChanges (t : Table) (refs : List Reference) (m : ColumnMigration) :
    m ∈ referenceChanges t refs ↔
      ∃ r ∈ refs,
        (t.References.find? (fun r2 => sameRelation r r2) = none ∧
          m = NewColumnMigration (.reference r) .nil .ADD_FOREIGN_KEY) ∨
        (∃ old, t.References.find? (fun r2 => sameRelation r r2) = some old ∧
          (old.UpdateOption != r.UpdateOption || old.DeleteOption != r.DeleteOption) = true ∧
          m = NewColumnMigration (.reference r) (.reference old) .UPDATE_FOREIGN_KEY) := by
  unfold referenceChanges
  rw [List.mem_filterMap]
  constructor
  · rintro ⟨r, hr, h⟩
    refine ⟨r, hr, ?_⟩
    cases hp : t.References.find? (fun r2 => sameRelation r r2) with
    | none =>
      rw [hp] at h
      simp only [Option.some.injEq] at h
      exact Or.inl ⟨rfl, h.symm⟩
    | some old =>
      rw [hp] at h
      simp only at h
      by_cases he : (old.UpdateOption != r.UpdateOption ||
          old.DeleteOption != r.DeleteOption) = true
      · rw [if_pos he] at h
        simp only [Option.some.injEq] at h
        exact Or.inr ⟨old, rfl, he, h.symm⟩
      · rw [if_neg he] at h
        cases h
  · rintro ⟨r, hr, h⟩
    refine ⟨r, hr, ?_⟩
    rcases h with ⟨hp, rfl⟩ | ⟨old, hp, he, rfl⟩
    · rw [hp]
    · rw [hp]
      simp only [he, if_true]


theorem NoKeySwap_symm (A B : Table) (h : NoKeySwap A B) : NoKeySwap B A := by
  rcases h with h | h
  · exact Or.inr h
  · exact Or.inl h

theorem appearsAs_plainDrops (D : Table) (cols : List Column) (op : ColumnOperation)
    (p : Payload) :
    appearsAs op p (plainDrops D cols) ↔
      op = .DROP_COLUMN ∧
        ∃ col ∈ cols, D.plainColumn? col.Name = none ∧ p = .column col := by
  unfold appearsAs
  constructor
  · rintro ⟨m, hm, hop, hp⟩
    obtain ⟨col, hcol, hplain, rfl⟩ := (mem_plainDrops D cols m).1 hm
    exact ⟨hop.symm, col, hcol, hplain, hp.symm⟩
  · rintro ⟨rfl, col, hcol, hplain, rfl⟩
    exact ⟨_, (mem_plainDrops D cols _).2 ⟨col, hcol, hplain, rfl⟩, rfl, rfl⟩

theorem appearsAs_plainChanges_add (lower : String → String) (S : Table) (cols : List Column)
    (c : Column) :
    appearsAs .ADD_COLUMN (.column c) (plainChanges lower S cols) ↔
      c ∈ cols ∧ S.plainColumn? c.Name = none := by
  unfold appearsAs
  constructor
  · rintro ⟨m, hm, hop, hp⟩
    obtain ⟨col, hcol, h⟩ := (mem_plainChanges lower S cols m).1 hm
    rcases h with ⟨hplain, rfl⟩ | ⟨old, _, _, rfl⟩
    · simp only [NewColumnMigration, Payload.column.injEq] at hp
      subst hp
      exact ⟨hcol, hplain⟩
    · cases hop
  · rintro ⟨hcol, hplain⟩
    exact ⟨_, (mem_plainChanges lower S cols _).2 ⟨c, hcol, Or.inl ⟨hplain, rfl⟩⟩, rfl,
      rfl⟩

theorem not_appearsAs_plainChanges (lower : String → String) (S : Table) (cols : List Column)
    (op : ColumnOperation) (p : Payload) (h1 : op ≠ .ADD_COLUMN) (h2 : op ≠ .MODIFY_COLUMN) :
    ¬ appearsAs op p (plainChanges lower S cols) := by
  apply not_appearsAs
  intro m hm hop
  obtain ⟨col, _, h⟩ := (mem_plainChanges lower S cols m).1 hm
  rcases h with ⟨_, rfl⟩ | ⟨old, _, _, rfl⟩
  · exact h1 hop.symm
  · exact h2 hop.symm

theorem not_appearsAs_checkIndexes (other : Table) (op' : ColumnOperation)
    (entries : List (String × List String)) (seen : List String)
    (op : ColumnOperation) (p : Payload) (h : op ≠ op') :
    ¬ appearsAs op p (checkIndexes other op' entries seen) := by
  apply not_appearsAs
  intro m hm hop
  exact h (hop.symm.trans (mem_checkIndexes_kind other op' entries seen m hm).1)

theorem appearsAs_checkDroppedReferences (dst : Table) (refs : List Reference)
    (op : ColumnOperation) (p : Payload) :
    appearsAs op p (checkDroppedReferences dst refs) ↔
      op = .DROP_FOREIGN_KEY ∧ ∃ r ∈ refs,
        dst.References.any (fun r2 => sameRelation r r2) = false ∧ p = .reference r := by
  unfold appearsAs
  constructor
  · rintro ⟨m, hm, hop, hp⟩
    obtain ⟨r, hr, hany, rfl⟩ := (mem_checkDroppedReferences dst refs m).1 hm
    exact ⟨hop.symm, r, hr, hany, hp.symm⟩
  · rintro ⟨rfl, r, hr, hany, rfl⟩
    exact ⟨_, (mem_checkDroppedReferences dst refs _).2 ⟨r, hr, hany, rfl⟩, rfl, rfl⟩

theorem appearsAs_referenceChanges_add (t : Table) (refs : List Reference) (r : Reference) :
    appearsAs .ADD_FOREIGN_KEY (.reference r) (referenceChanges t refs) ↔
      r ∈ refs ∧ t.References.any (fun r2 => sameRelation r r2) = false := by
  have hfind : ∀ x : Reference, t.References.find? (fun r2 => sameRelation x r2) = none ↔
      t.References.any (fun r2 => sameRelation x r2) = false := by
    intro x
    rw [List.find?_eq_none, List.any_eq_false]
  unfold appearsAs
  constructor
  · rintro ⟨m, hm, hop, hp⟩
    obtain ⟨x, hx, h⟩ := (mem_referenceChanges t refs m).1 hm
    rcases h with ⟨hnone, rfl⟩ | ⟨old, _, _, rfl⟩
    · simp only [NewColumnMigration, Payload.reference.injEq] at hp
      subst hp
      exact ⟨hx, (hfind x).1 hnone⟩
    · cases hop
  · rintro ⟨hr, hany⟩
    exact ⟨_, (mem_referenceChanges t refs _).2 ⟨r, hr, Or.inl ⟨(hfind r).2 hany, rfl⟩⟩,
      rfl, rfl⟩

theorem not_appearsAs_referenceChanges (t : Table) (refs : List Reference)
    (op : ColumnOperation) (p : Payload) (h1 : op ≠ .ADD_FOREIGN_KEY)
    (h2 : op ≠ .UPDATE_FOREIGN_KEY) : ¬ appearsAs op p (referenceChanges t refs) := by
  apply not_appearsAs
  intro m hm hop
  obtain ⟨r, _, h⟩ := (mem_referenceChanges t refs m).1 hm
  rcases h with ⟨_, rfl⟩ | ⟨old, _, _, rfl⟩
  · exact h1 hop.symm
  · exact h2 hop.symm

theorem not_appearsAs_optional (c : Prop) [Decidable c] (x : ColumnMigration)
    (op : ColumnOperation) (p : Payload) (h : op ≠ x.Operation) :
    ¬ appearsAs op p (if c then [] else [x]) := by
  apply not_appearsAs
  intro m hm hop
  split at hm
  · cases hm
  · rw [List.mem_singleton] at hm
    subst hm
    exact h hop.symm

/-- The operations of a kind other than rename, modify and the index kinds in the
output of a comparison whose two column loops produced the lists of
`compare_columns`. -/
theorem appearsAs_output_core (lower : String → String) (S D : Table)
    (preS postS preD postD : List Column) (ren mod : ColumnMigration) (c1 c2 : Prop)
    [Decidable c1] [Decidable c2]
    (hren : ren.Operation = .RENAME_COLUMN) (hmod : mod.Operation = .MODIFY_COLUMN)
    (op : ColumnOperation) (p : Payload) (h1 : op ≠ .RENAME_COLUMN)
    (h2 : op ≠ .MODIFY_COLUMN) (h3 : op ≠ .ADD_UNIQUE_INDEX) (h4 : op ≠ .DROP_UNIQUE_INDEX) :
    appearsAs op p
        (plainDrops D preS ++ (if c1 then [] else [ren]) ++ plainDrops D postS ++
          (plainChanges lower S preD ++ (if c2 then [] else [mod]) ++ plainChanges lower S postD) ++
          checkIndexes S .ADD_UNIQUE_INDEX D.IndexToUniqueCols [] ++
          checkIndexes D .DROP_UNIQUE_INDEX S.IndexToUniqueCols [] ++
          checkDroppedReferences D S.References ++ referenceChanges S D.References) ↔
      appearsAs op p (plainDrops D preS) ∨ appearsAs op p (plainDrops D postS) ∨
        appearsAs op p (plainChanges lower S preD) ∨
        appearsAs op p (plainChanges lower S postD) ∨
        appearsAs op p (checkDroppedReferences D S.References) ∨
        appearsAs op p (referenceChanges S D.References) := by
  have e1 := not_appearsAs_optional c1 ren op p (by rw [hren]; exact h1)
  have e2 := not_appearsAs_optional c2 mod op p (by rw [hmod]; exact h2)
  have e3 := not_appearsAs_checkIndexes S .ADD_UNIQUE_INDEX D.IndexToUniqueCols [] op p h3
  have e4 := not_appearsAs_checkIndexes D .DROP_UNIQUE_INDEX S.IndexToUniqueCols [] op p h4
  simp only [appearsAs_append]
  tauto

/-- The columns and references a comparison adds and drops, when its two column
loops produced the lists of `compare_columns`. -/
theorem appearsAs_output (lower : String → String) (S D : Table)
    (preS postS preD postD : List Column) (ren mod : ColumnMigration) (c1 c2 : Prop)
    [Decidable c1] [Decidable c2]
    (hren : ren.Operation = .RENAME_COLUMN) (hmod : mod.Operation = .MODIFY_COLUMN)
    (out : List ColumnMigration)
    (hout : out =
      plainDrops D preS ++ (if c1 then [] else [ren]) ++ plainDrops D postS ++
      (plainChanges lower S preD ++ (if c2 then [] else [mod]) ++ plainChanges lower S postD) ++
      checkIndexes S .ADD_UNIQUE_INDEX D.IndexToUniqueCols [] ++
      checkIndexes D .DROP_UNIQUE_INDEX S.IndexToUniqueCols [] ++
      checkDroppedReferences D S.References ++ referenceChanges S D.References) :
    (∀ col, appearsAs .ADD_COLUMN (.column col) out ↔
        col ∈ preD ++ postD ∧ S.plainColumn? col.Name = none) ∧
      (∀ col, appearsAs .DROP_COLUMN (.column col) out ↔
        col ∈ preS ++ postS ∧ D.plainColumn? col.Name = none) ∧
      (∀ r, appearsAs .ADD_FOREIGN_KEY (.reference r) out ↔
        r ∈ D.References ∧ S.References.any (fun r2 => sameRelation r r2) = false) ∧
      (∀ r, appearsAs .DROP_FOREIGN_KEY (.reference r) out ↔
        r ∈ S.References ∧ D.References.any (fun r2 => sameRelation r r2) = false) := by
  subst hout
  refine ⟨?_, ?_, ?_, ?_⟩
  · intro col
    rw [appearsAs_output_core lower S D preS postS preD postD ren mod c1 c2 hren hmod _ _
      (by decide) (by decide) (by decide) (by decide)]
    have e := not_appearsAs_referenceChanges S D.References .ADD_COLUMN (.column col)
      (by decide) (by decide)
    simp only [appearsAs_plainDrops, appearsAs_plainChanges_add,
      appearsAs_checkDroppedReferences, reduceCtorEq, false_and, false_or, List.mem_append]
    tauto
  · intro col
    rw [appearsAs_output_core lower S D preS postS preD postD ren mod c1 c2 hren hmod _ _
      (by decide) (by decide) (by decide) (by decide)]
    have e1 := not_appearsAs_referenceChanges S D.References .DROP_COLUMN (.column col)
      (by decide) (by decide)
    have e2 := not_appearsAs_plainChanges lower S preD .DROP_COLUMN (.column col)
      (by decide) (by decide)
    have e3 := not_appearsAs_plainChanges lower S postD .DROP_COLUMN (.column col)
      (by decide) (by decide)
    simp only [appearsAs_plainDrops, appearsAs_checkDroppedReferences, reduceCtorEq,
      false_and, true_and, List.mem_append, Payload.column.injEq]
    constructor
    · rintro (⟨c, hc, hp, rfl⟩ | ⟨c, hc, hp, rfl⟩ | h | h | h | h)
      · exact ⟨Or.inl hc, hp⟩
      · exact ⟨Or.inr hc, hp⟩
      · exact absurd h e2
      · exact absurd h e3
      · exact absurd h (fun x => x)
      · exact absurd h e1
    · rintro ⟨hc | hc, hp⟩
      · exact Or.inl ⟨col, hc, hp, rfl⟩
      · exact Or.inr (Or.inl ⟨col, hc, hp, rfl⟩)
  · intro r
    rw [appearsAs_output_core lower S D preS postS preD postD ren mod c1 c2 hren hmod _ _
      (by decide) (by decide) (by decide) (by decide)]
    have e2 := not_appearsAs_plainChanges lower S preD .ADD_FOREIGN_KEY (.reference r)
      (by decide) (by decide)
    have e3 := not_appearsAs_plainChanges lower S postD .ADD_FOREIGN_KEY (.reference r)
      (by decide) (by decide)
    simp only [appearsAs_plainDrops, appearsAs_referenceChanges_add,
      appearsAs_checkDroppedReferences, reduceCtorEq, false_and, false_or]
    tauto
  · intro r
    rw [appearsAs_output_core lower S D preS postS preD postD ren mod c1 c2 hren hmod _ _
      (by decide) (by decide) (by decide) (by decide)]
    have e1 := not_appearsAs_referenceChanges S D.References .DROP_FOREIGN_KEY (.reference r)
      (by decide) (by decide)
    have e2 := not_appearsAs_plainChanges lower S preD .DROP_FOREIGN_KEY (.reference r)
      (by decide) (by decide)
    have e3 := not_appearsAs_plainChanges lower S postD .DROP_FOREIGN_KEY (.reference r)
      (by decide) (by decide)
    simp only [appearsAs_plainDrops, appearsAs_checkDroppedReferences, reduceCtorEq,
      false_and, true_and, false_or, Payload.reference.injEq]
    constructor
    · rintro (h | h | ⟨x, hx, hp, rfl⟩ | h)
      · exact absurd h e2
      · exact absurd h e3
      · exact ⟨hx, hp⟩
      · exact absurd h e1
    · rintro ⟨hx, hp⟩
      exact Or.inr (Or.inr (Or.inl ⟨r, hx, hp, rfl⟩))


/-- Away from an exchange of key names the two comparisons are inverses. For every pair
of tables `A` and `B` that each have exactly one primary-key column and pairwise
distinct, non-empty column names, and of which at least one has no non-primary column
bearing the name of the primary-key column of the other, both `A.CompareWith(B)` and
`B.CompareWith(A)` return, a column appears as `ADD_COLUMN` in one if and only if the
same column appears as `DROP_COLUMN` in the other, and a reference appears as
`ADD_FOREIGN_KEY` in one if and only if the same reference appears as
`DROP_FOREIGN_KEY` in the other. -/
theorem compareWith_inverse (lower : String → String) (A B : Table) (gA gB : RenameMap)
    (hdA : A.DistinctColumnNames) (hneA : A.NonEmptyColumnNames) (hpkA : A.SinglePrimaryKey)
    (hdB : B.DistinctColumnNames) (hneB : B.NonEmptyColumnNames) (hpkB : B.SinglePrimaryKey)
    (hswap : NoKeySwap A B) :
    ∃ up down, A.CompareWith lower B gA = .ok up ∧ B.CompareWith lower A gB = .ok down ∧
      (∀ col, appearsAs .ADD_COLUMN (.column col) up ↔
        appearsAs .DROP_COLUMN (.column col) down) ∧
      (∀ col, appearsAs .ADD_COLUMN (.column col) down ↔
        appearsAs .DROP_COLUMN (.column col) up) ∧
      (∀ r, appearsAs .ADD_FOREIGN_KEY (.reference r) up ↔
        appearsAs .DROP_FOREIGN_KEY (.reference r) down) ∧
      (∀ r, appearsAs .ADD_FOREIGN_KEY (.reference r) down ↔
        appearsAs .DROP_FOREIGN_KEY (.reference r) up) := by
  obtain ⟨preA, pkA, postA, hA, hfA, hpreA, hpostA⟩ := SinglePrimaryKey_split A hpkA
  obtain ⟨preB, pkB, postB, hB, hfB, hpreB, hpostB⟩ := SinglePrimaryKey_split B hpkB
  obtain ⟨r1, h1, h2⟩ := compare_columns lower A B preA postA preB postB pkA pkB hA hB hfA hfB
    hpreA hpostA hpreB hpostB hdA hneA hneB hswap
  obtain ⟨r2, h3, h4⟩ := compare_columns lower B A preB postB preA postA pkB pkA hB hA hfB hfA
    hpreB hpostB hpreA hpostA hdB hneB hneA (NoKeySwap_symm A B hswap)
  have hup := compareWith_eq lower A B gA _ _ _ h1 h2
  have hdown := compareWith_eq lower B A gB _ _ _ h3 h4
  obtain ⟨u1, u2, u3, u4⟩ := appearsAs_output lower A B preA postA preB postB
    (NewColumnMigration (.column pkB) (.column pkA) .RENAME_COLUMN)
    (NewColumnMigration (.column pkB) (.column pkA) .MODIFY_COLUMN) (pkA.Name = pkB.Name)
    (pkB.Equals lower pkA = true) rfl rfl _ rfl
  obtain ⟨d1, d2, d3, d4⟩ := appearsAs_output lower B A preB postB preA postA
    (NewColumnMigration (.column pkA) (.column pkB) .RENAME_COLUMN)
    (NewColumnMigration (.column pkA) (.column pkB) .MODIFY_COLUMN) (pkB.Name = pkA.Name)
    (pkA.Equals lower pkB = true) rfl rfl _ rfl
  refine ⟨_, _, hup, hdown, ?_, ?_, ?_, ?_⟩
  · intro col
    rw [u1 col, d2 col]
  · intro col
    rw [d1 col, u2 col]
  · intro r
    rw [u3 r, d4 r]
  · intro r
    rw [d3 r, u4 r]

/-- The comparisons of `accountsOld` and `accountsNew`, whose primary key is renamed and
which differ in a column and in a reference each, are inverses. -/
theorem compareWith_inverse_witness :
    accountsOld.DistinctColumnNames ∧ accountsOld.NonEmptyColumnNames ∧
      accountsOld.SinglePrimaryKey ∧ accountsNew.DistinctColumnNames ∧
      accountsNew.NonEmptyColumnNames ∧ accountsNew.SinglePrimaryKey ∧
      NoKeySwap accountsOld accountsNew ∧
      ∃ up down, accountsOld.CompareWith asciiLower accountsNew [] = .ok up ∧
        accountsNew.CompareWith asciiLower accountsOld [] = .ok down ∧
        (∀ col, appearsAs .ADD_COLUMN (.column col) up ↔
          appearsAs .DROP_COLUMN (.column col) down) ∧
        (∀ col, appearsAs .ADD_COLUMN (.column col) down ↔
          appearsAs .DROP_COLUMN (.column col) up) ∧
        (∀ r, appearsAs .ADD_FOREIGN_KEY (.reference r) up ↔
          appearsAs .DROP_FOREIGN_KEY (.reference r) down) ∧
        (∀ r, appearsAs .ADD_FOREIGN_KEY (.reference r) down ↔
          appearsAs .DROP_FOREIGN_KEY (.reference r) up) :=
  ⟨by decide, by decide, by decide, by decide, by decide, by decide, by decide,
    compareWith_inverse asciiLower accountsOld accountsNew [] [] (by decide) (by decide)
      (by decide) (by decide) (by decide) (by decide) (by decide)⟩

/-- C8: the two comparisons of `t{id PK, k}` and `t{id, k PK}`, between which the
primary key moves from `id` to `k`, are not inverses. `CompareWith` is documented to
create the migrations that "change caller table into given dst table". From the second
table to the first it does: it drops the plain `id`, renames the key `k` to `id` and
adds the plain column `k`. From the first to the second it renames the key `id` to `k`
and adds a plain `id`, and has no `DROP_COLUMN` of the plain column `k` of the first
table: the first loop looks the column up in the target under the rename `id -> k` it
has just recorded. So `k` appears as `ADD_COLUMN` in one direction and not as
`DROP_COLUMN` in the other. -/
theorem compareWith_not_inverse :
    keyOnK.CompareWith asciiLower keyOnId [] =
        .ok [NewColumnMigration (.column { idColumn with PrimaryKey := false }) .nil
            .DROP_COLUMN,
          NewColumnMigration (.column idColumn) (.column { kColumn with PrimaryKey := true })
            .RENAME_COLUMN,
          NewColumnMigration (.column idColumn) (.column { kColumn with PrimaryKey := true })
            .MODIFY_COLUMN,
          NewColumnMigration (.column kColumn) .nil .ADD_COLUMN] ∧
      keyOnId.CompareWith asciiLower keyOnK [] =
        .ok [NewColumnMigration (.column { kColumn with PrimaryKey := true })
            (.column idColumn) .RENAME_COLUMN,
          NewColumnMigration (.column { idColumn with PrimaryKey := false }) .nil
            .ADD_COLUMN,
          NewColumnMigration (.column { kColumn with PrimaryKey := true })
            (.column idColumn) .MODIFY_COLUMN] ∧
      ¬ (appearsAs .ADD_COLUMN (.column kColumn)
            [NewColumnMigration (.column { idColumn with PrimaryKey := false }) .nil
                .DROP_COLUMN,
              NewColumnMigration (.column idColumn)
                (.column { kColumn with PrimaryKey := true }) .RENAME_COLUMN,
              NewColumnMigration (.column idColumn)
                (.column { kColumn with PrimaryKey := true }) .MODIFY_COLUMN,
              NewColumnMigration (.column kColumn) .nil .ADD_COLUMN] ↔
          appearsAs .DROP_COLUMN (.column kColumn)
            [NewColumnMigration (.column { kColumn with PrimaryKey := true })
                (.column idColumn) .RENAME_COLUMN,
              NewColumnMigration (.column { idColumn with PrimaryKey := false }) .nil
                .ADD_COLUMN,
              NewColumnMigration (.column { kColumn with PrimaryKey := true })
                (.column idColumn) .MODIFY_COLUMN]) :=
  ⟨rfl, rfl, by decide⟩


/-! ## Applying the sorted operations -/

theorem applyMigrations_fields (t : Table) (ms : List ColumnMigration) :
    (applyMigrations t ms).Columns = ms.foldl applyColumns t.Columns ∧
      (applyMigrations t ms).IndexToUniqueCols = ms.foldl applyIndexes t.IndexToUniqueCols ∧
      (applyMigrations t ms).References = ms.foldl applyReferences t.References := by
  unfold applyMigrations
  induction ms generalizing t with
  | nil => exact ⟨rfl, rfl, rfl⟩
  | cons m rest ih =>
    simp only [List.foldl_cons]
    exact ih (applyMigration t m)

theorem foldl_applyColumns_other (cols : List Column) (ms : List ColumnMigration)
    (h : ∀ m ∈ ms, m.Operation ≠ .DROP_COLUMN ∧ m.Operation ≠ .RENAME_COLUMN ∧
      m.Operation ≠ .MODIFY_COLUMN ∧ m.Operation ≠ .ADD_COLUMN) :
    ms.foldl applyColumns cols = cols := by
  induction ms with
  | nil => rfl
  | cons m rest ih =>
    obtain ⟨h1, h2, h3, h4⟩ := h m (List.mem_cons_self _ _)
    have hstep : applyColumns cols m = cols := by
      unfold applyColumns
      split <;> simp_all
    rw [List.foldl_cons, hstep]
    exact ih (fun x hx => h x (List.mem_cons_of_mem _ hx))

theorem ofKind_of_kind (k op : ColumnOperation) (l : List ColumnMigration)
    (h : ∀ m ∈ l, m.Operation = k) : ofKind op l = if op = k then l else [] := by
  by_cases hop : op = k
  · rw [if_pos hop]
    subst hop
    exact ofKind_same _ _ h
  · rw [if_neg hop]
    apply ofKind_other
    intro m hm heq
    exact hop (heq.symm.trans (h m hm))

theorem ofKind_of_two (k1 k2 op : ColumnOperation) (l : List ColumnMigration)
    (h : ∀ m ∈ l, m.Operation = k1 ∨ m.Operation = k2) (h1 : op ≠ k1) (h2 : op ≠ k2) :
    ofKind op l = [] := by
  apply ofKind_other
  intro m hm heq
  rcases h m hm with h' | h'
  · exact h1 (heq.symm.trans h')
  · exact h2 (heq.symm.trans h')

/-- The sorted output of a comparison, piece by piece: the dropped references, the
dropped indexes, the dropped columns, the rename, the modifications, the added
columns, the updated and the added references, the added indexes. -/
theorem sort_pieces (D1 D2 N1 N2 I1 I2 F1 F2 ren mod : List ColumnMigration)
    (hD1 : ∀ m ∈ D1, m.Operation = .DROP_COLUMN)
    (hD2 : ∀ m ∈ D2, m.Operation = .DROP_COLUMN)
    (hren : ∀ m ∈ ren, m.Operation = .RENAME_COLUMN)
    (hmod : ∀ m ∈ mod, m.Operation = .MODIFY_COLUMN)
    (hN1 : ∀ m ∈ N1, m.Operation = .ADD_COLUMN ∨ m.Operation = .MODIFY_COLUMN)
    (hN2 : ∀ m ∈ N2, m.Operation = .ADD_COLUMN ∨ m.Operation = .MODIFY_COLUMN)
    (hI1 : ∀ m ∈ I1, m.Operation = .ADD_UNIQUE_INDEX)
    (hI2 : ∀ m ∈ I2, m.Operation = .DROP_UNIQUE_INDEX)
    (hF1 : ∀ m ∈ F1, m.Operation = .DROP_FOREIGN_KEY)
    (hF2 : ∀ m ∈ F2, m.Operation = .ADD_FOREIGN_KEY ∨ m.Operation = .UPDATE_FOREIGN_KEY) :
    SortMigrationsByOperationPriority
        (D1 ++ ren ++ D2 ++ (N1 ++ mod ++ N2) ++ I1 ++ I2 ++ F1 ++ F2) =
      F1 ++ I2 ++ (D1 ++ D2) ++ ren ++
        (ofKind .MODIFY_COLUMN N1 ++ mod ++ ofKind .MODIFY_COLUMN N2) ++
        (ofKind .ADD_COLUMN N1 ++ ofKind .ADD_COLUMN N2) ++
        ofKind .UPDATE_FOREIGN_KEY F2 ++ ofKind .ADD_FOREIGN_KEY F2 ++ I1 := by
  have n1 : ∀ op, op ≠ .ADD_COLUMN → op ≠ .MODIFY_COLUMN → ofKind op N1 = [] :=
    fun op h1 h2 => ofKind_of_two _ _ op N1 hN1 h1 h2
  have n2 : ∀ op, op ≠ .ADD_COLUMN → op ≠ .MODIFY_COLUMN → ofKind op N2 = [] :=
    fun op h1 h2 => ofKind_of_two _ _ op N2 hN2 h1 h2
  have f2 : ∀ op, op ≠ .ADD_FOREIGN_KEY → op ≠ .UPDATE_FOREIGN_KEY → ofKind op F2 = [] :=
    fun op h1 h2 => ofKind_of_two _ _ op F2 hF2 h1 h2
  rw [sortMigrations_eq_kinds]
  simp only [ofKind_append, ofKind_of_kind _ _ D1 hD1, ofKind_of_kind _ _ D2 hD2,
    ofKind_of_kind _ _ ren hren, ofKind_of_kind _ _ mod hmod, ofKind_of_kind _ _ I1 hI1,
    ofKind_of_kind _ _ I2 hI2, ofKind_of_kind _ _ F1 hF1, reduceCtorEq, if_true, if_false,
    n1 .DROP_FOREIGN_KEY (by decide) (by decide), n1 .DROP_UNIQUE_INDEX (by decide) (by decide),
    n1 .DROP_COLUMN (by decide) (by decide), n1 .RENAME_COLUMN (by decide) (by decide),
    n1 .UPDATE_FOREIGN_KEY (by decide) (by decide),
    n1 .ADD_FOREIGN_KEY (by decide) (by decide), n1 .ADD_UNIQUE_INDEX (by decide) (by decide),
    n2 .DROP_FOREIGN_KEY (by decide) (by decide), n2 .DROP_UNIQUE_INDEX (by decide) (by decide),
    n2 .DROP_COLUMN (by decide) (by decide), n2 .RENAME_COLUMN (by decide) (by decide),
    n2 .UPDATE_FOREIGN_KEY (by decide) (by decide),
    n2 .ADD_FOREIGN_KEY (by decide) (by decide), n2 .ADD_UNIQUE_INDEX (by decide) (by decide),
    f2 .DROP_FOREIGN_KEY (by decide) (by decide), f2 .DROP_UNIQUE_INDEX (by decide) (by decide),
    f2 .DROP_COLUMN (by decide) (by decide), f2 .RENAME_COLUMN (by decide) (by decide),
    f2 .MODIFY_COLUMN (by decide) (by decide), f2 .ADD_COLUMN (by decide) (by decide),
    f2 .ADD_UNIQUE_INDEX (by decide) (by decide), List.append_nil, List.nil_append,
    List.append_assoc]


/-! ## The column list after the sorted operations -/

theorem NewColumnMigration_Operation (a o : Payload) (op : ColumnOperation) :
    (NewColumnMigration a o op).Operation = op := rfl

theorem NewColumnMigration_ApplyOn (a o : Payload) (op : ColumnOperation) :
    (NewColumnMigration a o op).ApplyOn = a := rfl

theorem plainDrops_eq_map (D : Table) (cols : List Column) :
    plainDrops D cols =
      (cols.filter (fun c => (D.plainColumn? c.Name).isNone)).map
        (fun c => NewColumnMigration (.column c) .nil .DROP_COLUMN) := by
  unfold plainDrops
  induction cols with
  | nil => rfl
  | cons c rest ih =>
    simp only [List.filterMap_cons, List.filter_cons]
    cases hp : D.plainColumn? c.Name with
    | none => simp [ih]
    | some old => simp [ih]

theorem ofKind_add_plainChanges (lower : String → String) (S : Table) (cols : List Column) :
    ofKind .ADD_COLUMN (plainChanges lower S cols) =
      (cols.filter (fun c => (S.plainColumn? c.Name).isNone)).map
        (fun c => NewColumnMigration (.column c) .nil .ADD_COLUMN) := by
  unfold plainChanges
  induction cols with
  | nil => rfl
  | cons c rest ih =>
    simp only [List.filterMap_cons, List.filter_cons]
    cases hp : S.plainColumn? c.Name with
    | none =>
      simp only [ofKind_cons, NewColumnMigration_Operation, if_true, ih, Option.isNone_none,
        List.map_cons]
    | some old =>
      by_cases he : c.Equals lower old = true
      · simp only [he, if_true, ih, Option.isNone_some, Bool.false_eq_true, if_false]
      · simp only [he, if_false, ofKind_cons, NewColumnMigration_Operation, reduceCtorEq, ih,
          Option.isNone_some, Bool.false_eq_true]

theorem foldl_drop_columns (cs gone : List Column) :
    (gone.map (fun c => NewColumnMigration (.column c) .nil .DROP_COLUMN)).foldl
        applyColumns cs =
      cs.filter (fun x => !(gone.any (fun c => c.Name == x.Name))) := by
  induction gone generalizing cs with
  | nil => simp
  | cons g rest ih =>
    simp only [List.map_cons, List.foldl_cons]
    have hstep : applyColumns cs (NewColumnMigration (.column g) .nil .DROP_COLUMN) =
        cs.filter (fun x => x.Name != g.Name) := rfl
    rw [hstep, ih, List.filter_filter]
    apply List.filter_congr
    intro x _
    simp only [List.any_cons, Bool.not_or, bne, Bool.and_comm]
    congr 2
    rw [Bool.eq_iff_iff]
    simp only [beq_iff_eq]
    exact eq_comm

theorem foldl_add_columns (cs added : List Column) :
    (added.map (fun c => NewColumnMigration (.column c) .nil .ADD_COLUMN)).foldl
        applyColumns cs = cs ++ added := by
  induction added generalizing cs with
  | nil => simp
  | cons a rest ih =>
    simp only [List.map_cons, List.foldl_cons]
    have hstep : applyColumns cs (NewColumnMigration (.column a) .nil .ADD_COLUMN) =
        cs ++ [a] := rfl
    rw [hstep, ih]
    simp

theorem rename_self (x : Column) (n : String) (h : x.Name = n) : { x with Name := n } = x := by
  subst h
  rfl

theorem foldl_rename (cs : List Column) (pkS pkD : Column) :
    (if pkS.Name = pkD.Name then []
      else [NewColumnMigration (.column pkD) (.column pkS) .RENAME_COLUMN]).foldl
        applyColumns cs =
      cs.map (fun x => if x.Name = pkS.Name then { x with Name := pkD.Name } else x) := by
  by_cases h : pkS.Name = pkD.Name
  · rw [if_pos h]
    simp only [List.foldl_nil]
    symm
    conv_rhs => rw [← List.map_id cs]
    apply List.map_congr_left
    intro x _
    by_cases hx : x.Name = pkS.Name
    · rw [if_pos hx]
      exact rename_self x _ (hx.trans h)
    · rw [if_neg hx]
      rfl
  · rw [if_neg h]
    rfl

theorem foldl_modify (cs : List Column) (M : List ColumnMigration)
    (hM : ∀ m ∈ M, m.Operation = .MODIFY_COLUMN ∧ ∃ new, m.ApplyOn = .column new) :
    (M.foldl applyColumns cs).map Column.Name = cs.map Column.Name ∧
      ∀ c ∈ M.foldl applyColumns cs,
        (c ∈ cs ∧ ∀ m ∈ M, ∀ new, m.ApplyOn = .column new → new.Name ≠ c.Name) ∨
          (∃ m ∈ M, m.ApplyOn = .column c) := by
  induction M generalizing cs with
  | nil =>
    refine ⟨rfl, ?_⟩
    intro c hc
    exact Or.inl ⟨hc, fun m hm => by cases hm⟩
  | cons m rest ih =>
    obtain ⟨hop, new, hnew⟩ := hM m (List.mem_cons_self _ _)
    have hstep : applyColumns cs m = cs.map (fun x => if x.Name = new.Name then new else x) := by
      unfold applyColumns
      rw [hop, hnew]
    obtain ⟨ih1, ih2⟩ := ih (applyColumns cs m) (fun x hx => hM x (List.mem_cons_of_mem _ hx))
    rw [List.foldl_cons]
    refine ⟨?_, ?_⟩
    · rw [ih1, hstep, List.map_map]
      apply List.map_congr_left
      intro x _
      simp only [Function.comp]
      by_cases hx : x.Name = new.Name
      · rw [if_pos hx, hx]
      · rw [if_neg hx]
    · intro c hc
      rcases ih2 c hc with ⟨hc1, hc2⟩ | ⟨m', hm', hc'⟩
      · rw [hstep, List.mem_map] at hc1
        obtain ⟨x, hx, hxc⟩ := hc1
        by_cases hxn : x.Name = new.Name
        · rw [if_pos hxn] at hxc
          subst hxc
          exact Or.inr ⟨m, List.mem_cons_self _ _, hnew⟩
        · rw [if_neg hxn] at hxc
          subst hxc
          refine Or.inl ⟨hx, ?_⟩
          intro m' hm' new' hnew'
          rcases List.mem_cons.1 hm' with h | h
          · subst h
            rw [hnew] at hnew'
            cases hnew'
            exact fun h => hxn h.symm
          · exact hc2 m' h new' hnew'
      · exact Or.inr ⟨m', List.mem_cons_of_mem _ hm', hc'⟩


theorem plainColumn?_some (T : Table) (n : String) (c : Column)
    (h : T.plainColumn? n = some c) :
    c ∈ T.Columns ∧ c.Name = n ∧ c.PrimaryKey = false := by
  unfold Table.plainColumn? at h
  have h1 := List.mem_of_find?_eq_some h
  have h2 := List.find?_some h
  simp only [Bool.and_eq_true, beq_iff_eq, Bool.not_eq_true'] at h2
  exact ⟨h1, h2.1, h2.2⟩

theorem plainColumn?_none (T : Table) (n : String) (h : T.plainColumn? n = none) :
    ∀ c ∈ T.Columns, c.PrimaryKey = false → c.Name ≠ n := by
  unfold Table.plainColumn? at h
  rw [List.find?_eq_none] at h
  intro c hc hpk hname
  exact h c hc (by simp [hname, hpk])

theorem plainColumn?_of_mem (T : Table) (hd : T.DistinctColumnNames) (c : Column)
    (hc : c ∈ T.Columns) (hpk : c.PrimaryKey = false) : T.plainColumn? c.Name = some c := by
  unfold Table.plainColumn?
  apply find?_of_unique _ _ c hc (by simp [hpk])
  intro y hy hyp
  simp only [Bool.and_eq_true, beq_iff_eq] at hyp
  exact List.inj_on_of_nodup_map hd hy hc hyp.1

theorem mem_modifications (lower : String → String) (S : Table) (cols : List Column)
    (m : ColumnMigration) :
    m ∈ ofKind .MODIFY_COLUMN (plainChanges lower S cols) ↔
      ∃ col ∈ cols, ∃ old, S.plainColumn? col.Name = some old ∧
        col.Equals lower old = false ∧
        m = NewColumnMigration (.column col) (.column old) .MODIFY_COLUMN := by
  rw [mem_ofKind, mem_plainChanges]
  constructor
  · rintro ⟨⟨col, hcol, h⟩, hop⟩
    rcases h with ⟨_, rfl⟩ | ⟨old, h1, h2, rfl⟩
    · cases hop
    · exact ⟨col, hcol, old, h1, h2, rfl⟩
  · rintro ⟨col, hcol, old, h1, h2, rfl⟩
    exact ⟨⟨col, hcol, Or.inr ⟨old, h1, h2, rfl⟩⟩, rfl⟩

theorem Equals_symm (lower : String → String) (c d : Column) (h : c.Equals lower d = true) :
    d.Equals lower c = true := by
  rw [Equals_iff] at h ⊢
  obtain ⟨h1, h2, h3, h4, h5⟩ := h
  refine ⟨h1.symm, h2.symm, h3.symm, h4.symm, ?_⟩
  rintro ⟨h6, h7⟩
  exact h5 ⟨fun h => h6 h.symm, fun h => h7 h.symm⟩

theorem Equals_renamed (lower : String → String) (pkS pkD : Column)
    (h : pkD.Equals lower pkS = true) :
    Column.Equals lower { pkS with Name := pkD.Name } pkD = true := by
  rw [Equals_iff] at h ⊢
  obtain ⟨_, h2, h3, h4, h5⟩ := h
  refine ⟨rfl, h2.symm, h3.symm, h4.symm, ?_⟩
  rintro ⟨h6, h7⟩
  exact h5 ⟨fun h => h6 h.symm, fun h => h7 h.symm⟩


/-- The columns of the source that the drop operations keep. -/
theorem mem_kept_columns (A B : Table) (preA postA : List Column) (pkA : Column)
    (hA : A.Columns = preA ++ pkA :: postA) (hfA : pkA.PrimaryKey = true)
    (hplainA : ∀ c ∈ preA ++ postA, c.PrimaryKey = false) (hdA : A.DistinctColumnNames)
    (x : Column) :
    x ∈ A.Columns.filter (fun x =>
        !(((preA ++ postA).filter (fun c => (B.plainColumn? c.Name).isNone)).any
          (fun c => c.Name == x.Name))) ↔
      x = pkA ∨ (x ∈ preA ++ postA ∧ ∃ b, B.plainColumn? x.Name = some b) := by
  have hmemA : ∀ c ∈ preA ++ postA, c ∈ A.Columns := by
    intro c hc
    rw [hA]
    rcases List.mem_append.1 hc with h | h
    · simp [h]
    · simp [h]
  have hpkA : pkA ∈ A.Columns := by rw [hA]; simp
  rw [List.mem_filter]
  simp only [Bool.not_eq_true', List.any_eq_false, List.mem_filter, beq_iff_eq, and_imp,
    Option.isNone_iff_eq_none]
  constructor
  · rintro ⟨hx, hnot⟩
    rw [hA] at hx
    have hx' : x = pkA ∨ x ∈ preA ++ postA := by
      rcases List.mem_append.1 hx with h | h
      · exact Or.inr (List.mem_append_left _ h)
      · rcases List.mem_cons.1 h with h | h
        · exact Or.inl h
        · exact Or.inr (List.mem_append_right _ h)
    rcases hx' with h | h
    · exact Or.inl h
    · refine Or.inr ⟨h, ?_⟩
      cases hp : B.plainColumn? x.Name with
      | none => exact absurd rfl (hnot x h hp)
      | some b => exact ⟨b, rfl⟩
  · rintro (rfl | ⟨hx, b, hb⟩)
    · refine ⟨hpkA, ?_⟩
      intro c hc _ hname
      have := List.inj_on_of_nodup_map hdA (hmemA c hc) hpkA hname
      subst this
      rw [hplainA c hc] at hfA
      cases hfA
    · refine ⟨hmemA x hx, ?_⟩
      intro c hc hnone hname
      have := List.inj_on_of_nodup_map hdA (hmemA c hc) (hmemA x hx) hname
      subst this
      rw [hb] at hnone
      cases hnone

/-- The column list of the source after the column operations of the sorted
comparison: what is left after drops, rename and modifications, followed by the added
columns. -/
theorem columns_after_shape (lower : String → String) (A B : Table)
    (preA postA preB postB : List Column) (pkA pkB : Column)
    (hB : B.Columns = preB ++ pkB :: postB) :
    ∃ C3 : List Column,
      (ofKind .ADD_COLUMN (plainChanges lower A preB) ++
          ofKind .ADD_COLUMN (plainChanges lower A postB)).foldl applyColumns
        ((ofKind .MODIFY_COLUMN (plainChanges lower A preB) ++
            (if pkB.Equals lower pkA then []
              else [NewColumnMigration (.column pkB) (.column pkA) .MODIFY_COLUMN]) ++
            ofKind .MODIFY_COLUMN (plainChanges lower A postB)).foldl applyColumns
          ((if pkA.Name = pkB.Name then []
              else [NewColumnMigration (.column pkB) (.column pkA) .RENAME_COLUMN]).foldl
            applyColumns
            ((plainDrops B preA ++ plainDrops B postA).foldl applyColumns
              A.Columns))) =
        C3 ++ (preB ++ postB).filter (fun c => (A.plainColumn? c.Name).isNone) ∧
      C3.map Column.Name =
        (A.Columns.filter (fun x =>
          !(((preA ++ postA).filter (fun c => (B.plainColumn? c.Name).isNone)).any
            (fun c => c.Name == x.Name)))).map
          (fun x => if x.Name = pkA.Name then pkB.Name else x.Name) ∧
      ∀ c ∈ C3,
        (∃ x ∈ A.Columns.filter (fun x =>
            !(((preA ++ postA).filter (fun c => (B.plainColumn? c.Name).isNone)).any
              (fun c => c.Name == x.Name))),
          c = (if x.Name = pkA.Name then { x with Name := pkB.Name } else x) ∧
          (c.Name = pkB.Name → pkB.Equals lower pkA = true) ∧
          (∀ b ∈ preB ++ postB, b.Name = c.Name → ∀ a, A.plainColumn? b.Name = some a →
            b.Equals lower a = true)) ∨
        c ∈ B.Columns := by
  have hdrops : plainDrops B preA ++ plainDrops B postA =
      ((preA ++ postA).filter (fun c => (B.plainColumn? c.Name).isNone)).map
        (fun c => NewColumnMigration (.column c) .nil .DROP_COLUMN) := by
    rw [plainDrops_eq_map, plainDrops_eq_map, List.filter_append, List.map_append]
  have hadds : ofKind .ADD_COLUMN (plainChanges lower A preB) ++
      ofKind .ADD_COLUMN (plainChanges lower A postB) =
      ((preB ++ postB).filter (fun c => (A.plainColumn? c.Name).isNone)).map
        (fun c => NewColumnMigration (.column c) .nil .ADD_COLUMN) := by
    rw [ofKind_add_plainChanges, ofKind_add_plainChanges, List.filter_append, List.map_append]
  rw [hdrops, foldl_drop_columns, foldl_rename, hadds, foldl_add_columns]
  -- the modifications
  have hMmem : ∀ m, m ∈ ofKind .MODIFY_COLUMN (plainChanges lower A preB) ++
        (if pkB.Equals lower pkA then []
          else [NewColumnMigration (.column pkB) (.column pkA) .MODIFY_COLUMN]) ++
        ofKind .MODIFY_COLUMN (plainChanges lower A postB) ↔
      (∃ col ∈ preB ++ postB, ∃ old, A.plainColumn? col.Name = some old ∧
        col.Equals lower old = false ∧
        m = NewColumnMigration (.column col) (.column old) .MODIFY_COLUMN) ∨
      (pkB.Equals lower pkA = false ∧
        m = NewColumnMigration (.column pkB) (.column pkA) .MODIFY_COLUMN) := by
    intro m
    simp only [List.mem_append, mem_modifications]
    constructor
    · rintro ((⟨col, hcol, h⟩ | h) | ⟨col, hcol, h⟩)
      · exact Or.inl ⟨col, Or.inl hcol, h⟩
      · right
        by_cases he : pkB.Equals lower pkA = true
        · rw [if_pos he] at h
          cases h
        · rw [if_neg he, List.mem_singleton] at h
          exact ⟨by simpa using he, h⟩
      · exact Or.inl ⟨col, Or.inr hcol, h⟩
    · rintro (⟨col, hcol | hcol, h⟩ | ⟨he, rfl⟩)
      · exact Or.inl (Or.inl ⟨col, hcol, h⟩)
      · exact Or.inr ⟨col, hcol, h⟩
      · left
        right
        rw [if_neg (by simp [he])]
        exact List.mem_singleton.2 rfl
  have hM : ∀ m ∈ ofKind .MODIFY_COLUMN (plainChanges lower A preB) ++
        (if pkB.Equals lower pkA then []
          else [NewColumnMigration (.column pkB) (.column pkA) .MODIFY_COLUMN]) ++
        ofKind .MODIFY_COLUMN (plainChanges lower A postB),
      m.Operation = .MODIFY_COLUMN ∧ ∃ new, m.ApplyOn = .column new := by
    intro m hm
    rcases (hMmem m).1 hm with ⟨col, _, old, _, _, rfl⟩ | ⟨_, rfl⟩
    · exact ⟨rfl, col, rfl⟩
    · exact ⟨rfl, pkB, rfl⟩
  obtain ⟨P1, P2⟩ := foldl_modify _ _ hM
  refine ⟨_, rfl, ?_, ?_⟩
  · rw [P1, List.map_map]
    apply List.map_congr_left
    intro x _
    simp only [Function.comp]
    by_cases hx : x.Name = pkA.Name
    · rw [if_pos hx, if_pos hx]
    · rw [if_neg hx, if_neg hx]
  · intro c hc
    rcases P2 c hc with ⟨hc1, hc2⟩ | ⟨m, hm, hmc⟩
    · left
      rw [List.mem_map] at hc1
      obtain ⟨x, hx, hxc⟩ := hc1
      refine ⟨x, hx, hxc.symm, ?_, ?_⟩
      · intro hname
        by_contra he
        have hmem := (hMmem (NewColumnMigration (.column pkB) (.column pkA)
          .MODIFY_COLUMN)).2 (Or.inr ⟨by simpa using he, rfl⟩)
        exact hc2 _ hmem pkB rfl hname.symm
      · intro b hb hname a ha
        by_contra he
        have hmem := (hMmem (NewColumnMigration (.column b) (.column a)
          .MODIFY_COLUMN)).2 (Or.inl ⟨b, hb, a, ha, by simpa using he, rfl⟩)
        exact hc2 _ hmem b rfl hname
    · right
      rcases (hMmem m).1 hm with ⟨col, hcol, old, _, _, rfl⟩ | ⟨_, rfl⟩
      · simp only [NewColumnMigration_ApplyOn, Payload.column.injEq] at hmc
        subst hmc
        rw [hB]
        rcases List.mem_append.1 hcol with h | h
        · simp [h]
        · simp [h]
      · simp only [NewColumnMigration_ApplyOn, Payload.column.injEq] at hmc
        subst hmc
        rw [hB]
        simp


/-- The column list of the source after the column operations of the sorted
comparison has the column names of the target, and each of its columns is `Equals` to
the target column of its name. -/
theorem columns_after_equal (lower : String → String) (A B : Table)
    (preA postA preB postB : List Column) (pkA pkB : Column)
    (hA : A.Columns = preA ++ pkA :: postA) (hB : B.Columns = preB ++ pkB :: postB)
    (hfA : pkA.PrimaryKey = true) (hfB : pkB.PrimaryKey = true)
    (hplainA : ∀ c ∈ preA ++ postA, c.PrimaryKey = false)
    (hplainB : ∀ c ∈ preB ++ postB, c.PrimaryKey = false)
    (hdA : A.DistinctColumnNames) (hdB : B.DistinctColumnNames)
    (R : List Column)
    (hR : R = (ofKind .ADD_COLUMN (plainChanges lower A preB) ++
          ofKind .ADD_COLUMN (plainChanges lower A postB)).foldl applyColumns
        ((ofKind .MODIFY_COLUMN (plainChanges lower A preB) ++
            (if pkB.Equals lower pkA then []
              else [NewColumnMigration (.column pkB) (.column pkA) .MODIFY_COLUMN]) ++
            ofKind .MODIFY_COLUMN (plainChanges lower A postB)).foldl applyColumns
          ((if pkA.Name = pkB.Name then []
              else [NewColumnMigration (.column pkB) (.column pkA) .RENAME_COLUMN]).foldl
            applyColumns
            ((plainDrops B preA ++ plainDrops B postA).foldl applyColumns
              A.Columns)))) :
    (R.map Column.Name).Perm (B.Columns.map Column.Name) ∧
      ∀ c ∈ R, ∀ d ∈ B.Columns, c.Name = d.Name → c.Equals lower d = true := by
  obtain ⟨C3, hshape, hnames, horigin⟩ :=
    columns_after_shape lower A B preA postA preB postB pkA pkB hB
  rw [hshape] at hR
  subst hR
  have hkept := mem_kept_columns A B preA postA pkA hA hfA hplainA hdA
  have hmemA : ∀ c ∈ preA ++ postA, c ∈ A.Columns := by
    intro c hc
    rw [hA]
    rcases List.mem_append.1 hc with h | h
    · simp [h]
    · simp [h]
  have hmemB : ∀ c ∈ preB ++ postB, c ∈ B.Columns := by
    intro c hc
    rw [hB]
    rcases List.mem_append.1 hc with h | h
    · simp [h]
    · simp [h]
  have hpkA : pkA ∈ A.Columns := by rw [hA]; simp
  have hpkB : pkB ∈ B.Columns := by rw [hB]; simp
  have hsplitB : ∀ d ∈ B.Columns, d = pkB ∨ d ∈ preB ++ postB := by
    intro d hd
    rw [hB] at hd
    rcases List.mem_append.1 hd with h | h
    · exact Or.inr (List.mem_append_left _ h)
    · rcases List.mem_cons.1 h with h | h
      · exact Or.inl h
      · exact Or.inr (List.mem_append_right _ h)
  -- a kept column that is not the primary key has a plain namesake in the target
  have hplainName : ∀ x ∈ preA ++ postA, x.Name ≠ pkA.Name := by
    intro x hx hname
    have := List.inj_on_of_nodup_map hdA (hmemA x hx) hpkA hname
    subst this
    rw [hplainA _ hx] at hfA
    cases hfA
  have hkeptName : ∀ x ∈ preA ++ postA, ∀ b, B.plainColumn? x.Name = some b →
      x.Name ≠ pkB.Name := by
    intro x _ b hb hname
    obtain ⟨hb1, hb2, hb3⟩ := plainColumn?_some B _ b hb
    have := List.inj_on_of_nodup_map hdB hb1 hpkB (hb2.trans hname)
    subst this
    rw [hb3] at hfB
    cases hfB
  have haddedMem : ∀ b, b ∈ (preB ++ postB).filter (fun c => (A.plainColumn? c.Name).isNone) ↔
      b ∈ preB ++ postB ∧ A.plainColumn? b.Name = none := by
    intro b
    rw [List.mem_filter, Option.isNone_iff_eq_none]
  have haddedName : ∀ b ∈ preB ++ postB, b.Name ≠ pkB.Name := by
    intro b hb hname
    have := List.inj_on_of_nodup_map hdB (hmemB b hb) hpkB hname
    subst this
    rw [hplainB _ hb] at hfB
    cases hfB
  constructor
  · rw [List.map_append, hnames]
    rw [List.perm_ext_iff_of_nodup _ hdB]
    · intro n
      simp only [List.mem_append, List.mem_map]
      constructor
      · rintro (⟨x, hx, rfl⟩ | ⟨b, hb, rfl⟩)
        · rcases (hkept x).1 hx with rfl | ⟨hx1, b, hb⟩
          · exact ⟨pkB, hpkB, by simp⟩
          · obtain ⟨hb1, hb2, _⟩ := plainColumn?_some B _ b hb
            exact ⟨b, hb1, by rw [if_neg (hplainName x hx1), hb2]⟩
        · exact ⟨b, hmemB b ((haddedMem b).1 hb).1, rfl⟩
      · rintro ⟨d, hd, rfl⟩
        rcases hsplitB d hd with rfl | hd'
        · exact Or.inl ⟨pkA, (hkept pkA).2 (Or.inl rfl), by simp⟩
        · cases hp : A.plainColumn? d.Name with
          | none => exact Or.inr ⟨d, (haddedMem d).2 ⟨hd', hp⟩, rfl⟩
          | some a =>
            obtain ⟨ha1, ha2, ha3⟩ := plainColumn?_some A _ a hp
            have ha' : a ∈ preA ++ postA := by
              rw [hA] at ha1
              rcases List.mem_append.1 ha1 with h | h
              · exact List.mem_append_left _ h
              · rcases List.mem_cons.1 h with h | h
                · subst h
                  rw [ha3] at hfA
                  cases hfA
                · exact List.mem_append_right _ h
            have hbd : B.plainColumn? a.Name = some d := by
              rw [ha2]
              exact plainColumn?_of_mem B hdB d hd (hplainB d hd')
            exact Or.inl ⟨a, (hkept a).2 (Or.inr ⟨ha', d, hbd⟩),
              by rw [if_neg (hplainName a ha'), ha2]⟩
    · rw [List.nodup_append]
      refine ⟨?_, ?_, ?_⟩
      · apply List.Nodup.map_on
        · intro x hx y hy hxy
          have hxA : x ∈ A.Columns := (List.mem_filter.1 hx).1
          have hyA : y ∈ A.Columns := (List.mem_filter.1 hy).1
          by_cases h1 : x.Name = pkA.Name
          · by_cases h2 : y.Name = pkA.Name
            · exact List.inj_on_of_nodup_map hdA hxA hyA (h1.trans h2.symm)
            · rw [if_pos h1, if_neg h2] at hxy
              rcases (hkept y).1 hy with rfl | ⟨hy1, b, hb⟩
              · exact absurd rfl h2
              · exact absurd hxy.symm (hkeptName y hy1 b hb)
          · by_cases h2 : y.Name = pkA.Name
            · rw [if_neg h1, if_pos h2] at hxy
              rcases (hkept x).1 hx with rfl | ⟨hx1, b, hb⟩
              · exact absurd rfl h1
              · exact absurd hxy (hkeptName x hx1 b hb)
            · rw [if_neg h1, if_neg h2] at hxy
              exact List.inj_on_of_nodup_map hdA hxA hyA hxy
        · exact (List.Nodup.of_map _ hdA).filter _
      · have hsub : List.Sublist
            (((preB ++ postB).filter (fun c => (A.plainColumn? c.Name).isNone)).map
              Column.Name)
            (B.Columns.map Column.Name) := by
          apply List.Sublist.map
          rw [hB]
          exact (List.filter_sublist _).trans
            (List.Sublist.append (List.Sublist.refl preB) (List.sublist_cons_self pkB postB))
        exact List.Nodup.sublist hsub hdB
      · intro n hn1 hn2
        rw [List.mem_map] at hn1 hn2
        obtain ⟨x, hx, rfl⟩ := hn1
        obtain ⟨b, hb, hbn⟩ := hn2
        obtain ⟨hb1, hb2⟩ := (haddedMem b).1 hb
        rcases (hkept x).1 hx with rfl | ⟨hx1, b', _⟩
        · rw [if_pos rfl] at hbn
          exact haddedName b hb1 hbn
        · rw [if_neg (hplainName x hx1)] at hbn
          exact plainColumn?_none A _ hb2 x (hmemA x hx1) (hplainA x hx1) hbn.symm
  · intro c hc d hd hname
    have hsame : c ∈ B.Columns → c.Equals lower d = true := by
      intro hcB
      have := List.inj_on_of_nodup_map hdB hcB hd hname
      subst this
      exact Equals_refl lower c
    rcases List.mem_append.1 hc with hc | hc
    · rcases horigin c hc with ⟨x, hx, hcx, hpk, hplain⟩ | hcB
      · rcases (hkept x).1 hx with rfl | ⟨hx1, b, hb⟩
        · rw [if_pos rfl] at hcx
          subst hcx
          have hd' : d = pkB := List.inj_on_of_nodup_map hdB hd hpkB hname.symm
          subst hd'
          exact Equals_renamed lower x d (hpk rfl)
        · rw [if_neg (hplainName x hx1)] at hcx
          subst hcx
          rcases hsplitB d hd with rfl | hd'
          · exact absurd hname (hkeptName c hx1 b hb)
          · have hpa : A.plainColumn? d.Name = some c := by
              rw [← hname]
              exact plainColumn?_of_mem A hdA c (hmemA c hx1) (hplainA c hx1)
            exact Equals_symm lower d c (hplain d hd' hname.symm c hpa)
      · exact hsame hcB
    · exact hsame (hmemB c ((haddedMem c).1 hc).1)


/-! ## The index map after the sorted operations -/

theorem mapLookup_eq_none (m : List (String × List String)) (k : String)
    (h : ∀ e ∈ m, e.1 ≠ k) : mapLookup m k = none := by
  induction m with
  | nil => rfl
  | cons e rest ih =>
    obtain ⟨k', v'⟩ := e
    unfold mapLookup
    rw [if_neg (h (k', v') (List.mem_cons_self _ _))]
    exact ih (fun e he => h e (List.mem_cons_of_mem _ he))

theorem mapLookup_mem (m : List (String × List String)) (k : String) (v : List String)
    (h : mapLookup m k = some v) : (k, v) ∈ m := by
  induction m with
  | nil => cases h
  | cons e rest ih =>
    obtain ⟨k', v'⟩ := e
    unfold mapLookup at h
    by_cases hk : k' = k
    · rw [if_pos hk] at h
      cases h
      subst hk
      exact List.mem_cons_self _ _
    · rw [if_neg hk] at h
      exact List.mem_cons_of_mem _ (ih h)

theorem mapLookup_cons (k' : String) (v : List String) (rest : List (String × List String))
    (k : String) :
    mapLookup ((k', v) :: rest) k = if k' = k then some v else mapLookup rest k := rfl

theorem mapLookup_append (m1 m2 : List (String × List String)) (k : String) :
    mapLookup (m1 ++ m2) k =
      match mapLookup m1 k with
      | some v => some v
      | none => mapLookup m2 k := by
  induction m1 with
  | nil => rfl
  | cons e rest ih =>
    obtain ⟨k', v'⟩ := e
    rw [List.cons_append, mapLookup_cons, mapLookup_cons]
    by_cases hk : k' = k
    · simp [hk]
    · simp only [hk, if_false]
      exact ih

theorem mapLookup_filter (m : List (String × List String)) (hm : UniqueKeys m)
    (p : String × List String → Bool) (k : String) :
    mapLookup (m.filter p) k =
      match mapLookup m k with
      | some v => if p (k, v) then some v else none
      | none => none := by
  induction m with
  | nil => rfl
  | cons e rest ih =>
    obtain ⟨k', v'⟩ := e
    unfold UniqueKeys at hm
    rw [List.map_cons, List.nodup_cons] at hm
    have ih' := ih hm.2
    by_cases hk : k' = k
    · subst hk
      have hnone : mapLookup (rest.filter p) k' = none := by
        apply mapLookup_eq_none
        intro e he heq
        exact hm.1 (List.mem_map.2 ⟨e, (List.mem_filter.1 he).1, heq⟩)
      by_cases hp : p (k', v') = true
      · rw [List.filter_cons_of_pos hp, mapLookup_cons, mapLookup_cons]
        simp [hp]
      · rw [List.filter_cons_of_neg hp, hnone, mapLookup_cons]
        simp [hp]
    · by_cases hp : p (k', v') = true
      · rw [List.filter_cons_of_pos hp, mapLookup_cons, mapLookup_cons, if_neg hk, if_neg hk]
        exact ih'
      · rw [List.filter_cons_of_neg hp, mapLookup_cons, if_neg hk]
        exact ih'

theorem foldl_applyIndexes_other (idx : List (String × List String))
    (ms : List ColumnMigration)
    (h : ∀ m ∈ ms, m.Operation ≠ .DROP_UNIQUE_INDEX ∧ m.Operation ≠ .ADD_UNIQUE_INDEX) :
    ms.foldl applyIndexes idx = idx := by
  induction ms with
  | nil => rfl
  | cons m rest ih =>
    obtain ⟨h1, h2⟩ := h m (List.mem_cons_self _ _)
    have hstep : applyIndexes idx m = idx := by
      unfold applyIndexes
      split <;> simp_all
    rw [List.foldl_cons, hstep]
    exact ih (fun x hx => h x (List.mem_cons_of_mem _ hx))

theorem filterMap_ite {α β : Type} (c : α → Bool) (f : α → β) (l : List α) :
    l.filterMap (fun x => if c x = true then none else some (f x)) =
      (l.filter (fun x => !c x)).map f := by
  induction l with
  | nil => rfl
  | cons a rest ih =>
    by_cases h : c a = true
    · simp [List.filterMap_cons, h, ih]
    · simp [List.filterMap_cons, h, ih]

theorem checkIndexes_eq_map (other : Table) (op : ColumnOperation)
    (entries : List (String × List String)) (hk : UniqueKeys entries) :
    checkIndexes other op entries [] =
      (entries.filter (fun e => !decide (mapLookup other.IndexToUniqueCols e.1 = some e.2))).map
        (fun e => NewColumnMigration (.str e.1) (.strs e.2) op) := by
  rw [checkIndexes_eq other op entries [] hk (fun k hk' => by cases hk')]
  rw [← filterMap_ite (fun e => decide (mapLookup other.IndexToUniqueCols e.1 = some e.2))
    (fun e => NewColumnMigration (.str e.1) (.strs e.2) op) entries]
  apply filterMap_congr_mem
  intro e _
  by_cases h : mapLookup other.IndexToUniqueCols e.1 = some e.2 <;> simp [h]

theorem foldl_drop_indexes (idx gone : List (String × List String)) :
    (gone.map (fun e => NewColumnMigration (.str e.1) (.strs e.2) .DROP_UNIQUE_INDEX)).foldl
        applyIndexes idx =
      idx.filter (fun e => !(gone.any (fun d => d.1 == e.1))) := by
  induction gone generalizing idx with
  | nil => simp
  | cons g rest ih =>
    simp only [List.map_cons, List.foldl_cons]
    have hstep : applyIndexes idx
        (NewColumnMigration (.str g.1) (.strs g.2) .DROP_UNIQUE_INDEX) =
        idx.filter (fun e => e.1 != g.1) := rfl
    rw [hstep, ih, List.filter_filter]
    apply List.filter_congr
    intro x _
    simp only [List.any_cons, Bool.not_or, bne, Bool.and_comm]
    congr 2
    rw [Bool.eq_iff_iff]
    simp only [beq_iff_eq]
    exact eq_comm

theorem foldl_add_indexes (idx added : List (String × List String)) :
    (added.map (fun e => NewColumnMigration (.str e.1) (.strs e.2) .ADD_UNIQUE_INDEX)).foldl
        applyIndexes idx = idx ++ added := by
  induction added generalizing idx with
  | nil => simp
  | cons a rest ih =>
    simp only [List.map_cons, List.foldl_cons]
    have hstep : applyIndexes idx
        (NewColumnMigration (.str a.1) (.strs a.2) .ADD_UNIQUE_INDEX) = idx ++ [a] := rfl
    rw [hstep, ih]
    simp

/-- The index map of the source after the dropped and the added indexes of the
comparison is the index map of the target. -/
theorem indexes_after_equal (A B : Table) (hkA : UniqueKeys A.IndexToUniqueCols)
    (hkB : UniqueKeys B.IndexToUniqueCols) (k : String) :
    mapLookup
        ((checkIndexes A .ADD_UNIQUE_INDEX B.IndexToUniqueCols []).foldl applyIndexes
          ((checkIndexes B .DROP_UNIQUE_INDEX A.IndexToUniqueCols []).foldl applyIndexes
            A.IndexToUniqueCols)) k =
      mapLookup B.IndexToUniqueCols k := by
  rw [checkIndexes_eq_map A _ _ hkB, checkIndexes_eq_map B _ _ hkA, foldl_drop_indexes,
    foldl_add_indexes, mapLookup_append, mapLookup_filter _ hkA, mapLookup_filter _ hkB]
  cases hA : mapLookup A.IndexToUniqueCols k with
  | none =>
    cases hB : mapLookup B.IndexToUniqueCols k with
    | none => rfl
    | some v' => simp [hA]
  | some v =>
    have hmem := mapLookup_mem _ _ _ hA
    have hkeep : (!(A.IndexToUniqueCols.filter
        (fun e => !decide (mapLookup B.IndexToUniqueCols e.1 = some e.2))).any
        (fun d => d.1 == (k, v).1)) = decide (mapLookup B.IndexToUniqueCols k = some v) := by
      rw [Bool.eq_iff_iff]
      simp only [Bool.not_eq_true', List.any_eq_false, List.mem_filter, beq_iff_eq,
        decide_eq_true_eq, Bool.not_eq_true', decide_eq_false_iff_not, and_imp]
      constructor
      · intro h
        by_contra hne
        exact h (k, v) hmem hne rfl
      · intro h e he hne hek
        obtain ⟨k', v'⟩ := e
        simp only at hek hne
        subst hek
        have := mapLookup_of_mem _ hkA k' v' he
        rw [hA] at this
        cases this
        exact hne h
    simp only [hkeep]
    cases hB : mapLookup B.IndexToUniqueCols k with
    | none => simp
    | some v' =>
      by_cases hv : v' = v
      · subst hv
        simp
      · have hv' : v ≠ v' := fun h => hv h.symm
        simp [hv, hv', hA]


/-! ## The references after the sorted operations -/

theorem sameRelation_iff (r1 r2 : Reference) :
    sameRelation r1 r2 = true ↔
      r1.TableName = r2.TableName ∧ r1.ColumnName = r2.ColumnName ∧
        r1.ReferencedTableName = r2.ReferencedTableName ∧
        r1.ReferencedColumnName = r2.ReferencedColumnName := by
  unfold sameRelation
  simp only [Bool.and_eq_true, beq_iff_eq, and_assoc]

theorem sameRelation_trans (r1 r2 r3 : Reference) (h1 : sameRelation r1 r2 = true)
    (h2 : sameRelation r2 r3 = true) : sameRelation r1 r3 = true := by
  rw [sameRelation_iff] at h1 h2 ⊢
  obtain ⟨a1, a2, a3, a4⟩ := h1
  obtain ⟨b1, b2, b3, b4⟩ := h2
  exact ⟨a1.trans b1, a2.trans b2, a3.trans b3, a4.trans b4⟩

theorem sameRelation_symm' (r1 r2 : Reference) (h : sameRelation r1 r2 = true) :
    sameRelation r2 r1 = true := by
  rw [sameRelation_symm]
  exact h

theorem referenceKey_eq_iff (x b : Reference) :
    referenceKey x = referenceKey b ↔
      sameRelation x b = true ∧ x.DeleteOption = b.DeleteOption ∧
        x.UpdateOption = b.UpdateOption := by
  unfold referenceKey
  rw [sameRelation_iff]
  simp only [Prod.mk.injEq]
  tauto

theorem foldl_applyReferences_other (refs : List Reference) (ms : List ColumnMigration)
    (h : ∀ m ∈ ms, m.Operation ≠ .DROP_FOREIGN_KEY ∧ m.Operation ≠ .UPDATE_FOREIGN_KEY ∧
      m.Operation ≠ .ADD_FOREIGN_KEY) :
    ms.foldl applyReferences refs = refs := by
  induction ms with
  | nil => rfl
  | cons m rest ih =>
    obtain ⟨h1, h2, h3⟩ := h m (List.mem_cons_self _ _)
    have hstep : applyReferences refs m = refs := by
      unfold applyReferences
      split <;> simp_all
    rw [List.foldl_cons, hstep]
    exact ih (fun x hx => h x (List.mem_cons_of_mem _ hx))

theorem checkDroppedReferences_eq_map (dst : Table) (refs : List Reference) :
    checkDroppedReferences dst refs =
      (refs.filter (fun r => !(dst.References.any (fun r2 => sameRelation r r2)))).map
        (fun r => NewColumnMigration (.reference r) .nil .DROP_FOREIGN_KEY) := by
  rw [checkDroppedReferences_eq]
  exact filterMap_ite (fun r => dst.References.any (fun r2 => sameRelation r r2))
    (fun r => NewColumnMigration (.reference r) .nil .DROP_FOREIGN_KEY) refs

theorem ofKind_add_referenceChanges (t : Table) (refs : List Reference) :
    ofKind .ADD_FOREIGN_KEY (referenceChanges t refs) =
      (refs.filter (fun r =>
        (t.References.find? (fun r2 => sameRelation r r2)).isNone)).map
        (fun r => NewColumnMigration (.reference r) .nil .ADD_FOREIGN_KEY) := by
  unfold referenceChanges
  induction refs with
  | nil => rfl
  | cons r rest ih =>
    simp only [List.filterMap_cons, List.filter_cons]
    cases hp : t.References.find? (fun r2 => sameRelation r r2) with
    | none =>
      simp only [ofKind_cons, NewColumnMigration_Operation, if_true, ih, Option.isNone_none,
        List.map_cons]
    | some old =>
      by_cases he : (old.UpdateOption != r.UpdateOption ||
          old.DeleteOption != r.DeleteOption) = true
      · simp only [he, if_true, ofKind_cons, NewColumnMigration_Operation, reduceCtorEq,
          if_false, ih, Option.isNone_some, Bool.false_eq_true]
      · simp only [he, if_false, ih, Option.isNone_some, Bool.false_eq_true]

theorem mem_updates (t : Table) (refs : List Reference) (m : ColumnMigration) :
    m ∈ ofKind .UPDATE_FOREIGN_KEY (referenceChanges t refs) ↔
      ∃ r ∈ refs, ∃ old, t.References.find? (fun r2 => sameRelation r r2) = some old ∧
        (old.UpdateOption != r.UpdateOption || old.DeleteOption != r.DeleteOption) = true ∧
        m = NewColumnMigration (.reference r) (.reference old) .UPDATE_FOREIGN_KEY := by
  rw [mem_ofKind, mem_referenceChanges]
  constructor
  · rintro ⟨⟨r, hr, h⟩, hop⟩
    rcases h with ⟨_, rfl⟩ | ⟨old, h1, h2, rfl⟩
    · cases hop
    · exact ⟨r, hr, old, h1, h2, rfl⟩
  · rintro ⟨r, hr, old, h1, h2, rfl⟩
    exact ⟨⟨r, hr, Or.inr ⟨old, h1, h2, rfl⟩⟩, rfl⟩

/-- An update later in the list does not remove the reference an earlier update
adds, when the target references are pairwise different relations. -/
theorem pairwise_updates (t : Table) (refs : List Reference)
    (hrefs : refs.Pairwise (fun r1 r2 => sameRelation r1 r2 = false)) :
    (ofKind .UPDATE_FOREIGN_KEY (referenceChanges t refs)).Pairwise
      (fun m m' => ∀ new old', m.ApplyOn = .reference new → m'.Old = .reference old' →
        sameRelation new old' = false) := by
  induction refs with
  | nil => exact List.Pairwise.nil
  | cons r rest ih =>
    rw [List.pairwise_cons] at hrefs
    have ih' := ih hrefs.2
    have hcons : referenceChanges t (r :: rest) =
        (match t.References.find? (fun r2 => sameRelation r r2) with
          | none => [NewColumnMigration (.reference r) .nil .ADD_FOREIGN_KEY]
          | some old =>
            if old.UpdateOption != r.UpdateOption || old.DeleteOption != r.DeleteOption then
              [NewColumnMigration (.reference r) (.reference old) .UPDATE_FOREIGN_KEY]
            else []) ++ referenceChanges t rest := by
      unfold referenceChanges
      rw [List.filterMap_cons]
      cases t.References.find? (fun r2 => sameRelation r r2) with
      | none => rfl
      | some old =>
        by_cases he : (old.UpdateOption != r.UpdateOption ||
            old.DeleteOption != r.DeleteOption) = true
        · simp [he]
        · simp [he]
    rw [hcons, ofKind_append]
    have hhead : ∀ m ∈ ofKind .UPDATE_FOREIGN_KEY
        (match t.References.find? (fun r2 => sameRelation r r2) with
          | none => [NewColumnMigration (.reference r) .nil .ADD_FOREIGN_KEY]
          | some old =>
            if old.UpdateOption != r.UpdateOption || old.DeleteOption != r.DeleteOption then
              [NewColumnMigration (.reference r) (.reference old) .UPDATE_FOREIGN_KEY]
            else []), m.ApplyOn = .reference r := by
      intro m hm
      rw [mem_ofKind] at hm
      cases hf : t.References.find? (fun r2 => sameRelation r r2) with
      | none =>
        rw [hf] at hm
        simp only [List.mem_singleton] at hm
        rw [hm.1]
        rfl
      | some old =>
        rw [hf] at hm
        simp only at hm
        split at hm
        · simp only [List.mem_singleton] at hm
          rw [hm.1]
          rfl
        · cases hm.1
    rw [List.pairwise_append]
    refine ⟨?_, ih', ?_⟩
    · -- at most one operation in the head
      cases hf : t.References.find? (fun r2 => sameRelation r r2) with
      | none => simp [ofKind_cons, ofKind_nil, NewColumnMigration_Operation]
      | some old =>
        simp only
        split
        · simp [ofKind_cons, ofKind_nil, NewColumnMigration_Operation]
        · simp [ofKind_nil]
    · intro m hm m' hm' new old' hnew hold'
      have hmr := hhead m hm
      rw [hmr] at hnew
      cases hnew
      obtain ⟨r', hr', old, hfind, _, rfl⟩ := (mem_updates t rest m').1 hm'
      simp only [NewColumnMigration, Payload.reference.injEq] at hold'
      subst hold'
      have hro : sameRelation r' old = true := List.find?_some hfind
      by_contra hne
      simp only [Bool.not_eq_false] at hne
      have := sameRelation_trans _ _ _ hne (sameRelation_symm' _ _ hro)
      rw [hrefs.1 r' hr'] at this
      cases this


theorem foldl_drop_references (refs gone : List Reference) :
    (gone.map (fun r => NewColumnMigration (.reference r) .nil .DROP_FOREIGN_KEY)).foldl
        applyReferences refs =
      refs.filter (fun x => !(gone.any (fun r => sameRelation x r))) := by
  induction gone generalizing refs with
  | nil => simp
  | cons g rest ih =>
    simp only [List.map_cons, List.foldl_cons]
    have hstep : applyReferences refs
        (NewColumnMigration (.reference g) .nil .DROP_FOREIGN_KEY) =
        refs.filter (fun x => !sameRelation x g) := rfl
    rw [hstep, ih, List.filter_filter]
    apply List.filter_congr
    intro x _
    simp only [List.any_cons, Bool.not_or, Bool.and_comm]

theorem foldl_add_references (refs added : List Reference) :
    (added.map (fun r => NewColumnMigration (.reference r) .nil .ADD_FOREIGN_KEY)).foldl
        applyReferences refs = refs ++ added := by
  induction added generalizing refs with
  | nil => simp
  | cons a rest ih =>
    simp only [List.map_cons, List.foldl_cons]
    have hstep : applyReferences refs
        (NewColumnMigration (.reference a) .nil .ADD_FOREIGN_KEY) = refs ++ [a] := rfl
    rw [hstep, ih]
    simp

/-- The references after a list of updates: those the updates do not replace, and
those the updates bring. -/
theorem mem_foldl_updates (U : List ColumnMigration)
    (hU : ∀ m ∈ U, ∃ new old,
      m = NewColumnMigration (.reference new) (.reference old) .UPDATE_FOREIGN_KEY)
    (hpair : U.Pairwise (fun m m' => ∀ new old', m.ApplyOn = .reference new →
      m'.Old = .reference old' → sameRelation new old' = false))
    (refs : List Reference) (x : Reference) :
    x ∈ U.foldl applyReferences refs ↔
      (x ∈ refs ∧
          ∀ m ∈ U, ∀ old, m.Old = .reference old → sameRelation x old = false) ∨
        (∃ m ∈ U, m.ApplyOn = .reference x) := by
  induction U generalizing refs with
  | nil => simp
  | cons m rest ih =>
    obtain ⟨new, old, rfl⟩ := hU _ (List.mem_cons_self _ _)
    rw [List.pairwise_cons] at hpair
    have hstep : applyReferences refs
        (NewColumnMigration (.reference new) (.reference old) .UPDATE_FOREIGN_KEY) =
        refs.filter (fun x => !sameRelation x old) ++ [new] := rfl
    rw [List.foldl_cons, hstep,
      ih (fun m hm => hU m (List.mem_cons_of_mem _ hm)) hpair.2]
    simp only [List.mem_append, List.mem_filter, List.mem_singleton, Bool.not_eq_true',
      List.mem_cons, forall_eq_or_imp, exists_eq_or_imp, List.not_mem_nil, or_false]
    constructor
    · rintro (⟨(⟨hx, hxo⟩ | rfl), hrest⟩ | h)
      · left
        refine ⟨hx, ?_, hrest⟩
        intro o ho
        simp only [NewColumnMigration, Payload.reference.injEq] at ho
        subst ho
        exact hxo
      · exact Or.inr (Or.inl rfl)
      · exact Or.inr (Or.inr h)
    · rintro (⟨hx, hm, hrest⟩ | (h | h))
      · exact Or.inl ⟨Or.inl ⟨hx, hm old rfl⟩, hrest⟩
      · simp only [NewColumnMigration, Payload.reference.injEq] at h
        subst h
        refine Or.inl ⟨Or.inr rfl, ?_⟩
        intro m' hm' old' hold'
        exact hpair.1 m' hm' new old' rfl hold'
      · exact Or.inr h

/-- The references of the source after the reference operations of the sorted
comparison are, as a set of relations with their options, those of the target. -/
theorem references_after_equal (A B : Table) (hrA : A.DistinctRelations)
    (hrB : B.DistinctRelations)
    (k : String × String × String × String × ReferenceOption × ReferenceOption) :
    k ∈ ((ofKind .ADD_FOREIGN_KEY (referenceChanges A B.References)).foldl applyReferences
        ((ofKind .UPDATE_FOREIGN_KEY (referenceChanges A B.References)).foldl applyReferences
          ((checkDroppedReferences B A.References).foldl applyReferences
            A.References))).map referenceKey ↔
      k ∈ B.References.map referenceKey := by
  have hU : ∀ m ∈ ofKind .UPDATE_FOREIGN_KEY (referenceChanges A B.References), ∃ new old,
      m = NewColumnMigration (.reference new) (.reference old) .UPDATE_FOREIGN_KEY := by
    intro m hm
    obtain ⟨r, _, old, _, _, rfl⟩ := (mem_updates A B.References m).1 hm
    exact ⟨r, old, rfl⟩
  have hfind : ∀ b x, x ∈ A.References → sameRelation x b = true →
      A.References.find? (fun r2 => sameRelation b r2) = some x := by
    intro b x hx hxb
    apply find?_of_unique _ _ x hx (sameRelation_symm' _ _ hxb)
    intro y hy hby
    exact relation_unique A hrA y x hy hx
      (sameRelation_symm' _ _ (sameRelation_trans _ _ _ hxb hby))
  have hkept : ∀ x, x ∈ A.References.filter (fun x =>
        !((A.References.filter (fun r =>
          !(B.References.any (fun r2 => sameRelation r r2)))).any
          (fun r => sameRelation x r))) ↔
      x ∈ A.References ∧ ∃ b ∈ B.References, sameRelation x b = true := by
    intro x
    simp only [List.mem_filter, Bool.not_eq_true', List.any_eq_false, and_imp,
      Bool.not_eq_true, List.any_eq_true, not_exists, not_and]
    constructor
    · rintro ⟨hx, hnot⟩
      refine ⟨hx, ?_⟩
      by_contra hno
      have := hnot x hx (fun b hb => by
        by_contra h
        exact hno ⟨b, hb, by simpa using h⟩)
      rw [sameRelation_refl] at this
      cases this
    · rintro ⟨hx, b, hb, hxb⟩
      refine ⟨hx, ?_⟩
      intro r _ hr
      by_contra hxr
      simp only [Bool.not_eq_false] at hxr
      have := sameRelation_trans _ _ _ (sameRelation_symm' _ _ hxr) hxb
      rw [hr b hb] at this
      cases this
  rw [checkDroppedReferences_eq_map, foldl_drop_references, ofKind_add_referenceChanges,
    foldl_add_references]
  simp only [List.mem_map, List.mem_append,
    mem_foldl_updates _ hU (pairwise_updates A B.References hrB), hkept]
  constructor
  · rintro ⟨x, hx, rfl⟩
    rcases hx with (⟨⟨hxA, b, hb, hxb⟩, hnot⟩ | ⟨m, hm, hmx⟩) | hx
    · refine ⟨b, hb, ?_⟩
      symm
      rw [referenceKey_eq_iff]
      have hf := hfind b x hxA hxb
      by_cases hopt : (x.UpdateOption != b.UpdateOption ||
          x.DeleteOption != b.DeleteOption) = true
      · have hmem := (mem_updates A B.References _).2 ⟨b, hb, x, hf, hopt, rfl⟩
        have := hnot _ hmem x rfl
        rw [sameRelation_refl] at this
        cases this
      · simp only [Bool.or_eq_true, bne_iff_ne, ne_eq, not_or, not_not] at hopt
        exact ⟨hxb, hopt.2, hopt.1⟩
    · obtain ⟨r, hr, old, _, _, rfl⟩ := (mem_updates A B.References m).1 hm
      simp only [NewColumnMigration, Payload.reference.injEq] at hmx
      subst hmx
      exact ⟨r, hr, rfl⟩
    · exact ⟨x, (List.mem_filter.1 hx).1, rfl⟩
  · rintro ⟨b, hb, rfl⟩
    cases hf : A.References.find? (fun r2 => sameRelation b r2) with
    | none =>
      exact ⟨b, Or.inr (List.mem_filter.2 ⟨hb, by simp [hf]⟩), rfl⟩
    | some a =>
      have haA : a ∈ A.References := List.mem_of_find?_eq_some hf
      have hba : sameRelation b a = true := List.find?_some hf
      by_cases hopt : (a.UpdateOption != b.UpdateOption ||
          a.DeleteOption != b.DeleteOption) = true
      · have hmem := (mem_updates A B.References _).2 ⟨b, hb, a, hf, hopt, rfl⟩
        exact ⟨b, Or.inl (Or.inr ⟨_, hmem, rfl⟩), rfl⟩
      · refine ⟨a, Or.inl (Or.inl ⟨⟨haA, b, hb, sameRelation_symm' _ _ hba⟩, ?_⟩), ?_⟩
        · intro m hm old hold
          obtain ⟨r, hr, old', hf', hopt', rfl⟩ := (mem_updates A B.References m).1 hm
          simp only [NewColumnMigration, Payload.reference.injEq] at hold
          subst hold
          by_contra hne
          simp only [Bool.not_eq_false] at hne
          have hold'A : old' ∈ A.References := List.mem_of_find?_eq_some hf'
          have hro : sameRelation r old' = true := List.find?_some hf'
          have e1 : a = old' := relation_unique A hrA a old' haA hold'A hne
          subst e1
          have e2 : r = b := relation_unique B hrB r b hr hb
            (sameRelation_trans _ _ _ hro (sameRelation_symm' _ _ hba))
          subst e2
          exact hopt hopt'
        · rw [referenceKey_eq_iff]
          simp only [Bool.or_eq_true, bne_iff_ne, ne_eq, not_or, not_not] at hopt
          exact ⟨sameRelation_symm' _ _ hba, hopt.2, hopt.1⟩


/-! ## The table after the sorted operations -/

/-- The fields of a table after a list of operations in priority order, one kind
after the other: each field is changed by the operations of its own kinds only. -/
theorem apply_sorted_fields (t : Table) (P0 P1 P2 P3 P4 P5 P6 P7 P8 : List ColumnMigration)
    (h0 : ∀ m ∈ P0, m.Operation = .DROP_FOREIGN_KEY)
    (h1 : ∀ m ∈ P1, m.Operation = .DROP_UNIQUE_INDEX)
    (h2 : ∀ m ∈ P2, m.Operation = .DROP_COLUMN)
    (h3 : ∀ m ∈ P3, m.Operation = .RENAME_COLUMN)
    (h4 : ∀ m ∈ P4, m.Operation = .MODIFY_COLUMN)
    (h5 : ∀ m ∈ P5, m.Operation = .ADD_COLUMN)
    (h6 : ∀ m ∈ P6, m.Operation = .UPDATE_FOREIGN_KEY)
    (h7 : ∀ m ∈ P7, m.Operation = .ADD_FOREIGN_KEY)
    (h8 : ∀ m ∈ P8, m.Operation = .ADD_UNIQUE_INDEX) :
    (applyMigrations t (P0 ++ P1 ++ P2 ++ P3 ++ P4 ++ P5 ++ P6 ++ P7 ++ P8)).Columns =
        P5.foldl applyColumns (P4.foldl applyColumns (P3.foldl applyColumns
          (P2.foldl applyColumns t.Columns))) ∧
      (applyMigrations t (P0 ++ P1 ++ P2 ++ P3 ++ P4 ++ P5 ++ P6 ++ P7 ++ P8)).IndexToUniqueCols =
        P8.foldl applyIndexes (P1.foldl applyIndexes t.IndexToUniqueCols) ∧
      (applyMigrations t (P0 ++ P1 ++ P2 ++ P3 ++ P4 ++ P5 ++ P6 ++ P7 ++ P8)).References =
        P7.foldl applyReferences (P6.foldl applyReferences
          (P0.foldl applyReferences t.References)) := by
  have c : ∀ (P : List ColumnMigration) (k : ColumnOperation), (∀ m ∈ P, m.Operation = k) →
      k ≠ .DROP_COLUMN → k ≠ .RENAME_COLUMN → k ≠ .MODIFY_COLUMN → k ≠ .ADD_COLUMN →
      ∀ cs, P.foldl applyColumns cs = cs := by
    intro P k hP a1 a2 a3 a4 cs
    apply foldl_applyColumns_other
    intro m hm
    rw [hP m hm]
    exact ⟨a1, a2, a3, a4⟩
  have i : ∀ (P : List ColumnMigration) (k : ColumnOperation), (∀ m ∈ P, m.Operation = k) →
      k ≠ .DROP_UNIQUE_INDEX → k ≠ .ADD_UNIQUE_INDEX →
      ∀ idx, P.foldl applyIndexes idx = idx := by
    intro P k hP a1 a2 idx
    apply foldl_applyIndexes_other
    intro m hm
    rw [hP m hm]
    exact ⟨a1, a2⟩
  have r : ∀ (P : List ColumnMigration) (k : ColumnOperation), (∀ m ∈ P, m.Operation = k) →
      k ≠ .DROP_FOREIGN_KEY → k ≠ .UPDATE_FOREIGN_KEY → k ≠ .ADD_FOREIGN_KEY →
      ∀ refs, P.foldl applyReferences refs = refs := by
    intro P k hP a1 a2 a3 refs
    apply foldl_applyReferences_other
    intro m hm
    rw [hP m hm]
    exact ⟨a1, a2, a3⟩
  obtain ⟨e1, e2, e3⟩ :=
    applyMigrations_fields t (P0 ++ P1 ++ P2 ++ P3 ++ P4 ++ P5 ++ P6 ++ P7 ++ P8)
  rw [e1, e2, e3]
  simp only [List.foldl_append]
  refine ⟨?_, ?_, ?_⟩
  · rw [c P8 _ h8 (by decide) (by decide) (by decide) (by decide),
      c P7 _ h7 (by decide) (by decide) (by decide) (by decide),
      c P6 _ h6 (by decide) (by decide) (by decide) (by decide),
      c P1 _ h1 (by decide) (by decide) (by decide) (by decide),
      c P0 _ h0 (by decide) (by decide) (by decide) (by decide)]
  · rw [i P7 _ h7 (by decide) (by decide), i P6 _ h6 (by decide) (by decide),
      i P5 _ h5 (by decide) (by decide), i P4 _ h4 (by decide) (by decide),
      i P3 _ h3 (by decide) (by decide), i P2 _ h2 (by decide) (by decide),
      i P0 _ h0 (by decide) (by decide)]
  · rw [r P8 _ h8 (by decide) (by decide) (by decide),
      r P5 _ h5 (by decide) (by decide) (by decide),
      r P4 _ h4 (by decide) (by decide) (by decide),
      r P3 _ h3 (by decide) (by decide) (by decide),
      r P2 _ h2 (by decide) (by decide) (by decide),
      r P1 _ h1 (by decide) (by decide) (by decide)]

theorem kind_plainDrops (D : Table) (cols : List Column) :
    ∀ m ∈ plainDrops D cols, m.Operation = .DROP_COLUMN := by
  intro m hm
  obtain ⟨col, _, _, rfl⟩ := (mem_plainDrops D cols m).1 hm
  rfl

theorem kind_plainChanges (lower : String → String) (S : Table) (cols : List Column) :
    ∀ m ∈ plainChanges lower S cols,
      m.Operation = .ADD_COLUMN ∨ m.Operation = .MODIFY_COLUMN := by
  intro m hm
  obtain ⟨col, _, h⟩ := (mem_plainChanges lower S cols m).1 hm
  rcases h with ⟨_, rfl⟩ | ⟨old, _, _, rfl⟩
  · exact Or.inl rfl
  · exact Or.inr rfl

theorem kind_referenceChanges (t : Table) (refs : List Reference) :
    ∀ m ∈ referenceChanges t refs,
      m.Operation = .ADD_FOREIGN_KEY ∨ m.Operation = .UPDATE_FOREIGN_KEY := by
  intro m hm
  obtain ⟨r, _, h⟩ := (mem_referenceChanges t refs m).1 hm
  rcases h with ⟨_, rfl⟩ | ⟨old, _, _, rfl⟩
  · exact Or.inl rfl
  · exact Or.inr rfl

theorem kind_checkDroppedReferences (dst : Table) (refs : List Reference) :
    ∀ m ∈ checkDroppedReferences dst refs, m.Operation = .DROP_FOREIGN_KEY := by
  intro m hm
  obtain ⟨r, _, _, rfl⟩ := (mem_checkDroppedReferences dst refs m).1 hm
  rfl

theorem kind_optional (c : Prop) [Decidable c] (x : ColumnMigration) :
    ∀ m ∈ (if c then [] else [x]), m.Operation = x.Operation := by
  intro m hm
  split at hm
  · cases hm
  · rw [List.mem_singleton] at hm
    rw [hm]

theorem kind_ofKind (op : ColumnOperation) (ms : List ColumnMigration) :
    ∀ m ∈ ofKind op ms, m.Operation = op :=
  fun m hm => ((mem_ofKind op m ms).1 hm).2


/-- What the sorted comparison achieves away from an exchange of key names. For every
pair of well-formed table snapshots `A` and `B` (each with a single primary-key column,
pairwise distinct non-empty column names, references that are pairwise different
relations) of which at least one has no non-primary column bearing the name of the
primary-key column of the other, `A.CompareWith(B)` returns, and applying to `A`, in
order, the operations of `SortMigrationsByOperationPriority(A.CompareWith(B))` yields a
table that `Column.Equals` cannot tell from `B` (`EqualByEquals`): the same column
names, each column `Equals` to the column of `B` of its name, the same unique-index map
and the same references (relation and options). -/
theorem apply_sorted_comparison (lower : String → String) (A B : Table) (g : RenameMap)
    (hA : A.WellFormed) (hB : B.WellFormed) (hswap : NoKeySwap A B) :
    ∃ ms, A.CompareWith lower B g = .ok ms ∧
      EqualByEquals lower (applyMigrations A (SortMigrationsByOperationPriority ms)) B := by
  obtain ⟨hdA, hneA, hpkA, hrA, hkA⟩ := hA
  obtain ⟨hdB, hneB, hpkB, hrB, hkB⟩ := hB
  obtain ⟨preA, pkA, postA, hcA, hfA, hpreA, hpostA⟩ := SinglePrimaryKey_split A hpkA
  obtain ⟨preB, pkB, postB, hcB, hfB, hpreB, hpostB⟩ := SinglePrimaryKey_split B hpkB
  obtain ⟨r1, h1, h2⟩ := compare_columns lower A B preA postA preB postB pkA pkB hcA hcB hfA
    hfB hpreA hpostA hpreB hpostB hdA hneA hneB hswap
  have hplainA : ∀ c ∈ preA ++ postA, c.PrimaryKey = false := by
    intro c hc
    rcases List.mem_append.1 hc with h | h
    · exact hpreA c h
    · exact hpostA c h
  have hplainB : ∀ c ∈ preB ++ postB, c.PrimaryKey = false := by
    intro c hc
    rcases List.mem_append.1 hc with h | h
    · exact hpreB c h
    · exact hpostB c h
  refine ⟨_, compareWith_eq lower A B g _ _ _ h1 h2, ?_⟩
  have hren := kind_optional (pkA.Name = pkB.Name)
    (NewColumnMigration (.column pkB) (.column pkA) .RENAME_COLUMN)
  have hmod := kind_optional (pkB.Equals lower pkA = true)
    (NewColumnMigration (.column pkB) (.column pkA) .MODIFY_COLUMN)
  rw [sort_pieces _ _ _ _ _ _ _ _ _ _ (kind_plainDrops B preA) (kind_plainDrops B postA)
    hren hmod (kind_plainChanges lower A preB) (kind_plainChanges lower A postB)
    (fun m hm => (mem_checkIndexes_kind _ _ _ _ m hm).1)
    (fun m hm => (mem_checkIndexes_kind _ _ _ _ m hm).1)
    (kind_checkDroppedReferences B A.References) (kind_referenceChanges A B.References)]
  obtain ⟨e1, e2, e3⟩ := apply_sorted_fields A
    (checkDroppedReferences B A.References)
    (checkIndexes B .DROP_UNIQUE_INDEX A.IndexToUniqueCols [])
    (plainDrops B preA ++ plainDrops B postA)
    (if pkA.Name = pkB.Name then []
      else [NewColumnMigration (.column pkB) (.column pkA) .RENAME_COLUMN])
    (ofKind .MODIFY_COLUMN (plainChanges lower A preB) ++
      (if pkB.Equals lower pkA = true then []
        else [NewColumnMigration (.column pkB) (.column pkA) .MODIFY_COLUMN]) ++
      ofKind .MODIFY_COLUMN (plainChanges lower A postB))
    (ofKind .ADD_COLUMN (plainChanges lower A preB) ++
      ofKind .ADD_COLUMN (plainChanges lower A postB))
    (ofKind .UPDATE_FOREIGN_KEY (referenceChanges A B.References))
    (ofKind .ADD_FOREIGN_KEY (referenceChanges A B.References))
    (checkIndexes A .ADD_UNIQUE_INDEX B.IndexToUniqueCols [])
    (kind_checkDroppedReferences B A.References)
    (fun m hm => (mem_checkIndexes_kind _ _ _ _ m hm).1)
    (by
      intro m hm
      rcases List.mem_append.1 hm with h | h
      · exact kind_plainDrops B preA m h
      · exact kind_plainDrops B postA m h)
    hren
    (by
      intro m hm
      rcases List.mem_append.1 hm with h | h
      · rcases List.mem_append.1 h with h | h
        · exact kind_ofKind _ _ m h
        · exact hmod m h
      · exact kind_ofKind _ _ m h)
    (by
      intro m hm
      rcases List.mem_append.1 hm with h | h
      · exact kind_ofKind _ _ m h
      · exact kind_ofKind _ _ m h)
    (kind_ofKind _ _) (kind_ofKind _ _)
    (fun m hm => (mem_checkIndexes_kind _ _ _ _ m hm).1)
  obtain ⟨c1, c2⟩ := columns_after_equal lower A B preA postA preB postB pkA pkB hcA hcB hfA
    hfB hplainA hplainB hdA hdB _ e1
  refine ⟨c1, c2, ?_, ?_⟩
  · intro k
    rw [e2]
    exact indexes_after_equal A B hkA hkB k
  · intro k
    rw [e3]
    exact references_after_equal A B hrA hrB k

/-- The sorted comparison of `accountsOld` with `accountsNew`, which differ in the name
of the primary key, in a dropped, a modified and an added column, in their references
and in their unique indexes, applied to `accountsOld`. -/
theorem apply_sorted_comparison_witness :
    accountsOld.WellFormed ∧ accountsNew.WellFormed ∧ NoKeySwap accountsOld accountsNew ∧
      ∃ ms, accountsOld.CompareWith asciiLower accountsNew [] = .ok ms ∧
        EqualByEquals asciiLower
          (applyMigrations accountsOld (SortMigrationsByOperationPriority ms)) accountsNew :=
  ⟨by decide, by decide, by decide,
    apply_sorted_comparison asciiLower accountsOld accountsNew [] (by decide) (by decide)
      (by decide)⟩

/-- C9: two pairs of snapshots on which applying the sorted comparison does not yield
the target. `t{id PK, k}` and `t{id, k PK}` are well formed and have one primary-key
column each; the comparison renames `id` to `k`, modifies `k` and adds `id`, without a
drop of the plain column `k`, and applied to the first table it yields the columns
`k, k, id`, which are not the column names of the second. `scores{id PK, score DEFAULT
0}` and `scores{id PK, score DEFAULT 1}` are well formed and differ in the default of
`score`; the comparison is empty, so the table it yields is the first one, whose column
`score` is not equal to that of the second under the column equality of §3. -/
theorem apply_sorted_not_equal :
    keyOnId.WellFormed ∧ keyOnK.WellFormed ∧
      keyOnId.CompareWith asciiLower keyOnK [] =
        .ok [NewColumnMigration (.column { kColumn with PrimaryKey := true })
            (.column idColumn) .RENAME_COLUMN,
          NewColumnMigration (.column { idColumn with PrimaryKey := false }) .nil
            .ADD_COLUMN,
          NewColumnMigration (.column { kColumn with PrimaryKey := true })
            (.column idColumn) .MODIFY_COLUMN] ∧
      (applyMigrations keyOnId (SortMigrationsByOperationPriority
          [NewColumnMigration (.column { kColumn with PrimaryKey := true })
              (.column idColumn) .RENAME_COLUMN,
            NewColumnMigration (.column { idColumn with PrimaryKey := false }) .nil
              .ADD_COLUMN,
            NewColumnMigration (.column { kColumn with PrimaryKey := true })
              (.column idColumn) .MODIFY_COLUMN])).Columns =
        [{ kColumn with PrimaryKey := true }, { kColumn with PrimaryKey := true },
          { idColumn with PrimaryKey := false }] ∧
      ¬ StructurallyEqual asciiLower
        (applyMigrations keyOnId (SortMigrationsByOperationPriority
          [NewColumnMigration (.column { kColumn with PrimaryKey := true })
              (.column idColumn) .RENAME_COLUMN,
            NewColumnMigration (.column { idColumn with PrimaryKey := false }) .nil
              .ADD_COLUMN,
            NewColumnMigration (.column { kColumn with PrimaryKey := true })
              (.column idColumn) .MODIFY_COLUMN])) keyOnK ∧
      scoresZero.WellFormed ∧ scoresOne.WellFormed ∧
      scoresZero.CompareWith asciiLower scoresOne [] = .ok [] ∧
      applyMigrations scoresZero (SortMigrationsByOperationPriority []) = scoresZero ∧
      columnsEqual asciiLower scoreDefaultZero scoreDefaultOne = false ∧
      ¬ StructurallyEqual asciiLower
        (applyMigrations scoresZero (SortMigrationsByOperationPriority [])) scoresOne :=
  ⟨by decide, by decide, rfl, by decide, fun h => absurd h.1.length_eq (by decide),
    by decide, by decide, rfl, rfl, by decide,
    fun h => absurd (h.2.1 scoreDefaultZero (by decide) scoreDefaultOne (by decide) rfl)
      (by decide)⟩

/-! ## Stability of the prioritizer -/

/-- C11: `SortMigrationsByOperationPriority` is a stable rearrangement: for every list
and every operation kind `k`, the operations of kind `k` in the sorted list are those
of the input in the same relative order, and the sorted list is a rearrangement of
the input (no operation lost or duplicated). -/
theorem sortMigrations_stable (ms : List ColumnMigration) (k : ColumnOperation) :
    (SortMigrationsByOperationPriority ms).filter (fun m => m.Operation == k) =
        ms.filter (fun m => m.Operation == k) ∧
      (SortMigrationsByOperationPriority ms).Perm ms ∧
      (SortMigrationsByOperationPriority ms).length = ms.length :=
  ⟨ofKind_sortMigrations k ms, perm_sortMigrations ms, (perm_sortMigrations ms).length_eq⟩

/-! ## The parts of a comparison -/

theorem kind_checkDropped (dst : Table) (cols : List Column) :
    ∀ (r : RenameMap) (ms : List ColumnMigration) (r' : RenameMap),
      checkDropped dst cols r = .ok (ms, r') →
      ∀ m ∈ ms, m.Operation = .DROP_COLUMN ∨ m.Operation = .RENAME_COLUMN := by
  induction cols with
  | nil =>
    intro r ms r' h m hm
    simp only [checkDropped, Except.ok.injEq, Prod.mk.injEq] at h
    rw [← h.1] at hm
    cases hm
  | cons col rest ih =>
    intro r ms r' h m hm
    simp only [checkDropped] at h
    split at h
    · exact ih r ms r' h m hm
    · split at h
      · split at h
        · cases h
        · split at h
          · cases h
          · rename_i ms0 r0 h0
            simp only [Except.ok.injEq, Prod.mk.injEq] at h
            rw [← h.1] at hm
            rcases List.mem_cons.1 hm with rfl | hm
            · exact Or.inr rfl
            · exact ih _ ms0 r0 h0 m hm
      · split at h
        · cases h
        · rename_i ms0 r0 h0
          simp only [Except.ok.injEq, Prod.mk.injEq] at h
          rw [← h.1] at hm
          rcases List.mem_cons.1 hm with rfl | hm
          · exact Or.inl rfl
          · exact ih _ ms0 r0 h0 m hm

theorem kind_checkNew (lower : String → String) (t : Table) (r : RenameMap)
    (cols : List Column) (ms : List ColumnMigration) (h : checkNew lower t r cols = .ok ms) :
    ∀ m ∈ ms, m.Operation = .ADD_COLUMN ∨ m.Operation = .MODIFY_COLUMN := by
  rw [checkNew_eq] at h
  simp only [Except.ok.injEq] at h
  subst h
  intro m hm
  rw [List.mem_filterMap] at hm
  obtain ⟨col, _, hcol⟩ := hm
  split at hcol <;> split at hcol <;>
    first
    | (simp only [Option.some.injEq] at hcol
       subst hcol
       first | exact Or.inl rfl | exact Or.inr rfl)
    | cases hcol

/-- The six parts of a comparison that returns. -/
theorem compareWith_parts (lower : String → String) (A B : Table) (g : RenameMap)
    (ms : List ColumnMigration) (h : A.CompareWith lower B g = .ok ms) :
    ∃ ms1 ms2 r, checkDropped B A.Columns [] = .ok (ms1, r) ∧
      checkNew lower A r B.Columns = .ok ms2 ∧
      ms = ms1 ++ ms2 ++ checkIndexes A .ADD_UNIQUE_INDEX B.IndexToUniqueCols [] ++
        checkIndexes B .DROP_UNIQUE_INDEX A.IndexToUniqueCols [] ++
        checkDroppedReferences B A.References ++ referenceChanges A B.References := by
  cases h1 : checkDropped B A.Columns [] with
  | error e =>
    simp [Table.CompareWith, Table.CompareWithState, h1] at h
  | ok p =>
    obtain ⟨ms1, r⟩ := p
    cases h2 : checkNew lower A r B.Columns with
    | error e =>
      simp [Table.CompareWith, Table.CompareWithState, h1, h2] at h
    | ok ms2 =>
      refine ⟨ms1, ms2, r, rfl, h2, ?_⟩
      rw [compareWith_eq lower A B g ms1 ms2 r h1 h2] at h
      simp only [Except.ok.injEq] at h
      exact h.symm

/-- The foreign-key operations of a comparison that returns are those of its two
reference loops. -/
theorem mem_compare_references (lower : String → String) (A B : Table) (g : RenameMap)
    (ms : List ColumnMigration) (h : A.CompareWith lower B g = .ok ms) (m : ColumnMigration)
    (hop : m.Operation = .DROP_FOREIGN_KEY ∨ m.Operation = .ADD_FOREIGN_KEY ∨
      m.Operation = .UPDATE_FOREIGN_KEY) :
    m ∈ ms ↔ m ∈ checkDroppedReferences B A.References ∨
      m ∈ referenceChanges A B.References := by
  obtain ⟨ms1, ms2, r, h1, h2, rfl⟩ := compareWith_parts lower A B g ms h
  simp only [List.mem_append]
  constructor
  · rintro (((((h' | h') | h') | h') | h') | h')
    · have := kind_checkDropped B A.Columns [] ms1 r h1 m h'
      rcases this with h0 | h0 <;> rw [h0] at hop <;> simp at hop
    · have := kind_checkNew lower A r B.Columns ms2 h2 m h'
      rcases this with h0 | h0 <;> rw [h0] at hop <;> simp at hop
    · have := (mem_checkIndexes_kind A _ _ _ m h').1
      rw [this] at hop; simp at hop
    · have := (mem_checkIndexes_kind B _ _ _ m h').1
      rw [this] at hop; simp at hop
    · exact Or.inl h'
    · exact Or.inr h'
  · rintro (h' | h')
    · exact Or.inl (Or.inr h')
    · exact Or.inr h'

/-- The unique-index operations of a comparison that returns are those of its two
index loops. -/
theorem mem_compare_indexes (lower : String → String) (A B : Table) (g : RenameMap)
    (ms : List ColumnMigration) (h : A.CompareWith lower B g = .ok ms) (m : ColumnMigration) :
    (m.Operation = .ADD_UNIQUE_INDEX →
      (m ∈ ms ↔ m ∈ checkIndexes A .ADD_UNIQUE_INDEX B.IndexToUniqueCols [])) ∧
    (m.Operation = .DROP_UNIQUE_INDEX →
      (m ∈ ms ↔ m ∈ checkIndexes B .DROP_UNIQUE_INDEX A.IndexToUniqueCols [])) := by
  obtain ⟨ms1, ms2, r, h1, h2, rfl⟩ := compareWith_parts lower A B g ms h
  have k1 := kind_checkDropped B A.Columns [] ms1 r h1 m
  have k2 := kind_checkNew lower A r B.Columns ms2 h2 m
  have k3 := fun h' => (mem_checkIndexes_kind A .ADD_UNIQUE_INDEX B.IndexToUniqueCols [] m h').1
  have k4 := fun h' => (mem_checkIndexes_kind B .DROP_UNIQUE_INDEX A.IndexToUniqueCols [] m h').1
  have k5 := kind_checkDroppedReferences B A.References m
  have k6 := kind_referenceChanges A B.References m
  simp only [List.mem_append]
  constructor
  · intro hop
    rw [hop] at k1 k2 k4 k5 k6
    constructor
    · rintro (((((h' | h') | h') | h') | h') | h')
      · have := k1 h'; simp at this
      · have := k2 h'; simp at this
      · exact h'
      · have := k4 h'; simp at this
      · have := k5 h'; simp at this
      · have := k6 h'; simp at this
    · intro h'
      exact Or.inl (Or.inl (Or.inl (Or.inr h')))
  · intro hop
    rw [hop] at k1 k2 k3 k5 k6
    constructor
    · rintro (((((h' | h') | h') | h') | h') | h')
      · have := k1 h'; simp at this
      · have := k2 h'; simp at this
      · have := k3 h'; simp at this
      · exact h'
      · have := k5 h'; simp at this
      · have := k6 h'; simp at this
    · intro h'
      exact Or.inl (Or.inl (Or.inr h'))

/-! ## Updated foreign keys -/

theorem find?_relation (t : Table) (hrel : t.DistinctRelations) (r old : Reference)
    (hold : old ∈ t.References) (hs : sameRelation r old = true) :
    t.References.find? (fun r2 => sameRelation r r2) = some old := by
  apply find?_of_unique _ _ old hold hs
  intro y hy hsy
  apply relation_unique t hrel y old hy hold
  exact sameRelation_trans y r old (sameRelation_symm' r y hsy) hs

theorem options_differ_iff (old r : Reference) :
    (old.UpdateOption != r.UpdateOption || old.DeleteOption != r.DeleteOption) = true ↔
      (old.DeleteOption ≠ r.DeleteOption ∨ old.UpdateOption ≠ r.UpdateOption) := by
  simp only [Bool.or_eq_true, bne_iff_ne, ne_eq]
  exact Or.comm

/-- No `ADD_FOREIGN_KEY` and no `DROP_FOREIGN_KEY` of a comparison carries a reference
of a relation that both tables hold. -/
theorem no_add_drop_of_shared (lower : String → String) (t dst : Table) (g : RenameMap)
    (ms : List ColumnMigration) (h : t.CompareWith lower dst g = .ok ms)
    (r old : Reference) (hr : r ∈ dst.References) (hold : old ∈ t.References)
    (hs : sameRelation r old = true) (m : ColumnMigration) (hm : m ∈ ms)
    (hop : m.Operation = .ADD_FOREIGN_KEY ∨ m.Operation = .DROP_FOREIGN_KEY)
    (x : Reference) (hx : m.ApplyOn = .reference x) : sameRelation r x = false := by
  have hop' : m.Operation = .DROP_FOREIGN_KEY ∨ m.Operation = .ADD_FOREIGN_KEY ∨
      m.Operation = .UPDATE_FOREIGN_KEY := by
    rcases hop with h0 | h0
    · exact Or.inr (Or.inl h0)
    · exact Or.inl h0
  cases hsx : sameRelation r x with
  | false => rfl
  | true =>
    exfalso
    rcases (mem_compare_references lower t dst g ms h m hop').1 hm with h' | h'
    · obtain ⟨y, hy, hany, rfl⟩ := (mem_checkDroppedReferences dst t.References m).1 h'
      simp only [NewColumnMigration, Payload.reference.injEq] at hx
      subst hx
      have : dst.References.any (fun r2 => sameRelation y r2) = true :=
        List.any_eq_true.2 ⟨r, hr, sameRelation_symm' r y hsx⟩
      rw [this] at hany
      cases hany
    · obtain ⟨y, hy, hcase⟩ := (mem_referenceChanges t dst.References m).1 h'
      rcases hcase with ⟨hnone, rfl⟩ | ⟨old', _, _, rfl⟩
      · simp only [NewColumnMigration, Payload.reference.injEq] at hx
        subst hx
        have := List.find?_eq_none.1 hnone old hold
        exact this (sameRelation_trans y r old (sameRelation_symm' r y hsx) hs)
      · rcases hop with h0 | h0 <;> cases h0

/-- C15 (as amended): for a source table whose references are pairwise different
relations, a comparison that returns holds `UPDATE_FOREIGN_KEY` with the target
reference `r` as `ApplyOn` and `old` as `Old` exactly when `old` is a reference of the
source of the same relation as `r` whose delete option or update option differs; every
`UPDATE_FOREIGN_KEY` on `r` has that form; when the source holds the relation of `r`,
no `ADD_FOREIGN_KEY` or `DROP_FOREIGN_KEY` carries a reference of that relation; and
when the source reference of the relation has the options of `r` (whatever its
`IsUnique`), no `UPDATE_FOREIGN_KEY` carries `r` either. -/
theorem compareWith_update_foreign_key (lower : String → String) (t dst : Table)
    (g : RenameMap) (ms : List ColumnMigration) (hrel : t.DistinctRelations)
    (h : t.CompareWith lower dst g = .ok ms) (r : Reference) (hr : r ∈ dst.References) :
    (∀ old, NewColumnMigration (.reference r) (.reference old) .UPDATE_FOREIGN_KEY ∈ ms ↔
        old ∈ t.References ∧ sameRelation r old = true ∧
          (old.DeleteOption ≠ r.DeleteOption ∨ old.UpdateOption ≠ r.UpdateOption)) ∧
      (∀ m ∈ ms, m.Operation = .UPDATE_FOREIGN_KEY → m.ApplyOn = .reference r →
        ∃ old, m = NewColumnMigration (.reference r) (.reference old) .UPDATE_FOREIGN_KEY) ∧
      (∀ old ∈ t.References, sameRelation r old = true →
        ∀ m ∈ ms, m.Operation = .ADD_FOREIGN_KEY ∨ m.Operation = .DROP_FOREIGN_KEY →
          ∀ x, m.ApplyOn = .reference x → sameRelation r x = false) ∧
      (∀ old ∈ t.References, sameRelation r old = true →
        old.DeleteOption = r.DeleteOption → old.UpdateOption = r.UpdateOption →
        ∀ m ∈ ms, m.Operation = .UPDATE_FOREIGN_KEY → m.ApplyOn ≠ .reference r) := by
  have hmem : ∀ m, m.Operation = .UPDATE_FOREIGN_KEY →
      (m ∈ ms ↔ ∃ r' ∈ dst.References, ∃ old,
        t.References.find? (fun r2 => sameRelation r' r2) = some old ∧
        (old.UpdateOption != r'.UpdateOption || old.DeleteOption != r'.DeleteOption) = true ∧
        m = NewColumnMigration (.reference r') (.reference old) .UPDATE_FOREIGN_KEY) := by
    intro m hop
    rw [mem_compare_references lower t dst g ms h m (Or.inr (Or.inr hop))]
    constructor
    · rintro (h' | h')
      · have := kind_checkDroppedReferences dst t.References m h'
        rw [hop] at this
        cases this
      · obtain ⟨r', hr', hcase⟩ := (mem_referenceChanges t dst.References m).1 h'
        rcases hcase with ⟨_, rfl⟩ | ⟨old, h1, h2, h3⟩
        · cases hop
        · exact ⟨r', hr', old, h1, h2, h3⟩
    · rintro ⟨r', hr', old, h1, h2, h3⟩
      exact Or.inr ((mem_referenceChanges t dst.References m).2
        ⟨r', hr', Or.inr ⟨old, h1, h2, h3⟩⟩)
  refine ⟨?_, ?_, ?_, ?_⟩
  · intro old
    rw [hmem _ rfl]
    constructor
    · rintro ⟨r', _, old', h1, h2, h3⟩
      simp only [NewColumnMigration, ColumnMigration.mk.injEq, Payload.reference.injEq,
        and_true] at h3
      obtain ⟨rfl, rfl⟩ := h3
      exact ⟨List.mem_of_find?_eq_some h1, by simpa using List.find?_some h1,
        (options_differ_iff old r).1 h2⟩
    · rintro ⟨hold, hs, hd⟩
      exact ⟨r, hr, old, find?_relation t hrel r old hold hs,
        (options_differ_iff old r).2 hd, rfl⟩
  · intro m hm hop happ
    obtain ⟨r', _, old, _, _, rfl⟩ := (hmem m hop).1 hm
    simp only [NewColumnMigration, Payload.reference.injEq] at happ
    subst happ
    exact ⟨old, rfl⟩
  · intro old hold hs m hm hop x hx
    exact no_add_drop_of_shared lower t dst g ms h r old hr hold hs m hm hop x hx
  · intro old hold hs hdel hupd m hm hop happ
    obtain ⟨r', _, old', h1, h2, rfl⟩ := (hmem m hop).1 hm
    simp only [NewColumnMigration, Payload.reference.injEq] at happ
    subst happ
    rw [find?_relation t hrel r' old hold hs] at h1
    simp only [Option.some.injEq] at h1
    subst h1
    rcases (options_differ_iff old r').1 h2 with h0 | h0
    · exact h0 hdel
    · exact h0 hupd

/-- C15, witness: the reference of `orders` changes from `ON DELETE CASCADE` to
`ON DELETE SET NULL`. -/
theorem compareWith_update_foreign_key_witness :
    ordersWithReference.DistinctRelations ∧
      ordersWithReference.CompareWith asciiLower ordersSetNull [] =
        .ok [NewColumnMigration (.reference ordersUserSetNull)
          (.reference ordersUserReference) .UPDATE_FOREIGN_KEY] ∧
      ordersUserSetNull ∈ ordersSetNull.References ∧
      ∀ old, NewColumnMigration (.reference ordersUserSetNull) (.reference old)
            .UPDATE_FOREIGN_KEY ∈
          [NewColumnMigration (.reference ordersUserSetNull)
            (.reference ordersUserReference) .UPDATE_FOREIGN_KEY] ↔
        old ∈ ordersWithReference.References ∧ sameRelation ordersUserSetNull old = true ∧
          (old.DeleteOption ≠ ordersUserSetNull.DeleteOption ∨
            old.UpdateOption ≠ ordersUserSetNull.UpdateOption) :=
  ⟨by decide, rfl, by decide,
    (compareWith_update_foreign_key asciiLower ordersWithReference ordersSetNull [] _
      (by decide) rfl ordersUserSetNull (by decide)).1⟩

/-- C15, counterexample: the source `ordersTwice` holds the relation
`orders.user_id -> users.id` twice. Its second reference has the relation of the target
reference and another delete option, yet the comparison returns no operation:
`slices.IndexFunc` stops at the first reference of the relation, whose options are
those of the target. -/
theorem compareWith_update_first_match :
    ordersUserReference ∈ ordersWithReference.References ∧
      ordersUserSetNull ∈ ordersTwice.References ∧
      sameRelation ordersUserReference ordersUserSetNull = true ∧
      ordersUserSetNull.DeleteOption ≠ ordersUserReference.DeleteOption ∧
      ordersTwice.CompareWith asciiLower ordersWithReference [] = .ok [] :=
  ⟨by decide, by decide, by decide, by decide, rfl⟩

/-! ## Unique-index operations -/

theorem ofKind_compare_add_index (lower : String → String) (t dst : Table) (g : RenameMap)
    (ms : List ColumnMigration) (h : t.CompareWith lower dst g = .ok ms) :
    ofKind .ADD_UNIQUE_INDEX ms =
      checkIndexes t .ADD_UNIQUE_INDEX dst.IndexToUniqueCols [] := by
  obtain ⟨ms1, ms2, r, h1, h2, rfl⟩ := compareWith_parts lower t dst g ms h
  have k1 := kind_checkDropped dst t.Columns [] ms1 r h1
  have k2 := kind_checkNew lower t r dst.Columns ms2 h2
  simp only [ofKind_append]
  rw [ofKind_other _ ms1, ofKind_other _ ms2,
    ofKind_same _ (checkIndexes t .ADD_UNIQUE_INDEX dst.IndexToUniqueCols []),
    ofKind_other _ (checkIndexes dst .DROP_UNIQUE_INDEX t.IndexToUniqueCols []),
    ofKind_other _ (checkDroppedReferences dst t.References),
    ofKind_other _ (referenceChanges t dst.References)]
  · simp
  · intro m hm
    rcases kind_referenceChanges t dst.References m hm with h0 | h0 <;> rw [h0] <;> decide
  · intro m hm
    rw [kind_checkDroppedReferences dst t.References m hm]; decide
  · intro m hm
    rw [(mem_checkIndexes_kind _ _ _ _ m hm).1]; decide
  · intro m hm
    exact (mem_checkIndexes_kind _ _ _ _ m hm).1
  · intro m hm
    rcases k2 m hm with h0 | h0 <;> rw [h0] <;> decide
  · intro m hm
    rcases k1 m hm with h0 | h0 <;> rw [h0] <;> decide

theorem ofKind_compare_drop_index (lower : String → String) (t dst : Table) (g : RenameMap)
    (ms : List ColumnMigration) (h : t.CompareWith lower dst g = .ok ms) :
    ofKind .DROP_UNIQUE_INDEX ms =
      checkIndexes dst .DROP_UNIQUE_INDEX t.IndexToUniqueCols [] := by
  obtain ⟨ms1, ms2, r, h1, h2, rfl⟩ := compareWith_parts lower t dst g ms h
  have k1 := kind_checkDropped dst t.Columns [] ms1 r h1
  have k2 := kind_checkNew lower t r dst.Columns ms2 h2
  simp only [ofKind_append]
  rw [ofKind_other _ ms1, ofKind_other _ ms2,
    ofKind_other _ (checkIndexes t .ADD_UNIQUE_INDEX dst.IndexToUniqueCols []),
    ofKind_same _ (checkIndexes dst .DROP_UNIQUE_INDEX t.IndexToUniqueCols []),
    ofKind_other _ (checkDroppedReferences dst t.References),
    ofKind_other _ (referenceChanges t dst.References)]
  · simp
  · intro m hm
    rcases kind_referenceChanges t dst.References m hm with h0 | h0 <;> rw [h0] <;> decide
  · intro m hm
    rw [kind_checkDroppedReferences dst t.References m hm]; decide
  · intro m hm
    exact (mem_checkIndexes_kind _ _ _ _ m hm).1
  · intro m hm
    rw [(mem_checkIndexes_kind _ _ _ _ m hm).1]; decide
  · intro m hm
    rcases k2 m hm with h0 | h0 <;> rw [h0] <;> decide
  · intro m hm
    rcases k1 m hm with h0 | h0 <;> rw [h0] <;> decide

/-- A map holds at most one entry of a name. -/
theorem keyed_length_le_one (entries : List (String × List String)) (hk : UniqueKeys entries)
    (n : String) : (entries.filter (fun e => e.1 == n)).length ≤ 1 := by
  induction entries with
  | nil => simp
  | cons e rest ih =>
    unfold UniqueKeys at hk
    rw [List.map_cons, List.nodup_cons] at hk
    by_cases he : e.1 = n
    · have hnone : rest.filter (fun e => e.1 == n) = [] := by
        rw [List.filter_eq_nil_iff]
        intro x hx hxn
        apply hk.1
        rw [he, ← beq_iff_eq.1 hxn]
        exact List.mem_map_of_mem Prod.fst hx
      rw [List.filter_cons_of_pos (by simpa using he), hnone]
      simp
    · rw [List.filter_cons_of_neg (by simpa using he)]
      exact ih hk.2

/-- Membership in an index loop started with nothing seen. -/
theorem mem_checkIndexes_iff (other : Table) (op : ColumnOperation)
    (entries : List (String × List String)) (hk : UniqueKeys entries) (n : String)
    (cols : List String) :
    NewColumnMigration (.str n) (.strs cols) op ∈ checkIndexes other op entries [] ↔
      mapLookup entries n = some cols ∧ mapLookup other.IndexToUniqueCols n ≠ some cols := by
  rw [checkIndexes_eq_map other op entries hk, List.mem_map]
  constructor
  · rintro ⟨e, he, heq⟩
    simp only [NewColumnMigration, ColumnMigration.mk.injEq, Payload.str.injEq,
      Payload.strs.injEq, and_true] at heq
    obtain ⟨rfl, rfl⟩ := heq
    rw [List.mem_filter] at he
    exact ⟨mapLookup_of_mem entries hk e.1 e.2 he.1, by simpa using he.2⟩
  · rintro ⟨h1, h2⟩
    refine ⟨(n, cols), ?_, rfl⟩
    rw [List.mem_filter]
    exact ⟨mapLookup_mem entries n cols h1, by simpa using h2⟩

/-- An index loop emits at most one operation for a name. -/
theorem checkIndexes_once (other : Table) (op : ColumnOperation)
    (entries : List (String × List String)) (hk : UniqueKeys entries) (n : String) :
    ((checkIndexes other op entries []).filter (fun m => m.ApplyOn == .str n)).length ≤ 1 := by
  rw [checkIndexes_eq_map other op entries hk, List.filter_map, List.length_map,
    List.filter_filter]
  have hsub : List.Sublist
      (entries.filter (fun a =>
        (((fun m : ColumnMigration => m.ApplyOn == .str n) ∘
          (fun e => NewColumnMigration (.str e.1) (.strs e.2) op)) a &&
          !decide (mapLookup other.IndexToUniqueCols a.1 = some a.2))))
      (entries.filter (fun e => e.1 == n)) := by
    apply List.monotone_filter_right
    intro e he
    simp only [Function.comp, NewColumnMigration, Bool.and_eq_true] at he
    have := he.1
    simpa using this
  exact le_trans hsub.length_le (keyed_length_le_one entries hk n)

/-- C19 (as amended): for every index name `n`, a comparison that returns holds
`ADD_UNIQUE_INDEX(n, cols)` exactly when the target maps `n` to `cols` and the source
lacks `n` or maps it to another sequence of columns (`slices.Equal`: the same names in
the same order), and `DROP_UNIQUE_INDEX(n, cols)` exactly when the source maps `n` to
`cols` and the target lacks `n` or maps it to another sequence; at most one
`ADD_UNIQUE_INDEX` and at most one `DROP_UNIQUE_INDEX` carry the name `n`. The two
index maps hold each key once, as Go maps do. -/
theorem compareWith_unique_indexes (lower : String → String) (t dst : Table) (g : RenameMap)
    (ms : List ColumnMigration) (hkt : UniqueKeys t.IndexToUniqueCols)
    (hkd : UniqueKeys dst.IndexToUniqueCols) (h : t.CompareWith lower dst g = .ok ms)
    (n : String) :
    (∀ cols, NewColumnMigration (.str n) (.strs cols) .ADD_UNIQUE_INDEX ∈ ms ↔
        mapLookup dst.IndexToUniqueCols n = some cols ∧
          mapLookup t.IndexToUniqueCols n ≠ some cols) ∧
      (∀ cols, NewColumnMigration (.str n) (.strs cols) .DROP_UNIQUE_INDEX ∈ ms ↔
        mapLookup t.IndexToUniqueCols n = some cols ∧
          mapLookup dst.IndexToUniqueCols n ≠ some cols) ∧
      (ms.filter (fun m => m.Operation == .ADD_UNIQUE_INDEX && m.ApplyOn == .str n)).length
        ≤ 1 ∧
      (ms.filter (fun m => m.Operation == .DROP_UNIQUE_INDEX && m.ApplyOn == .str n)).length
        ≤ 1 := by
  have hadd := ofKind_compare_add_index lower t dst g ms h
  have hdrop := ofKind_compare_drop_index lower t dst g ms h
  refine ⟨?_, ?_, ?_, ?_⟩
  · intro cols
    rw [← mem_checkIndexes_iff t .ADD_UNIQUE_INDEX dst.IndexToUniqueCols hkd n cols, ← hadd,
      mem_ofKind]
    exact ⟨fun hm => ⟨hm, rfl⟩, fun hm => hm.1⟩
  · intro cols
    rw [← mem_checkIndexes_iff dst .DROP_UNIQUE_INDEX t.IndexToUniqueCols hkt n cols, ← hdrop,
      mem_ofKind]
    exact ⟨fun hm => ⟨hm, rfl⟩, fun hm => hm.1⟩
  · have := checkIndexes_once t .ADD_UNIQUE_INDEX dst.IndexToUniqueCols hkd n
    rw [← hadd] at this
    unfold ofKind at this
    rw [List.filter_filter] at this
    simpa [Bool.and_comm] using this
  · have := checkIndexes_once dst .DROP_UNIQUE_INDEX t.IndexToUniqueCols hkt n
    rw [← hdrop] at this
    unfold ofKind at this
    rw [List.filter_filter] at this
    simpa [Bool.and_comm] using this

/-- C19, witness: the index `pair` on `a, b` is new in the target. -/
theorem compareWith_unique_indexes_witness :
    UniqueKeys pairsPlain.IndexToUniqueCols ∧ UniqueKeys pairsAB.IndexToUniqueCols ∧
      pairsPlain.CompareWith asciiLower pairsAB [] =
        .ok [NewColumnMigration (.str "pair") (.strs ["a", "b"]) .ADD_UNIQUE_INDEX] ∧
      ∀ cols, NewColumnMigration (.str "pair") (.strs cols) .ADD_UNIQUE_INDEX ∈
          [NewColumnMigration (.str "pair") (.strs ["a", "b"]) .ADD_UNIQUE_INDEX] ↔
        mapLookup pairsAB.IndexToUniqueCols "pair" = some cols ∧
          mapLookup pairsPlain.IndexToUniqueCols "pair" ≠ some cols :=
  ⟨by decide, by decide, rfl,
    (compareWith_unique_indexes asciiLower pairsPlain pairsAB [] _ (by decide) (by decide)
      rfl "pair").1⟩

/-- C19, counterexample: source and target map the index `pair` to the same set of
columns, `a, b` and `b, a`; the comparison drops the index and adds it again, because
`CompareUniqueIndex` compares the two slices position by position. -/
theorem compareWith_reordered_index :
    mapLookup pairsAB.IndexToUniqueCols "pair" = some ["a", "b"] ∧
      mapLookup pairsBA.IndexToUniqueCols "pair" = some ["b", "a"] ∧
      (∀ c : String, c ∈ ["a", "b"] ↔ c ∈ ["b", "a"]) ∧
      pairsAB.CompareWith asciiLower pairsBA [] =
        .ok [NewColumnMigration (.str "pair") (.strs ["b", "a"]) .ADD_UNIQUE_INDEX,
          NewColumnMigration (.str "pair") (.strs ["a", "b"]) .DROP_UNIQUE_INDEX] :=
  ⟨rfl, rfl, fun c => by simp [or_comm], rfl⟩

/-! ## Rendered statements -/

theorem createColumnMigrations_append (upper : String → String)
    (before after : List ColumnMigration) (table : Table) :
    ∀ (sb written : String), createColumnMigrations upper before table sb = .ok written →
      createColumnMigrations upper (before ++ after) table sb =
        createColumnMigrations upper after table written := by
  induction before with
  | nil =>
    intro sb written h
    simp only [createColumnMigrations, Except.ok.injEq] at h
    rw [List.nil_append, h]
  | cons m rest ih =>
    intro sb written h
    simp only [createColumnMigrations, List.cons_append] at h ⊢
    cases hq : migrationQuery upper table m with
    | error e =>
      rw [hq] at h
      cases h
    | ok query =>
      rw [hq] at h
      exact ih _ _ h

/-- C16: wherever an `UPDATE_FOREIGN_KEY` with old reference `o` and new reference `n`
stands in the slice, `createColumnMigrations` appends `DropReferenceQuery(o)` followed
by `AddReferenceQuery(n)` to what the operations before it have written, and goes on
with the operations behind it. -/
theorem createColumnMigrations_update_foreign_key (upper : String → String)
    (o n : Reference) (before after : List ColumnMigration) (table : Table)
    (sb written : String)
    (h : createColumnMigrations upper before table sb = .ok written) :
    createColumnMigrations upper
        (before ++ NewColumnMigration (.reference n) (.reference o) .UPDATE_FOREIGN_KEY ::
          after) table sb =
      createColumnMigrations upper after table
        (written ++ DropReferenceQuery o ++ AddReferenceQuery n) := by
  rw [createColumnMigrations_append upper before _ table sb written h]
  simp only [createColumnMigrations, migrationQuery, NewColumnMigration, String.append_assoc]

/-- C16, witness: the update of the reference of `orders` behind the drop of another
reference, with nothing behind it. -/
theorem createColumnMigrations_update_foreign_key_witness :
    createColumnMigrations asciiUpper
        [NewColumnMigration (.reference ownerReference) .nil .DROP_FOREIGN_KEY]
        ordersWithReference "" = .ok (DropReferenceQuery ownerReference) ∧
      createColumnMigrations asciiUpper
        ([NewColumnMigration (.reference ownerReference) .nil .DROP_FOREIGN_KEY] ++
          NewColumnMigration (.reference ordersUserSetNull) (.reference ordersUserReference)
            .UPDATE_FOREIGN_KEY :: []) ordersWithReference "" =
        createColumnMigrations asciiUpper [] ordersWithReference
          (DropReferenceQuery ownerReference ++ DropReferenceQuery ordersUserReference ++
            AddReferenceQuery ordersUserSetNull) :=
  ⟨rfl, createColumnMigrations_update_foreign_key asciiUpper ordersUserReference
    ordersUserSetNull _ [] ordersWithReference "" _ rfl⟩

/-- C18: `DropColumnQuery(t, c)` returns no SQL exactly when `c` is flagged primary
key, in which case it ends the process with the message of `log.Fatalf`; otherwise it
returns the text `ALTER TABLE <t.Name>`, a line break and a tab, `DROP COLUMN <c.Name>;`
and a line break. -/
theorem dropColumnQuery_fatal_iff (t : Table) (c : Column) :
    ((∀ sql, DropColumnQuery t c ≠ .ok sql) ↔ c.PrimaryKey = true) ∧
      (c.PrimaryKey = true →
        DropColumnQuery t c =
          .error (.fatal ("Cannot drop a primary key. " ++ t.Name ++ "." ++ c.Name))) ∧
      (c.PrimaryKey = false →
        DropColumnQuery t c =
          .ok ("ALTER TABLE " ++ t.Name ++ "\n\tDROP COLUMN " ++ c.Name ++ ";\n")) := by
  have hsql : "ALTER TABLE " ++ t.Name ++ "\n\t" ++ "DROP COLUMN " ++ c.Name ++ ";\n" =
      "ALTER TABLE " ++ t.Name ++ "\n\tDROP COLUMN " ++ c.Name ++ ";\n" := by
    apply String.ext
    simp only [String.data_append, List.append_assoc]
    rfl
  cases hp : c.PrimaryKey with
  | true =>
    simp [DropColumnQuery, hp]
  | false =>
    simp only [DropColumnQuery, hp, Bool.false_eq_true, if_false, hsql]
    simp

/-! ## Constraint names -/

theorem concat_cons (text : String) (texts : List String) :
    concat (text :: texts) = text ++ concat texts := rfl

theorem concat_append (xs ys : List String) : concat (xs ++ ys) = concat xs ++ concat ys := by
  induction xs with
  | nil => simp [concat]
  | cons x rest ih => rw [List.cons_append, concat_cons, concat_cons, ih, String.append_assoc]

theorem writeNames_eq (names : List String) : writeNames names = joinWith ", " names := by
  induction names with
  | nil => rfl
  | cons a rest ih =>
    cases rest with
    | nil => rfl
    | cons b rest' =>
      show a ++ ", " ++ writeNames (b :: rest') = a ++ ", " ++ joinWith ", " (b :: rest')
      rw [ih]

theorem referenceClause_eq (r : Reference) : referenceClause r = foreignKeyClause r := by
  apply String.ext
  simp only [referenceClause, foreignKeyClause, foreignKeyName, String.data_append,
    List.append_assoc]
  rfl

theorem writeReferences_eq (refs : List Reference) :
    writeReferences refs = joinWith "," (refs.map foreignKeyClause) := by
  induction refs with
  | nil => rfl
  | cons a rest ih =>
    cases rest with
    | nil => exact referenceClause_eq a
    | cons b rest' =>
      show referenceClause a ++ "," ++ writeReferences (b :: rest') =
        foreignKeyClause a ++ "," ++ joinWith "," ((b :: rest').map foreignKeyClause)
      rw [ih, referenceClause_eq]

theorem writeUniqueConstraints_eq (entries : List (String × List String)) :
    writeUniqueConstraints entries =
      concat (entries.map (fun e => uniqueClause e.1 e.2)) := by
  induction entries with
  | nil => rfl
  | cons e rest ih =>
    obtain ⟨iName, cols⟩ := e
    rw [writeUniqueConstraints, ih, List.map_cons, concat_cons, writeNames_eq]
    rfl

theorem writeEntangled_eq (query : Reference → String) (table : Table)
    (colNames : List String) :
    writeEntangled query table colNames =
      concat ((firstReferences table colNames).map query) := by
  induction colNames with
  | nil => rfl
  | cons c rest ih =>
    unfold firstReferences at ih ⊢
    rw [writeEntangled, ih, List.filterMap_cons]
    cases referenceOn table c with
    | none => simp
    | some r => simp [concat_cons]

/-- C20: the constraint names are the same on the adding and on the dropping side. For
every reference `r`, `AddReferenceQuery(r)` and the `FOREIGN KEY` clauses of
`CreateTableQuery` add the constraint `fk.<r.TableName>.<r.ColumnName>`
(`foreignKeyName r`), and `DropReferenceQuery(r)` drops the constraint and the index of
that name; for every index name `n`, `AddUniqueIndexQuery` and the `UNIQUE` clauses of
`CreateTableQuery` add the constraint `uc.<n>` (`uniqueName n`), and
`DropUniqueIndexQuery` drops the constraint of that name. -/
theorem constraint_names_symmetric (r : Reference) (t : Table) (n : String)
    (cols : List String) :
    AddReferenceQuery r =
        "ALTER TABLE " ++ r.TableName ++ "\n\tADD CONSTRAINT `" ++ foreignKeyName r ++
          "` FOREIGN KEY (" ++ r.ColumnName ++ ") REFERENCES " ++ r.ReferencedTableName ++
          "(" ++ r.ReferencedColumnName ++ ") ON DELETE " ++ r.DeleteOption ++
          " ON UPDATE " ++ r.UpdateOption ++ ";\n" ∧
      DropReferenceQuery r =
        "ALTER TABLE " ++ r.TableName ++ "\n\tDROP CONSTRAINT `" ++ foreignKeyName r ++
          "`,\n\tDROP INDEX `" ++ foreignKeyName r ++ "`;\n" ∧
      AddUniqueIndexQuery t n cols =
        "ALTER TABLE " ++ t.Name ++ "\n\tADD CONSTRAINT `" ++ uniqueName n ++
          "` UNIQUE (" ++ joinWith ", " cols ++ ");\n" ∧
      DropUniqueIndexQuery t n cols =
        (if cols = [] then "" else dropUniqueNotice) ++
          writeEntangled DropReferenceQuery t cols ++
          "ALTER TABLE " ++ t.Name ++ "\n\tDROP CONSTRAINT `" ++ uniqueName n ++ "`;\n" ++
          writeEntangled AddReferenceQuery t cols ∧
      CreateTableQuery t =
        "CREATE TABLE " ++ t.Name ++ " (\n" ++ writeColumns t.Columns ++
          ",\n\tPRIMARY KEY (" ++ joinWith ", " t.PrimaryCols ++ ")" ++
          concat (t.IndexToUniqueCols.map (fun e => uniqueClause e.1 e.2)) ++
          (if t.References = [] then ""
            else "," ++ joinWith "," (t.References.map foreignKeyClause)) ++
          "\n);\n" := by
  refine ⟨?_, ?_, ?_, ?_, ?_⟩
  · apply String.ext
    simp only [AddReferenceQuery, foreignKeyName, String.data_append, List.append_assoc]
    rfl
  · apply String.ext
    simp only [DropReferenceQuery, foreignKeyName, String.data_append, List.append_assoc]
    rfl
  · rw [← writeNames_eq]
    apply String.ext
    simp only [AddUniqueIndexQuery, uniqueName, String.data_append, List.append_assoc]
    rfl
  · have hif : (if cols.length > 0 then dropUniqueNotice else "") =
        (if cols = [] then "" else dropUniqueNotice) := by
      cases cols <;> simp
    unfold DropUniqueIndexQuery
    rw [hif]
    apply String.ext
    simp only [uniqueName, String.data_append, List.append_assoc]
    rfl
  · have hif : (if t.References.length > 0 then "," ++ writeReferences t.References else "") =
        (if t.References = [] then ""
          else "," ++ joinWith "," (t.References.map foreignKeyClause)) := by
      rw [writeReferences_eq]
      cases t.References <;> simp
    unfold CreateTableQuery
    rw [hif, writeUniqueConstraints_eq, writeNames_eq]
    apply String.ext
    simp only [String.data_append, List.append_assoc]
    rfl

/-! ## Dropping a unique index -/

theorem filter_eq_find?_toList (c : String) (refs : List Reference)
    (hone : (refs.map Reference.ColumnName).Nodup) :
    refs.filter (fun r => r.ColumnName == c) =
      (refs.find? (fun r => r.ColumnName == c)).toList := by
  induction refs with
  | nil => rfl
  | cons r rest ih =>
    rw [List.map_cons, List.nodup_cons] at hone
    by_cases hc : r.ColumnName = c
    · have hrest : rest.filter (fun r => r.ColumnName == c) = [] := by
        rw [List.filter_eq_nil_iff]
        intro r' hr' hp
        have hr'c : r'.ColumnName = c := by simpa using hp
        exact hone.1 (List.mem_map.2 ⟨r', hr', by rw [hr'c, hc]⟩)
      simp [List.filter_cons, List.find?_cons, hc, hrest]
    · simp [List.filter_cons, List.find?_cons, hc, ih hone.2]

theorem firstReferences_eq_entangled (table : Table) (colNames : List String)
    (hone : table.OneReferencePerColumn) :
    firstReferences table colNames = entangled table colNames := by
  induction colNames with
  | nil => rfl
  | cons c rest ih =>
    have hstep : entangled table (c :: rest) =
        table.References.filter (fun r => r.ColumnName == c) ++ entangled table rest := rfl
    have hfirst : firstReferences table (c :: rest) =
        (referenceOn table c).toList ++ firstReferences table rest := by
      unfold firstReferences
      rw [List.filterMap_cons]
      cases referenceOn table c <;> rfl
    rw [hstep, hfirst, ih, filter_eq_find?_toList c table.References hone]
    rfl

theorem mem_entangled (table : Table) (colNames : List String) (r : Reference) :
    r ∈ entangled table colNames ↔ r ∈ table.References ∧ r.ColumnName ∈ colNames := by
  unfold entangled
  simp only [List.mem_flatten, List.mem_map]
  constructor
  · rintro ⟨l, ⟨c, hc, rfl⟩, hr⟩
    rw [List.mem_filter] at hr
    have hrc : r.ColumnName = c := by simpa using hr.2
    exact ⟨hr.1, by rw [hrc]; exact hc⟩
  · rintro ⟨hr, hc⟩
    exact ⟨_, ⟨r.ColumnName, hc, rfl⟩, by simp [List.mem_filter, hr]⟩

set_option maxRecDepth 100000

/-- C17 (as amended): for every table that holds at most one reference per column and
every unique index, `DropUniqueIndexQuery` writes, in this order, the comment line
(when the index has columns), `DropReferenceQuery` of each entangled foreign key (every
reference of the table on a column of the index, column by column), the statement that
drops the constraint `uc.<index-name>`, and `AddReferenceQuery` of each entangled
foreign key in the same order, each with the referenced table, referenced column and
`ON DELETE` / `ON UPDATE` options the table holds for it. A column on which the table
has no reference contributes no foreign-key statement, and a column on which it has one
contributes that reference. `createColumnMigrations` renders a `DROP_UNIQUE_INDEX` by
this function. -/
theorem dropUniqueIndexQuery_order (upper : String → String) (table : Table)
    (indexName : String) (colNames : List String) (hone : table.OneReferencePerColumn) :
    DropUniqueIndexQuery table indexName colNames =
        (if colNames = [] then "" else dropUniqueNotice) ++
          concat ((entangled table colNames).map DropReferenceQuery) ++
          ("ALTER TABLE " ++ table.Name ++ "\n\tDROP CONSTRAINT `uc." ++ indexName ++
            "`;\n") ++
          concat ((entangled table colNames).map AddReferenceQuery) ∧
      (∀ r, r ∈ entangled table colNames ↔
        r ∈ table.References ∧ r.ColumnName ∈ colNames) ∧
      (∀ c, (∀ r ∈ table.References, r.ColumnName ≠ c) → entangled table [c] = []) ∧
      (∀ r ∈ table.References, entangled table [r.ColumnName] = [r]) ∧
      (∀ r, AddReferenceQuery r =
        "ALTER TABLE " ++ r.TableName ++ "\n\tADD CONSTRAINT `fk." ++ r.TableName ++ "." ++
          r.ColumnName ++ "` FOREIGN KEY (" ++ r.ColumnName ++ ") REFERENCES " ++
          r.ReferencedTableName ++ "(" ++ r.ReferencedColumnName ++ ") ON DELETE " ++
          r.DeleteOption ++ " ON UPDATE " ++ r.UpdateOption ++ ";\n") ∧
      migrationQuery upper table
          (NewColumnMigration (.str indexName) (.strs colNames) .DROP_UNIQUE_INDEX) =
        .ok (DropUniqueIndexQuery table indexName colNames) := by
  refine ⟨?_, mem_entangled table colNames, ?_, ?_, ?_, rfl⟩
  · have hif : (if colNames.length > 0 then dropUniqueNotice else "") =
        (if colNames = [] then "" else dropUniqueNotice) := by
      cases colNames <;> simp
    unfold DropUniqueIndexQuery
    rw [hif, writeEntangled_eq, writeEntangled_eq,
      firstReferences_eq_entangled table colNames hone]
    apply String.ext
    simp only [String.data_append, List.append_assoc]
    rfl
  · intro c h
    rw [List.eq_nil_iff_forall_not_mem]
    intro r hr
    rw [mem_entangled] at hr
    exact h r hr.1 (by simpa using hr.2)
  · intro r hr
    rw [← firstReferences_eq_entangled table [r.ColumnName] hone]
    have hfind : referenceOn table r.ColumnName = some r := by
      have hf := filter_eq_find?_toList r.ColumnName table.References hone
      have hmem : r ∈ table.References.filter (fun x => x.ColumnName == r.ColumnName) := by
        simp [List.mem_filter, hr]
      rw [hf] at hmem
      unfold referenceOn
      cases hx : table.References.find? (fun x => x.ColumnName == r.ColumnName) with
      | none => rw [hx] at hmem; cases hmem
      | some x =>
        rw [hx] at hmem
        have hrx : r = x := by simpa using hmem
        rw [hrx]
    simp [firstReferences, hfind]
  · intro r
    apply String.ext
    simp only [AddReferenceQuery, String.data_append, List.append_assoc]
    rfl

/-- C17, witness: the table `accountsOwned`, with the reference `accounts.owner ->
people.id` and the unique index `accounts.owner` on the column `owner`. -/
theorem dropUniqueIndexQuery_order_witness :
    accountsOwned.OneReferencePerColumn ∧
      entangled accountsOwned ["owner"] = [ownerReference] ∧
      DropUniqueIndexQuery accountsOwned "accounts.owner" ["owner"] =
        (if ["owner"] = ([] : List String) then "" else dropUniqueNotice) ++
          concat ((entangled accountsOwned ["owner"]).map DropReferenceQuery) ++
          ("ALTER TABLE " ++ accountsOwned.Name ++ "\n\tDROP CONSTRAINT `uc." ++
            "accounts.owner" ++ "`;\n") ++
          concat ((entangled accountsOwned ["owner"]).map AddReferenceQuery) :=
  ⟨by decide, by decide,
    (dropUniqueIndexQuery_order asciiUpper accountsOwned "accounts.owner" ["owner"]
      (by decide)).1⟩

/-- C17, counterexample: the table `accountsTwoOwners` holds the references
`accounts.owner -> people.id` and `accounts.owner -> users.id`, both on the column
`owner` of its unique index `accounts.owner`. `DropUniqueIndexQuery` drops and re-adds
the first of them only: the text has no statement for `accounts.owner -> users.id`, and
is not the text that drops and re-adds each entangled foreign key. -/
theorem dropUniqueIndexQuery_first_reference :
    ownerUsersReference ∈ accountsTwoOwners.References ∧
      ownerUsersReference.ColumnName ∈ ["owner"] ∧
      entangled accountsTwoOwners ["owner"] = [ownerReference, ownerUsersReference] ∧
      DropUniqueIndexQuery accountsTwoOwners "accounts.owner" ["owner"] =
        dropUniqueNotice ++ DropReferenceQuery ownerReference ++
          "ALTER TABLE accounts\n\tDROP CONSTRAINT `uc.accounts.owner`;\n" ++
          AddReferenceQuery ownerReference ∧
      DropUniqueIndexQuery accountsTwoOwners "accounts.owner" ["owner"] ≠
        (if ["owner"] = ([] : List String) then "" else dropUniqueNotice) ++
          concat ((entangled accountsTwoOwners ["owner"]).map DropReferenceQuery) ++
          ("ALTER TABLE " ++ accountsTwoOwners.Name ++ "\n\tDROP CONSTRAINT `uc." ++
            "accounts.owner" ++ "`;\n") ++
          concat ((entangled accountsTwoOwners ["owner"]).map AddReferenceQuery) :=
  ⟨by decide, by decide, by decide, by decide, by decide⟩

/-! ## The tables of a migration -/

theorem writeTables_eq (query : Table → String) (tables : List Table) :
    ∀ sb, writeTables query tables sb = sb ++ concat (tables.map query) := by
  induction tables with
  | nil => intro sb; simp [writeTables, concat]
  | cons t rest ih =>
    intro sb
    rw [writeTables, ih, List.map_cons, concat_cons, String.append_assoc]

theorem pairLookup_append (l1 l2 : List (String × TablePair)) (k : String) :
    pairLookup (l1 ++ l2) k =
      match pairLookup l1 k with
      | some v => some v
      | none => pairLookup l2 k := by
  induction l1 with
  | nil => rfl
  | cons e rest ih =>
    obtain ⟨k', v⟩ := e
    simp only [List.cons_append, pairLookup]
    by_cases hk : k' = k
    · simp [hk]
    · simp only [if_neg hk]
      exact ih

theorem pairLookup_entries (f : Table → TablePair) (tables : List Table) (k : String) :
    pairLookup ((tables.map (fun d => (d.Name, f d))).reverse) k =
      (lastNamed tables k).map f := by
  induction tables with
  | nil => rfl
  | cons t rest ih =>
    rw [List.map_cons, List.reverse_cons, pairLookup_append, ih, lastNamed]
    cases lastNamed rest k with
    | some u => rfl
    | none =>
      simp only [Option.map_none', pairLookup]
      by_cases hk : t.Name = k
      · simp [hk]
      · simp [hk]

theorem lastNamed_isSome (tables : List Table) (k : String) :
    (lastNamed tables k).isSome = true ↔ ∃ t ∈ tables, t.Name = k := by
  induction tables with
  | nil => simp [lastNamed]
  | cons t rest ih =>
    rw [lastNamed]
    cases h : lastNamed rest k with
    | some u =>
      rw [h] at ih
      obtain ⟨x, hx, hxk⟩ := ih.1 rfl
      simp only [Option.isSome_some, true_iff]
      exact ⟨x, List.mem_cons_of_mem _ hx, hxk⟩
    | none =>
      rw [h] at ih
      have hnone : ¬ ∃ x ∈ rest, x.Name = k := fun hx => by simpa using ih.2 hx
      by_cases hk : t.Name = k
      · simp [hk]
      · simp only [if_neg hk, Option.isSome_none, Bool.false_eq_true, false_iff]
        rintro ⟨x, hx, hxk⟩
        rcases List.mem_cons.1 hx with rfl | hx
        · exact hk hxk
        · exact hnone ⟨x, hx, hxk⟩

theorem lastNamed_mem (tables : List Table) (k : String) (t : Table)
    (h : lastNamed tables k = some t) : t ∈ tables ∧ t.Name = k := by
  induction tables with
  | nil => cases h
  | cons a rest ih =>
    rw [lastNamed] at h
    cases hr : lastNamed rest k with
    | some u =>
      rw [hr] at h
      simp only [Option.some.injEq] at h
      subst h
      exact ⟨List.mem_cons_of_mem _ (ih hr).1, (ih hr).2⟩
    | none =>
      rw [hr] at h
      by_cases hk : a.Name = k
      · simp only [if_pos hk, Option.some.injEq] at h
        subst h
        exact ⟨List.mem_cons_self _ _, hk⟩
      · simp [hk] at h

theorem lastNamed_filter (p : Table → Bool) (tables : List Table) (k : String)
    (hp : ∀ t ∈ tables, t.Name = k → p t = true) :
    lastNamed (tables.filter p) k = lastNamed tables k := by
  induction tables with
  | nil => rfl
  | cons a rest ih =>
    have ih' := ih (fun t ht => hp t (List.mem_cons_of_mem _ ht))
    by_cases ha : p a = true
    · rw [List.filter_cons_of_pos ha, lastNamed, lastNamed, ih']
    · rw [List.filter_cons_of_neg ha, ih', lastNamed]
      have hk : a.Name ≠ k := fun hk => ha (hp a (List.mem_cons_self _ _) hk)
      cases lastNamed rest k with
      | some u => rfl
      | none => simp [hk]

/-! ## The loops of `CreateMigration` -/

theorem figureNewTables_eq (dbTables : List Table) (dst : List Table) :
    ∀ (newTables : List Table) (alteredTables : List (String × TablePair))
      (alteredTablesOrder : List String),
      figureNewTables dbTables dst (newTables, alteredTables, alteredTablesOrder) =
        (newTables ++ newTablesOf dbTables dst,
          ((dst.filter (fun d => dbTables.any (fun a => a.Name == d.Name))).map
            (fun d => (d.Name, ({ First := none, Second := some d } : TablePair)))).reverse ++
            alteredTables,
          alteredTablesOrder ++
            (dst.filter (fun d => dbTables.any (fun a => a.Name == d.Name))).map Table.Name) := by
  induction dst with
  | nil =>
    intro n a o
    simp [figureNewTables, newTablesOf]
  | cons d rest ih =>
    intro n a o
    unfold newTablesOf at ih ⊢
    by_cases hd : dbTables.any (fun a => a.Name == d.Name) = true
    · simp only [figureNewTables, hd, Bool.not_true, Bool.false_eq_true, if_false]
      rw [ih]
      simp [List.filter_cons, hd]
    · simp only [Bool.not_eq_true] at hd
      simp only [figureNewTables, hd, Bool.not_false, if_true]
      rw [ih]
      simp [List.filter_cons, hd]

/-- The second loop: the deleted tables, and what the map holds afterwards. -/
theorem figureDeletedTables_eq (dst : List Table) (dbTables : List Table) :
    ∀ (deletedTables : List Table) (alteredTables : List (String × TablePair)),
      (∀ t ∈ dbTables, dst.any (fun d => d.Name == t.Name) = true →
        (pairLookup alteredTables t.Name).isSome = true) →
      ∃ altered, figureDeletedTables dst dbTables (deletedTables, alteredTables) =
          .ok (deletedTables ++ deletedTablesOf dbTables dst, altered) ∧
        ∀ k, pairLookup altered k =
          match lastNamed (dbTables.filter (fun t => dst.any (fun d => d.Name == t.Name))) k with
          | some t => (pairLookup alteredTables k).map (fun p => { p with First := some t })
          | none => pairLookup alteredTables k := by
  induction dbTables with
  | nil =>
    intro del alt _
    exact ⟨alt, by simp [figureDeletedTables, deletedTablesOf], fun k => by simp [lastNamed]⟩
  | cons t rest ih =>
    intro del alt hpre
    unfold deletedTablesOf at ih ⊢
    by_cases hd : dst.any (fun d => d.Name == t.Name) = true
    · have hsome := hpre t (List.mem_cons_self _ _) hd
      obtain ⟨pair, hpair⟩ := Option.isSome_iff_exists.1 hsome
      have hpre' : ∀ t' ∈ rest, dst.any (fun d => d.Name == t'.Name) = true →
          (pairLookup ((t.Name, { pair with First := some t }) :: alt) t'.Name).isSome = true := by
        intro t' ht' hd'
        simp only [pairLookup]
        by_cases hk : t.Name = t'.Name
        · simp [hk]
        · simp only [if_neg hk]
          exact hpre t' (List.mem_cons_of_mem _ ht') hd'
      obtain ⟨altered, h1, h2⟩ := ih del _ hpre'
      refine ⟨altered, ?_, ?_⟩
      · simp only [figureDeletedTables, hd, Bool.not_true, Bool.false_eq_true, if_false, hpair]
        rw [h1]
        simp [List.filter_cons, hd]
      · intro k
        have hf : (t :: rest).filter (fun t => dst.any (fun d => d.Name == t.Name)) =
            t :: rest.filter (fun t => dst.any (fun d => d.Name == t.Name)) := by
          simp [List.filter_cons, hd]
        rw [h2 k, hf, lastNamed]
        cases hl : lastNamed (rest.filter (fun t => dst.any (fun d => d.Name == t.Name))) k with
        | some u =>
          simp only [pairLookup]
          by_cases hk : t.Name = k
          · subst hk
            simp [hpair]
          · simp [hk]
        | none =>
          simp only [pairLookup]
          by_cases hk : t.Name = k
          · subst hk
            simp [hpair]
          · simp [hk]
    · simp only [Bool.not_eq_true] at hd
      have hpre' : ∀ t' ∈ rest, dst.any (fun d => d.Name == t'.Name) = true →
          (pairLookup alt t'.Name).isSome = true :=
        fun t' ht' hd' => hpre t' (List.mem_cons_of_mem _ ht') hd'
      obtain ⟨altered, h1, h2⟩ := ih (del ++ [t]) alt hpre'
      refine ⟨altered, ?_, ?_⟩
      · simp only [figureDeletedTables, hd, Bool.not_false, if_true]
        rw [h1]
        simp [List.filter_cons, hd]
      · intro k
        have hf : (t :: rest).filter (fun t => dst.any (fun d => d.Name == t.Name)) =
            rest.filter (fun t => dst.any (fun d => d.Name == t.Name)) := by
          simp [List.filter_cons, hd]
        rw [h2 k, hf]

/-- The comparison loop over the names of `tables`, when the map holds for each of
them the last actual and the last desired table of its name. -/
theorem compareAltered_eq (lower upper : String → String) (actual desired : List Table)
    (altered : List (String × TablePair)) (tables : List Table)
    (h : ∀ d ∈ tables, ∃ a b, lastNamed actual d.Name = some a ∧
      lastNamed desired d.Name = some b ∧
      pairLookup altered d.Name = some { First := some a, Second := some b }) :
    ∀ state, compareAltered lower upper altered (tables.map Table.Name) state =
      renderPairs lower upper
        (tables.filterMap (fun d =>
          match lastNamed actual d.Name, lastNamed desired d.Name with
          | some a, some b => some (a, b)
          | _, _ => none)) state := by
  induction tables with
  | nil => intro state; rfl
  | cons d rest ih =>
    intro state
    obtain ⟨a, b, ha, hb, hl⟩ := h d (List.mem_cons_self _ _)
    have ih' := ih (fun x hx => h x (List.mem_cons_of_mem _ hx))
    rw [List.map_cons, List.filterMap_cons]
    simp only [compareAltered, hl, ha, hb, renderPairs]
    cases comparePair lower upper a b state with
    | error e => rfl
    | ok state' => exact ih' state'

/-! ## The scripts of a migration -/

theorem any_name_of_mem (tables : List Table) (t : Table) (h : t ∈ tables) (k : String)
    (hk : t.Name = k) : tables.any (fun a => a.Name == k) = true :=
  List.any_eq_true.2 ⟨t, h, by simpa using hk⟩

/-- The two scripts in closed form: the `CREATE TABLE` statements of the new (deleted)
tables, what the altered pairs add, and the `DROP TABLE` statements of the deleted
(new) tables from the last to the first. -/
theorem CreateMigration_eq (lower upper : String → String) (dbTables dst : List Table)
    (g : RenameMap) :
    CreateMigration lower upper dbTables dst g =
      match renderPairs lower upper (alteredPairs dbTables dst)
          (concat ((newTablesOf dbTables dst).map CreateTableQuery),
            concat ((deletedTablesOf dbTables dst).map CreateTableQuery), g) with
      | .error e => .error e
      | .ok (sbUp, sbDown, _) =>
        .ok (sbUp ++ concat ((deletedTablesOf dbTables dst).reverse.map DropTableQuery),
          sbDown ++ concat ((newTablesOf dbTables dst).reverse.map DropTableQuery)) := by
  have hpre : ∀ t ∈ dbTables, dst.any (fun d => d.Name == t.Name) = true →
      (pairLookup
        (((dst.filter (fun d => dbTables.any (fun a => a.Name == d.Name))).map
          (fun d => (d.Name, ({ First := none, Second := some d } : TablePair)))).reverse ++ [])
        t.Name).isSome = true := by
    intro t ht hd
    obtain ⟨d, hd1, hd2⟩ := List.any_eq_true.1 hd
    have hdn : d.Name = t.Name := by simpa using hd2
    rw [List.append_nil, pairLookup_entries, Option.isSome_map', lastNamed_isSome]
    refine ⟨d, ?_, hdn⟩
    rw [List.mem_filter]
    exact ⟨hd1, any_name_of_mem dbTables t ht d.Name hdn.symm⟩
  obtain ⟨altered, h1, h2⟩ := figureDeletedTables_eq dst dbTables [] _ hpre
  have hpairs : ∀ d ∈ dst.filter (fun d => dbTables.any (fun a => a.Name == d.Name)),
      ∃ a b, lastNamed dbTables d.Name = some a ∧ lastNamed dst d.Name = some b ∧
        pairLookup altered d.Name = some { First := some a, Second := some b } := by
    intro d hd
    rw [List.mem_filter] at hd
    obtain ⟨hd1, hd2⟩ := hd
    obtain ⟨a0, ha0, ha0'⟩ := List.any_eq_true.1 hd2
    have ha0n : a0.Name = d.Name := by simpa using ha0'
    have hsa : (lastNamed dbTables d.Name).isSome = true :=
      (lastNamed_isSome dbTables d.Name).2 ⟨a0, ha0, ha0n⟩
    have hsb : (lastNamed dst d.Name).isSome = true :=
      (lastNamed_isSome dst d.Name).2 ⟨d, hd1, rfl⟩
    obtain ⟨a, ha⟩ := Option.isSome_iff_exists.1 hsa
    obtain ⟨b, hb⟩ := Option.isSome_iff_exists.1 hsb
    refine ⟨a, b, ha, hb, ?_⟩
    have hfa : lastNamed (dbTables.filter (fun t => dst.any (fun d => d.Name == t.Name)))
        d.Name = some a := by
      rw [lastNamed_filter _ _ _ (fun t _ htk => any_name_of_mem dst d hd1 t.Name htk.symm)]
      exact ha
    have hfb : lastNamed (dst.filter (fun d => dbTables.any (fun a => a.Name == d.Name)))
        d.Name = some b := by
      rw [lastNamed_filter _ _ _
        (fun t _ htk => any_name_of_mem dbTables a0 ha0 t.Name (ha0n.trans htk.symm))]
      exact hb
    rw [h2 d.Name, hfa, List.append_nil, pairLookup_entries, hfb]
    rfl
  unfold CreateMigration
  rw [figureNewTables_eq]
  simp only [List.nil_append]
  rw [h1]
  simp only [List.nil_append, writeTables_eq, String.empty_append]
  rw [compareAltered_eq lower upper dbTables dst altered _ hpairs]
  rfl

theorem createColumnMigrations_offset (upper : String → String) (ms : List ColumnMigration)
    (table : Table) :
    ∀ sb, createColumnMigrations upper ms table sb =
      match createColumnMigrations upper ms table "" with
      | .error e => .error e
      | .ok text => .ok (sb ++ text) := by
  induction ms with
  | nil => intro sb; simp [createColumnMigrations]
  | cons m rest ih =>
    intro sb
    simp only [createColumnMigrations]
    cases migrationQuery upper table m with
    | error e => rfl
    | ok query =>
      simp only [String.empty_append]
      rw [ih (sb ++ query), ih query]
      cases createColumnMigrations upper rest table "" with
      | error e => rfl
      | ok text => simp [String.append_assoc]

theorem comparePair_offset (lower upper : String → String) (a b : Table)
    (sbUp sbDown : String) (g : RenameMap) :
    comparePair lower upper a b (sbUp, sbDown, g) =
      match comparePair lower upper a b ("", "", g) with
      | .error e => .error e
      | .ok (u, d, r) => .ok (sbUp ++ u, sbDown ++ d, r) := by
  unfold comparePair
  cases a.CompareWithState lower b g with
  | error e => rfl
  | ok p1 =>
    obtain ⟨ups, r1⟩ := p1
    simp only []
    cases b.CompareWithState lower a r1 with
    | error e => rfl
    | ok p2 =>
      obtain ⟨downs, r2⟩ := p2
      simp only []
      rw [createColumnMigrations_offset upper _ a sbUp]
      cases createColumnMigrations upper (SortMigrationsByOperationPriority ups) a "" with
      | error e => rfl
      | ok u =>
        simp only []
        rw [createColumnMigrations_offset upper _ b sbDown]
        cases createColumnMigrations upper (SortMigrationsByOperationPriority downs) b "" with
        | error e => rfl
        | ok d => rfl

theorem renderPairs_offset (lower upper : String → String) (pairs : List (Table × Table)) :
    ∀ (sbUp sbDown : String) (g : RenameMap),
      renderPairs lower upper pairs (sbUp, sbDown, g) =
        match renderPairs lower upper pairs ("", "", g) with
        | .error e => .error e
        | .ok (u, d, r) => .ok (sbUp ++ u, sbDown ++ d, r) := by
  induction pairs with
  | nil => intro sbUp sbDown g; simp [renderPairs]
  | cons p rest ih =>
    intro sbUp sbDown g
    obtain ⟨a, b⟩ := p
    simp only [renderPairs]
    rw [comparePair_offset lower upper a b sbUp sbDown g]
    cases comparePair lower upper a b ("", "", g) with
    | error e => rfl
    | ok s =>
      obtain ⟨u, d, r⟩ := s
      simp only []
      rw [ih (sbUp ++ u) (sbDown ++ d) r, ih u d r]
      cases renderPairs lower upper rest ("", "", r) with
      | error e => rfl
      | ok s' =>
        obtain ⟨u', d', r'⟩ := s'
        simp [String.append_assoc]

/-! ## Empty scripts -/

theorem length_eq_zero_iff (s : String) : s.length = 0 ↔ s = "" := by
  constructor
  · intro h
    apply String.ext
    exact List.length_eq_zero.1 h
  · rintro rfl
    rfl

theorem append_eq_empty (a b : String) : a ++ b = "" ↔ a = "" ∧ b = "" := by
  rw [← length_eq_zero_iff, ← length_eq_zero_iff a, ← length_eq_zero_iff b,
    String.length_append]
  omega

theorem concat_eq_empty (texts : List String) :
    concat texts = "" ↔ ∀ text ∈ texts, text = "" := by
  induction texts with
  | nil => simp [concat]
  | cons a rest ih =>
    rw [concat_cons, append_eq_empty, ih]
    simp

theorem CreateTableQuery_ne_empty (t : Table) : CreateTableQuery t ≠ "" := by
  intro h
  have := (length_eq_zero_iff _).2 h
  simp only [CreateTableQuery, String.length_append] at this
  have h0 : "CREATE TABLE ".length = 13 := rfl
  omega

theorem DropTableQuery_ne_empty (t : Table) : DropTableQuery t ≠ "" := by
  intro h
  have := (length_eq_zero_iff _).2 h
  simp only [DropTableQuery, String.length_append] at this
  have h0 : "DROP TABLE IF EXISTS ".length = 21 := rfl
  omega

theorem migrationQuery_ne_empty (upper : String → String) (table : Table)
    (m : ColumnMigration) (query : String) (h : migrationQuery upper table m = .ok query) :
    query ≠ "" := by
  intro hq
  have hlen := (length_eq_zero_iff _).2 hq
  have h0 : "ALTER TABLE ".length = 12 := rfl
  unfold migrationQuery at h
  split at h <;> split at h <;>
    first
    | (simp only [Except.ok.injEq] at h
       subst h
       simp only [AddColumnQuery, ModifyColumnQuery, RenameColumnQuery, AddReferenceQuery,
         DropReferenceQuery, AddUniqueIndexQuery, DropUniqueIndexQuery,
         String.length_append] at hlen
       omega)
    | (unfold DropColumnQuery at h
       split at h
       · cases h
       · simp only [Except.ok.injEq] at h
         subst h
         simp only [String.length_append] at hlen
         omega)
    | cases h

theorem createColumnMigrations_empty_iff (upper : String → String)
    (ms : List ColumnMigration) (table : Table) (text : String)
    (h : createColumnMigrations upper ms table "" = .ok text) : text = "" ↔ ms = [] := by
  cases ms with
  | nil =>
    simp only [createColumnMigrations, Except.ok.injEq] at h
    simp [h.symm]
  | cons m rest =>
    simp only [createColumnMigrations] at h
    cases hq : migrationQuery upper table m with
    | error e =>
      rw [hq] at h
      cases h
    | ok query =>
      rw [hq] at h
      simp only [String.empty_append] at h
      rw [createColumnMigrations_offset] at h
      cases hr : createColumnMigrations upper rest table "" with
      | error e =>
        rw [hr] at h
        cases h
      | ok text' =>
        rw [hr] at h
        simp only [Except.ok.injEq] at h
        subst h
        simp only [append_eq_empty, reduceCtorEq, iff_false, not_and]
        intro hq'
        exact absurd hq' (migrationQuery_ne_empty upper table m query hq)

theorem sortMigrations_eq_nil_iff (ms : List ColumnMigration) :
    SortMigrationsByOperationPriority ms = [] ↔ ms = [] := by
  rw [← List.length_eq_zero, (perm_sortMigrations ms).length_eq, List.length_eq_zero]

theorem CompareWith_of_state (lower : String → String) (a b : Table) (g g' : RenameMap)
    (ms : List ColumnMigration) (r : RenameMap)
    (h : a.CompareWithState lower b g = .ok (ms, r)) : a.CompareWith lower b g' = .ok ms := by
  have hs : a.CompareWithState lower b g' = a.CompareWithState lower b g := rfl
  unfold Table.CompareWith
  rw [hs, h]

/-- What a pair adds to an empty up script is empty exactly when the comparison of
its actual with its desired table is empty. -/
theorem comparePair_up_empty_iff (lower upper : String → String) (a b : Table)
    (g : RenameMap) (u d : String) (r : RenameMap)
    (h : comparePair lower upper a b ("", "", g) = .ok (u, d, r)) :
    u = "" ↔ a.CompareWith lower b [] = .ok [] := by
  unfold comparePair at h
  cases h1 : a.CompareWithState lower b g with
  | error e => simp [h1] at h
  | ok p1 =>
    obtain ⟨ups, r1⟩ := p1
    rw [CompareWith_of_state lower a b g [] ups r1 h1]
    cases h2 : b.CompareWithState lower a r1 with
    | error e => simp [h1, h2] at h
    | ok p2 =>
      obtain ⟨downs, r2⟩ := p2
      cases h3 : createColumnMigrations upper (SortMigrationsByOperationPriority ups) a "" with
      | error e => simp [h1, h2, h3] at h
      | ok u' =>
        cases h4 : createColumnMigrations upper (SortMigrationsByOperationPriority downs)
            b "" with
        | error e => simp [h1, h2, h3, h4] at h
        | ok d' =>
          simp only [h1, h2, h3, h4, Except.ok.injEq, Prod.mk.injEq] at h
          rw [← h.1, createColumnMigrations_empty_iff upper _ a u' h3,
            sortMigrations_eq_nil_iff]
          simp

theorem renderPairs_up_empty_iff (lower upper : String → String)
    (pairs : List (Table × Table)) :
    ∀ (g : RenameMap) (u d : String) (r : RenameMap),
      renderPairs lower upper pairs ("", "", g) = .ok (u, d, r) →
      (u = "" ↔ ∀ p ∈ pairs, p.1.CompareWith lower p.2 [] = .ok []) := by
  induction pairs with
  | nil =>
    intro g u d r h
    simp only [renderPairs, Except.ok.injEq, Prod.mk.injEq] at h
    simp [h.1.symm]
  | cons p rest ih =>
    intro g u d r h
    obtain ⟨a, b⟩ := p
    simp only [renderPairs] at h
    cases h1 : comparePair lower upper a b ("", "", g) with
    | error e => simp [h1] at h
    | ok s =>
      obtain ⟨u1, d1, r1⟩ := s
      rw [h1] at h
      simp only [] at h
      rw [renderPairs_offset] at h
      cases h2 : renderPairs lower upper rest ("", "", r1) with
      | error e => simp [h2] at h
      | ok s' =>
        obtain ⟨u2, d2, r2⟩ := s'
        simp only [h2, Except.ok.injEq, Prod.mk.injEq] at h
        rw [← h.1, append_eq_empty, comparePair_up_empty_iff lower upper a b g u1 d1 r1 h1,
          ih r1 u2 d2 r2 h2]
        simp

/-! ## The claims about `CreateMigration` -/

theorem CompareWithState_self (lower : String → String) (T : Table) (g : RenameMap)
    (hd : T.DistinctColumnNames) (hne : T.NonEmptyColumnNames) (hr : T.DistinctRelations)
    (hk : UniqueKeys T.IndexToUniqueCols) :
    T.CompareWithState lower T g = .ok ([], []) := by
  have h1 : checkDropped T T.Columns [] = .ok ([], []) := by
    apply checkDropped_nil
    intro col hcol
    exact HasColumn_ne_none_of_mem T [] col hcol
  have h2 : checkNew lower T [] T.Columns = .ok [] := by
    apply checkNew_nil
    intro col hcol
    obtain ⟨j, hj, hj'⟩ := HasColumn_self_nil T hd hne col hcol
    exact ⟨j, col, hj, hj', Equals_refl lower col⟩
  obtain ⟨h3, h4, h5, h6⟩ := compare_rest_nil T T rfl hr (fun _ => rfl) hk hk
  simp [Table.CompareWithState, h1, h2, h3, h4, h5, h6]

theorem mem_alteredPairs (actual desired : List Table) (p : Table × Table)
    (h : p ∈ alteredPairs actual desired) :
    p.1 ∈ actual ∧ p.2 ∈ desired ∧ p.1.Name = p.2.Name ∧
      ∃ k, lastNamed actual k = some p.1 ∧ lastNamed desired k = some p.2 := by
  unfold alteredPairs at h
  rw [List.mem_filterMap] at h
  obtain ⟨d, _, hd⟩ := h
  cases ha : lastNamed actual d.Name with
  | none => simp [ha] at hd
  | some a =>
    cases hb : lastNamed desired d.Name with
    | none => simp [ha, hb] at hd
    | some b =>
      simp only [ha, hb, Option.some.injEq] at hd
      subst hd
      obtain ⟨ha1, ha2⟩ := lastNamed_mem actual d.Name a ha
      obtain ⟨hb1, hb2⟩ := lastNamed_mem desired d.Name b hb
      exact ⟨ha1, hb1, ha2.trans hb2.symm, d.Name, ha, hb⟩

theorem renderPairs_self (lower upper : String → String) (pairs : List (Table × Table))
    (h : ∀ p ∈ pairs, p.1 = p.2 ∧ p.1.DistinctColumnNames ∧ p.1.NonEmptyColumnNames ∧
      p.1.DistinctRelations ∧ UniqueKeys p.1.IndexToUniqueCols) :
    ∀ g, ∃ r, renderPairs lower upper pairs ("", "", g) = .ok ("", "", r) := by
  induction pairs with
  | nil => intro g; exact ⟨g, rfl⟩
  | cons p rest ih =>
    intro g
    obtain ⟨a, b⟩ := p
    obtain ⟨hab, hd, hne, hr, hk⟩ := h (a, b) (List.mem_cons_self _ _)
    simp only at hab hd hne hr hk
    subst hab
    obtain ⟨r, hrest⟩ := ih (fun q hq => h q (List.mem_cons_of_mem _ hq)) []
    refine ⟨r, ?_⟩
    simp only [renderPairs, comparePair, CompareWithState_self lower a _ hd hne hr hk,
      SortMigrationsByOperationPriority, createColumnMigrations]
    exact hrest

/-- C12 (as amended): for every list of tables `L` whose tables each have pairwise
distinct, non-empty column names and references that are pairwise different relations
(their index maps holding each key once, as Go maps do), `CreateMigration` with the
actual schema `L` and the desired schema `L` returns the pair of empty strings. -/
theorem createMigration_identical (lower upper : String → String) (L : List Table)
    (g : RenameMap)
    (hwf : ∀ t ∈ L, t.DistinctColumnNames ∧ t.NonEmptyColumnNames ∧ t.DistinctRelations ∧
      UniqueKeys t.IndexToUniqueCols) :
    CreateMigration lower upper L L g = .ok ("", "") := by
  have hnew : newTablesOf L L = [] := by
    unfold newTablesOf
    rw [List.filter_eq_nil_iff]
    intro d hd
    simp [any_name_of_mem L d hd d.Name rfl]
  have hdel : deletedTablesOf L L = [] := by
    unfold deletedTablesOf
    rw [List.filter_eq_nil_iff]
    intro d hd
    simp [any_name_of_mem L d hd d.Name rfl]
  have hpairs : ∀ p ∈ alteredPairs L L, p.1 = p.2 ∧ p.1.DistinctColumnNames ∧
      p.1.NonEmptyColumnNames ∧ p.1.DistinctRelations ∧ UniqueKeys p.1.IndexToUniqueCols := by
    intro p hp
    obtain ⟨h1, _, _, k, hk1, hk2⟩ := mem_alteredPairs L L p hp
    rw [hk1] at hk2
    exact ⟨Option.some.inj hk2, hwf p.1 h1⟩
  obtain ⟨r, hr⟩ := renderPairs_self lower upper (alteredPairs L L) hpairs g
  rw [CreateMigration_eq, hnew, hdel]
  simp only [List.map_nil, List.reverse_nil, concat, List.foldr_nil, hr, String.append_empty]

/-- C12, witness: the schema of `users` (primary key, unique index, foreign key) and
`orders` (foreign key) against itself. -/
theorem createMigration_identical_witness :
    (∀ t ∈ [usersTable, ordersWithReference], t.DistinctColumnNames ∧
        t.NonEmptyColumnNames ∧ t.DistinctRelations ∧ UniqueKeys t.IndexToUniqueCols) ∧
      CreateMigration asciiLower asciiUpper [usersTable, ordersWithReference]
        [usersTable, ordersWithReference] [] = .ok ("", "") :=
  ⟨by decide,
    createMigration_identical asciiLower asciiUpper [usersTable, ordersWithReference] []
      (by decide)⟩

/-- C12, counterexample: the schema that holds the one table `repeatedNameTable`, two
of whose columns are named `age`, against itself: both scripts modify the column
`age`. -/
theorem createMigration_identical_nonempty :
    CreateMigration asciiLower asciiUpper [repeatedNameTable] [repeatedNameTable] [] =
      .ok ("ALTER TABLE users\n\tMODIFY COLUMN age VARCHAR(255);\n",
        "ALTER TABLE users\n\tMODIFY COLUMN age VARCHAR(255);\n") :=
  rfl

/-! ## New, deleted and altered tables -/

theorem mem_newTablesOf (actual desired : List Table) (t : Table) :
    t ∈ newTablesOf actual desired ↔ t ∈ desired ∧ ∀ a ∈ actual, a.Name ≠ t.Name := by
  unfold newTablesOf
  simp [List.mem_filter]

theorem mem_deletedTablesOf (actual desired : List Table) (t : Table) :
    t ∈ deletedTablesOf actual desired ↔ t ∈ actual ∧ ∀ d ∈ desired, d.Name ≠ t.Name := by
  unfold deletedTablesOf
  simp [List.mem_filter]

/-- The scripts of a migration that returns, in three parts each. -/
theorem CreateMigration_parts (lower upper : String → String) (actual desired : List Table)
    (g : RenameMap) (up down : String)
    (h : CreateMigration lower upper actual desired g = .ok (up, down)) :
    ∃ alterUp alterDown r,
      renderPairs lower upper (alteredPairs actual desired) ("", "", g) =
        .ok (alterUp, alterDown, r) ∧
      up = concat ((newTablesOf actual desired).map CreateTableQuery) ++ alterUp ++
        concat ((deletedTablesOf actual desired).reverse.map DropTableQuery) ∧
      down = concat ((deletedTablesOf actual desired).map CreateTableQuery) ++ alterDown ++
        concat ((newTablesOf actual desired).reverse.map DropTableQuery) := by
  rw [CreateMigration_eq, renderPairs_offset] at h
  cases hr : renderPairs lower upper (alteredPairs actual desired) ("", "", g) with
  | error e => simp [hr] at h
  | ok s =>
    obtain ⟨u, d, r⟩ := s
    simp only [hr, Except.ok.injEq, Prod.mk.injEq] at h
    exact ⟨u, d, r, rfl, h.1.symm, h.2.symm⟩

/-- C14: when `CreateMigration` returns, the up script is the `CREATE TABLE` statements
of the new tables (the desired tables whose name no actual table bears) in declaration
order, then what the altered pairs render, then the `DROP TABLE` statements of the
deleted tables (the actual tables whose name no desired table bears) from the last to
the first; the down script is the `CREATE TABLE` statements of the deleted tables in
order, then what the altered pairs render, then the `DROP TABLE` statements of the new
tables from the last to the first. A table whose name is on both sides is neither new
nor deleted: it is compared, as one side of an altered pair. -/
theorem createMigration_table_statements (lower upper : String → String)
    (actual desired : List Table) (g : RenameMap) (up down : String)
    (h : CreateMigration lower upper actual desired g = .ok (up, down)) :
    (∃ alterUp alterDown r,
      renderPairs lower upper (alteredPairs actual desired) ("", "", g) =
        .ok (alterUp, alterDown, r) ∧
      up = concat ((newTablesOf actual desired).map CreateTableQuery) ++ alterUp ++
        concat ((deletedTablesOf actual desired).reverse.map DropTableQuery) ∧
      down = concat ((deletedTablesOf actual desired).map CreateTableQuery) ++ alterDown ++
        concat ((newTablesOf actual desired).reverse.map DropTableQuery)) ∧
      (∀ t, t ∈ newTablesOf actual desired ↔ t ∈ desired ∧ ∀ a ∈ actual, a.Name ≠ t.Name) ∧
      (∀ t, t ∈ deletedTablesOf actual desired ↔
        t ∈ actual ∧ ∀ d ∈ desired, d.Name ≠ t.Name) ∧
      (∀ p ∈ alteredPairs actual desired,
        p.1 ∈ actual ∧ p.2 ∈ desired ∧ p.1.Name = p.2.Name) ∧
      (∀ t, DropTableQuery t = "DROP TABLE IF EXISTS " ++ t.Name ++ ";\n") :=
  ⟨CreateMigration_parts lower upper actual desired g up down h,
    mem_newTablesOf actual desired, mem_deletedTablesOf actual desired,
    fun p hp => by
      obtain ⟨h1, h2, h3, _⟩ := mem_alteredPairs actual desired p hp
      exact ⟨h1, h2, h3⟩,
    fun _ => rfl⟩

/-- C14, witness: `users` is on both sides (a column is added), `orders` is new and
`pairs` is deleted. -/
theorem createMigration_table_statements_witness :
    CreateMigration asciiLower asciiUpper [usersId, pairsPlain] [usersIdName, ordersTable] [] =
        .ok ("CREATE TABLE orders (\n\tid int,\n\tuser_id int,\n\tPRIMARY KEY ()\n);\n" ++
            "ALTER TABLE users\n\tADD COLUMN name VARCHAR(255);\n" ++
            "DROP TABLE IF EXISTS pairs;\n",
          "CREATE TABLE pairs (\n\tid int,\n\ta int,\n\tb int,\n\tPRIMARY KEY ()\n);\n" ++
            "ALTER TABLE users\n\tDROP COLUMN name;\n" ++
            "DROP TABLE IF EXISTS orders;\n") ∧
      newTablesOf [usersId, pairsPlain] [usersIdName, ordersTable] = [ordersTable] ∧
      deletedTablesOf [usersId, pairsPlain] [usersIdName, ordersTable] = [pairsPlain] ∧
      alteredPairs [usersId, pairsPlain] [usersIdName, ordersTable] =
        [(usersId, usersIdName)] ∧
      ∀ t, t ∈ newTablesOf [usersId, pairsPlain] [usersIdName, ordersTable] ↔
        t ∈ [usersIdName, ordersTable] ∧ ∀ a ∈ [usersId, pairsPlain], a.Name ≠ t.Name :=
  ⟨rfl, by decide, by decide, by decide,
    (createMigration_table_statements asciiLower asciiUpper [usersId, pairsPlain]
      [usersIdName, ordersTable] [] _ _ rfl).2.1⟩

/-! ## The empty up script -/

theorem concat_map_eq_empty (query : Table → String) (tables : List Table)
    (hq : ∀ t, query t ≠ "") : concat (tables.map query) = "" ↔ tables = [] := by
  cases tables with
  | nil => simp [concat]
  | cons t rest =>
    rw [List.map_cons, concat_cons, append_eq_empty]
    simp [hq t]

/-- What `MigrateAndSave` does with the scripts `CreateMigration` returned. -/
theorem MigrateAndSave_of_scripts (lower upper : String → String) (dbTables : List Table)
    (CurrentVersion : Int) (scanned : Option String) (g : RenameMap) (dryRun : Bool)
    (saveDirectory : String) (dst : List Table) (up down : String)
    (h : CreateMigration lower upper dbTables dst g = .ok (up, down)) :
    MigrateAndSave lower upper dbTables CurrentVersion scanned g dryRun saveDirectory dst =
        .ok { printed := ["No migration necessary!\n"], files := [] } ↔ up = "" := by
  unfold MigrateAndSave
  rw [h]
  by_cases hup : up = ""
  · simp [hup]
  · simp only [hup, if_false, iff_false]
    cases dryRun with
    | true =>
      simp only [Bool.not_true, Bool.false_eq_true, if_false]
      intro hc
      simp only [Except.ok.injEq, Effects.mk.injEq] at hc
      have := congrArg List.length hc.1
      simp at this
    | false =>
      simp only [Bool.not_false, if_true]
      cases scanned with
      | none =>
        intro hc
        simp only [Except.ok.injEq, Effects.mk.injEq] at hc
        have := congrArg List.length hc.1
        simp at this
      | some name =>
        intro hc
        simp only [Except.ok.injEq, Effects.mk.injEq] at hc
        have := congrArg List.length hc.1
        simp at this

/-- C13: when `CreateMigration` returns, its up script is the empty string exactly when
there is no new table, no deleted table, and the comparison of the actual with the
desired table is empty for every altered pair; and `MigrateAndSave` reports that no
migration is necessary (and writes nothing else) exactly when that up script is the
empty string, whatever the down script, the version, the scanned name and the dry-run
flag are. -/
theorem createMigration_up_empty_iff (lower upper : String → String)
    (actual desired : List Table) (g : RenameMap) (up down : String)
    (h : CreateMigration lower upper actual desired g = .ok (up, down)) :
    (up = "" ↔
        newTablesOf actual desired = [] ∧ deletedTablesOf actual desired = [] ∧
          ∀ p ∈ alteredPairs actual desired, p.1.CompareWith lower p.2 [] = .ok []) ∧
      ∀ (CurrentVersion : Int) (scanned : Option String) (dryRun : Bool)
        (saveDirectory : String),
        MigrateAndSave lower upper actual CurrentVersion scanned g dryRun saveDirectory
            desired = .ok { printed := ["No migration necessary!\n"], files := [] } ↔
          up = "" := by
  refine ⟨?_, fun CurrentVersion scanned dryRun saveDirectory =>
    MigrateAndSave_of_scripts lower upper actual CurrentVersion scanned g dryRun
      saveDirectory desired up down h⟩
  obtain ⟨alterUp, alterDown, r, hr, hup, _⟩ :=
    CreateMigration_parts lower upper actual desired g up down h
  rw [hup, append_eq_empty, append_eq_empty,
    concat_map_eq_empty CreateTableQuery _ CreateTableQuery_ne_empty,
    concat_map_eq_empty DropTableQuery _ DropTableQuery_ne_empty,
    renderPairs_up_empty_iff lower upper _ g alterUp alterDown r hr, List.reverse_eq_nil_iff]
  constructor
  · rintro ⟨⟨h1, h2⟩, h3⟩
    exact ⟨h1, h3, h2⟩
  · rintro ⟨h1, h2, h3⟩
    exact ⟨⟨h1, h3⟩, h2⟩

/-- C13, witness: the schema of `orders` gains a foreign key; nothing is new or
deleted, the comparison of the pair is not empty and neither is the up script. -/
theorem createMigration_up_empty_iff_witness :
    CreateMigration asciiLower asciiUpper [ordersTable] [ordersSetNull] [] =
        .ok ("ALTER TABLE orders\n\tADD CONSTRAINT `fk.orders.user_id` FOREIGN KEY " ++
            "(user_id) REFERENCES users(id) ON DELETE SET NULL ON UPDATE ;\n",
          "ALTER TABLE orders\n\tDROP CONSTRAINT `fk.orders.user_id`,\n\t" ++
            "DROP INDEX `fk.orders.user_id`;\n") ∧
      (("ALTER TABLE orders\n\tADD CONSTRAINT `fk.orders.user_id` FOREIGN KEY " ++
            "(user_id) REFERENCES users(id) ON DELETE SET NULL ON UPDATE ;\n") = "" ↔
        newTablesOf [ordersTable] [ordersSetNull] = [] ∧
          deletedTablesOf [ordersTable] [ordersSetNull] = [] ∧
          ∀ p ∈ alteredPairs [ordersTable] [ordersSetNull],
            p.1.CompareWith asciiLower p.2 [] = .ok []) :=
  ⟨rfl,
    (createMigration_up_empty_iff asciiLower asciiUpper [ordersTable] [ordersSetNull] [] _ _
      rfl).1⟩

/-! ## Primary key lookup and the rename map -/

/-- C21: `GetPrimaryKeyColumn` returns the column `pk` exactly when `pk` is the first
column in declaration order whose primary-key flag is set (the columns before it do
not have the flag), and returns nil exactly when no column of the table has the flag;
on the table of `TestGetPrimaryKeyColumn` it returns the column `id`. -/
theorem getPrimaryKeyColumn_first (t : Table) :
    (∀ pk, t.GetPrimaryKeyColumn = some pk ↔
        ∃ pre post, t.Columns = pre ++ pk :: post ∧ pk.PrimaryKey = true ∧
          ∀ c ∈ pre, c.PrimaryKey = false) ∧
      (t.GetPrimaryKeyColumn = none ↔ ∀ c ∈ t.Columns, c.PrimaryKey = false) ∧
      usersIdName.GetPrimaryKeyColumn =
        some { Name := "id", ColumnType := "int", PrimaryKey := true } := by
  refine ⟨?_, ?_, rfl⟩
  · intro pk
    constructor
    · intro h
      unfold Table.GetPrimaryKeyColumn at h
      rw [List.find?_eq_some] at h
      obtain ⟨hpk, pre, post, heq, hpre⟩ := h
      exact ⟨pre, post, heq, hpk, fun c hc => by simpa using hpre c hc⟩
    · rintro ⟨pre, post, heq, hpk, hpre⟩
      exact GetPrimaryKeyColumn_middle t pre post pk heq hpre hpk
  · unfold Table.GetPrimaryKeyColumn
    rw [List.find?_eq_none]
    constructor
    · intro h c hc
      simpa using h c hc
    · intro h c hc
      simp [h c hc]

/-- C22: whatever the shared rename map holds when a comparison starts (for instance
the renames a comparison of another table pair left behind), `CompareWith` returns the
operation list it returns starting from the empty map, and leaves the same map behind:
the map is cleared before the first column is looked up. `HasColumn` itself does read
the map: with the rename `id -> user_id` in it, the column `user_id` is found at
position 0 of `users{id, name}`, and with the empty map it is not found. -/
theorem compareWith_resets_rename_map (lower : String → String) (t dst : Table)
    (g : RenameMap) :
    t.CompareWith lower dst g = t.CompareWith lower dst [] ∧
      t.CompareWithState lower dst g = t.CompareWithState lower dst [] ∧
      usersIdName.HasColumn [("id", "user_id")] { idColumn with Name := "user_id" } = some 0 ∧
      usersIdName.HasColumn [] { idColumn with Name := "user_id" } = none :=
  ⟨rfl, rfl, rfl, rfl⟩

/-! ## Safety of the comparison -/

/-- What the first loop emits: a `DROP_COLUMN` of a source column that is not a
primary key, or a `RENAME_COLUMN` from a source primary key to the primary key of
the target. -/
theorem shape_checkDropped (dst : Table) (cols : List Column) :
    ∀ (r : RenameMap) (ms : List ColumnMigration) (r' : RenameMap),
      checkDropped dst cols r = .ok (ms, r') →
      ∀ m ∈ ms,
        (∃ col ∈ cols, col.PrimaryKey = false ∧
          m = NewColumnMigration (.column col) .nil .DROP_COLUMN) ∨
        (∃ col ∈ cols, ∃ pk, col.PrimaryKey = true ∧ dst.GetPrimaryKeyColumn = some pk ∧
          m = NewColumnMigration (.column pk) (.column col) .RENAME_COLUMN) := by
  induction cols with
  | nil =>
    intro r ms r' h m hm
    simp only [checkDropped, Except.ok.injEq, Prod.mk.injEq] at h
    rw [← h.1] at hm
    cases hm
  | cons col rest ih =>
    intro r ms r' h m hm
    have lift : ∀ r0 ms0 r0', checkDropped dst rest r0 = .ok (ms0, r0') → m ∈ ms0 →
        (∃ col' ∈ col :: rest, col'.PrimaryKey = false ∧
          m = NewColumnMigration (.column col') .nil .DROP_COLUMN) ∨
        (∃ col' ∈ col :: rest, ∃ pk, col'.PrimaryKey = true ∧
          dst.GetPrimaryKeyColumn = some pk ∧
          m = NewColumnMigration (.column pk) (.column col') .RENAME_COLUMN) := by
      intro r0 ms0 r0' h0 hm0
      rcases ih r0 ms0 r0' h0 m hm0 with ⟨c, hc, h1, h2⟩ | ⟨c, hc, pk, h1, h2, h3⟩
      · exact Or.inl ⟨c, List.mem_cons_of_mem _ hc, h1, h2⟩
      · exact Or.inr ⟨c, List.mem_cons_of_mem _ hc, pk, h1, h2, h3⟩
    simp only [checkDropped] at h
    split at h
    · exact lift r ms r' h hm
    · split at h
      · rename_i hpk
        split at h
        · cases h
        · rename_i pk hget
          split at h
          · cases h
          · rename_i ms0 r0 h0
            simp only [Except.ok.injEq, Prod.mk.injEq] at h
            rw [← h.1] at hm
            rcases List.mem_cons.1 hm with rfl | hm
            · exact Or.inr ⟨col, List.mem_cons_self _ _, pk, hpk, hget, rfl⟩
            · exact lift _ ms0 r0 h0 hm
      · rename_i hpk
        split at h
        · cases h
        · rename_i ms0 r0 h0
          simp only [Except.ok.injEq, Prod.mk.injEq] at h
          rw [← h.1] at hm
          rcases List.mem_cons.1 hm with rfl | hm
          · exact Or.inl ⟨col, List.mem_cons_self _ _, by simpa using hpk, rfl⟩
          · exact lift _ ms0 r0 h0 hm

/-- What the second loop emits: an `ADD_COLUMN` of a target column that is not a
primary key, or a `MODIFY_COLUMN` of a target column against a source column. -/
theorem shape_checkNew (lower : String → String) (t : Table) (r : RenameMap)
    (cols : List Column) (ms : List ColumnMigration) (h : checkNew lower t r cols = .ok ms) :
    ∀ m ∈ ms,
      (∃ col ∈ cols, col.PrimaryKey = false ∧
        m = NewColumnMigration (.column col) .nil .ADD_COLUMN) ∨
      (∃ col ∈ cols, ∃ old,
        m = NewColumnMigration (.column col) (.column old) .MODIFY_COLUMN) := by
  rw [checkNew_eq] at h
  simp only [Except.ok.injEq] at h
  subst h
  intro m hm
  rw [List.mem_filterMap] at hm
  obtain ⟨col, hcol, hm⟩ := hm
  split at hm
  · split at hm
    · cases hm
    · rename_i hpk
      simp only [Option.some.injEq] at hm
      exact Or.inl ⟨col, hcol, by simpa using hpk, hm.symm⟩
  · rename_i old _
    split at hm <;>
      first
      | (simp only [Option.some.injEq] at hm
         exact Or.inr ⟨col, hcol, old, hm.symm⟩)
      | cases hm

/-- The first loop returns when the target has a primary-key column. -/
theorem checkDropped_ok (dst : Table) (pk : Column) (hpk : dst.GetPrimaryKeyColumn = some pk)
    (cols : List Column) :
    ∀ r, ∃ ms r', checkDropped dst cols r = .ok (ms, r') := by
  induction cols with
  | nil => intro r; exact ⟨[], r, rfl⟩
  | cons col rest ih =>
    intro r
    simp only [checkDropped, hpk]
    cases dst.HasColumn r col with
    | some j => exact ih r
    | none =>
      simp only []
      cases col.PrimaryKey with
      | true =>
        obtain ⟨ms, r', h⟩ := ih ((col.Name, pk.Name) :: r)
        simp [h]
      | false =>
        obtain ⟨ms, r', h⟩ := ih r
        simp [h]

theorem GetPrimaryKeyColumn_isSome (t : Table) (h : ∃ c ∈ t.Columns, c.PrimaryKey = true) :
    ∃ pk, t.GetPrimaryKeyColumn = some pk := by
  cases hget : t.GetPrimaryKeyColumn with
  | some pk => exact ⟨pk, rfl⟩
  | none =>
    unfold Table.GetPrimaryKeyColumn at hget
    rw [List.find?_eq_none] at hget
    obtain ⟨c, hc, hpk⟩ := h
    exact absurd hpk (hget c hc)

/-- The position `HasColumn` returns is a position of the column list. -/
theorem HasColumn_lt (t : Table) (r : RenameMap) (col : Column) (i : Nat)
    (h : t.HasColumn r col = some i) : i < t.Columns.length := by
  obtain ⟨c, hc, _, _⟩ := hasColumnFrom_some r col t.Columns 0 i h
  simp only [Nat.sub_zero] at hc
  exact (List.getElem?_eq_some_iff.1 hc).1

/-- C26: for every source table and every target table that has a primary-key
column, `CompareWith` returns an operation list, whatever the rename map held before:
it dereferences no nil primary-key column and indexes no slice out of range. The
position `HasColumn` returns is always a position of the column list. -/
theorem compareWith_completes (lower : String → String) (t dst : Table) (g : RenameMap)
    (hpk : ∃ c ∈ dst.Columns, c.PrimaryKey = true) :
    (∃ ms, t.CompareWith lower dst g = .ok ms) ∧
      (∀ r col i, t.HasColumn r col = some i → i < t.Columns.length) ∧
      (∀ r col i, dst.HasColumn r col = some i → i < dst.Columns.length) := by
  obtain ⟨pk, hget⟩ := GetPrimaryKeyColumn_isSome dst hpk
  obtain ⟨ms1, r, h1⟩ := checkDropped_ok dst pk hget t.Columns []
  have h2 := checkNew_eq lower t r dst.Columns
  exact ⟨⟨_, compareWith_eq lower t dst g ms1 _ r h1 h2⟩, HasColumn_lt t, HasColumn_lt dst⟩

/-- C26, witness: the tables of `TestCompareWith_AddColumn`. -/
theorem compareWith_completes_witness :
    (∃ c ∈ usersIdName.Columns, c.PrimaryKey = true) ∧
      ∃ ms, usersId.CompareWith asciiLower usersIdName [] = .ok ms :=
  ⟨by decide, (compareWith_completes asciiLower usersId usersIdName [] (by decide)).1⟩

/-- Without a primary-key column in the target the comparison can end in a nil
dereference: the source primary key `id` is missing from `users{name}`, and the
primary-key column of the target, whose name the rename needs, is nil. -/
theorem compareWith_nil_primary_key :
    usersId.CompareWith asciiLower usersNameOnly [] = .error Panic.nilDereference :=
  rfl

/-! ## Rendering a comparison -/

theorem migrationQuery_of_renderable (upper : String → String) (table : Table)
    (m : ColumnMigration) (h : Renderable m = true) :
    ∃ query, migrationQuery upper table m = .ok query := by
  obtain ⟨applyOn, old, op⟩ := m
  cases op <;> cases applyOn <;>
    first
    | (simp [Renderable] at h; done)
    | exact ⟨_, rfl⟩
    | (cases old <;>
        first
        | (simp [Renderable] at h; done)
        | exact ⟨_, rfl⟩)
    | (simp only [Renderable, Bool.not_eq_true'] at h
       simp [migrationQuery, DropColumnQuery, h])

theorem createColumnMigrations_of_renderable (upper : String → String) (table : Table)
    (ms : List ColumnMigration) (h : ∀ m ∈ ms, Renderable m = true) :
    ∀ sb, ∃ text, createColumnMigrations upper ms table sb = .ok text := by
  induction ms with
  | nil => intro sb; exact ⟨sb, rfl⟩
  | cons m rest ih =>
    intro sb
    obtain ⟨query, hq⟩ := migrationQuery_of_renderable upper table m
      (h m (List.mem_cons_self _ _))
    simp only [createColumnMigrations, hq]
    exact ih (fun x hx => h x (List.mem_cons_of_mem _ hx)) _

/-- Every operation of a comparison that returns can be rendered. -/
theorem renderable_of_compare (lower : String → String) (t dst : Table) (g : RenameMap)
    (ms : List ColumnMigration) (h : t.CompareWith lower dst g = .ok ms) :
    ∀ m ∈ ms, Renderable m = true := by
  obtain ⟨ms1, ms2, r, h1, h2, rfl⟩ := compareWith_parts lower t dst g ms h
  intro m hm
  simp only [List.mem_append] at hm
  rcases hm with ((((hm | hm) | hm) | hm) | hm) | hm
  · rcases shape_checkDropped dst t.Columns [] ms1 r h1 m hm with
      ⟨col, _, hpk, rfl⟩ | ⟨col, _, pk, _, _, rfl⟩
    · simp [Renderable, NewColumnMigration, hpk]
    · rfl
  · rcases shape_checkNew lower t r dst.Columns ms2 h2 m hm with
      ⟨col, _, _, rfl⟩ | ⟨col, _, old, rfl⟩
    · rfl
    · rfl
  · obtain ⟨hop, k, v, _, h3, h4⟩ := mem_checkIndexes_kind _ _ _ _ m hm
    obtain ⟨applyOn, old, op⟩ := m
    simp only at hop h3 h4
    subst hop h3 h4
    rfl
  · obtain ⟨hop, k, v, _, h3, h4⟩ := mem_checkIndexes_kind _ _ _ _ m hm
    obtain ⟨applyOn, old, op⟩ := m
    simp only at hop h3 h4
    subst hop h3 h4
    rfl
  · obtain ⟨r1, _, _, rfl⟩ := (mem_checkDroppedReferences dst t.References m).1 hm
    rfl
  · obtain ⟨r1, _, hcase⟩ := (mem_referenceChanges t dst.References m).1 hm
    rcases hcase with ⟨_, rfl⟩ | ⟨old, _, _, rfl⟩
    · rfl
    · rfl

/-- C23: every `DROP_COLUMN` and every `ADD_COLUMN` of a comparison that returns
carries a column that is not a primary key; every `RENAME_COLUMN` carries the primary
key of the target as the new column and a primary key of the source as the old one;
and `createColumnMigrations` renders the operations, prioritized or as returned, to
the end for every table definition: it reaches neither the fatal branch of
`DropColumnQuery` nor a failing type assertion. -/
theorem compareWith_never_drops_primary_key (lower upper : String → String) (t dst : Table)
    (g : RenameMap) (ms : List ColumnMigration) (h : t.CompareWith lower dst g = .ok ms) :
    (∀ m ∈ ms, m.Operation = .DROP_COLUMN ∨ m.Operation = .ADD_COLUMN →
        ∃ c, m.ApplyOn = .column c ∧ c.PrimaryKey = false) ∧
      (∀ m ∈ ms, m.Operation = .RENAME_COLUMN →
        ∃ pk old, m = NewColumnMigration (.column pk) (.column old) .RENAME_COLUMN ∧
          old ∈ t.Columns ∧ old.PrimaryKey = true ∧ dst.GetPrimaryKeyColumn = some pk) ∧
      (∀ table sb, ∃ text,
        createColumnMigrations upper (SortMigrationsByOperationPriority ms) table sb =
          .ok text) ∧
      (∀ table sb, ∃ text, createColumnMigrations upper ms table sb = .ok text) := by
  have hr := renderable_of_compare lower t dst g ms h
  obtain ⟨ms1, ms2, r, h1, h2, rfl⟩ := compareWith_parts lower t dst g ms h
  have k3 := fun m hm =>
    (mem_checkIndexes_kind t .ADD_UNIQUE_INDEX dst.IndexToUniqueCols [] m hm).1
  have k4 := fun m hm =>
    (mem_checkIndexes_kind dst .DROP_UNIQUE_INDEX t.IndexToUniqueCols [] m hm).1
  have k5 := kind_checkDroppedReferences dst t.References
  have k6 := kind_referenceChanges t dst.References
  refine ⟨?_, ?_, ?_, ?_⟩
  · intro m hm hop
    simp only [List.mem_append] at hm
    rcases hm with ((((hm | hm) | hm) | hm) | hm) | hm
    · rcases shape_checkDropped dst t.Columns [] ms1 r h1 m hm with
        ⟨col, _, hpk, rfl⟩ | ⟨col, _, pk, _, _, rfl⟩
      · exact ⟨col, rfl, hpk⟩
      · rcases hop with h0 | h0 <;> cases h0
    · rcases shape_checkNew lower t r dst.Columns ms2 h2 m hm with
        ⟨col, _, hpk, rfl⟩ | ⟨col, _, old, rfl⟩
      · exact ⟨col, rfl, hpk⟩
      · rcases hop with h0 | h0 <;> cases h0
    · have := k3 m hm
      rcases hop with h0 | h0 <;> rw [h0] at this <;> cases this
    · have := k4 m hm
      rcases hop with h0 | h0 <;> rw [h0] at this <;> cases this
    · have := k5 m hm
      rcases hop with h0 | h0 <;> rw [h0] at this <;> cases this
    · rcases k6 m hm with h' | h' <;> rcases hop with h0 | h0 <;> rw [h0] at h' <;> cases h'
  · intro m hm hop
    simp only [List.mem_append] at hm
    rcases hm with ((((hm | hm) | hm) | hm) | hm) | hm
    · rcases shape_checkDropped dst t.Columns [] ms1 r h1 m hm with
        ⟨col, _, hpk, rfl⟩ | ⟨col, hcol, pk, hpk, hget, rfl⟩
      · cases hop
      · exact ⟨pk, col, rfl, hcol, hpk, hget⟩
    · rcases shape_checkNew lower t r dst.Columns ms2 h2 m hm with
        ⟨col, _, hpk, rfl⟩ | ⟨col, _, old, rfl⟩
      · cases hop
      · cases hop
    · have := k3 m hm
      rw [hop] at this; cases this
    · have := k4 m hm
      rw [hop] at this; cases this
    · have := k5 m hm
      rw [hop] at this; cases this
    · rcases k6 m hm with h' | h' <;> rw [hop] at h' <;> cases h'
  · intro table sb
    apply createColumnMigrations_of_renderable
    intro m hm
    exact hr m ((perm_sortMigrations _).mem_iff.1 hm)
  · intro table sb
    exact createColumnMigrations_of_renderable upper table _ hr sb

/-- C23, witness: the comparison of `accountsOld` with `accountsNew`, which renames the
primary key and drops and adds a column. -/
theorem compareWith_never_drops_primary_key_witness :
    ∃ ms, accountsOld.CompareWith asciiLower accountsNew [] = .ok ms ∧
      ∀ m ∈ ms, m.Operation = .DROP_COLUMN ∨ m.Operation = .ADD_COLUMN →
        ∃ c, m.ApplyOn = .column c ∧ c.PrimaryKey = false :=
  ⟨_, rfl,
    (compareWith_never_drops_primary_key asciiLower asciiUpper accountsOld accountsNew [] _
      rfl).1⟩

/-! ## Empty comparisons in both directions -/

theorem checkDropped_nil_inv (dst : Table) (cols : List Column) :
    ∀ (r r' : RenameMap), checkDropped dst cols r = .ok ([], r') →
      r' = r ∧ ∀ col ∈ cols, dst.HasColumn r col ≠ none := by
  induction cols with
  | nil =>
    intro r r' h
    simp only [checkDropped, Except.ok.injEq, Prod.mk.injEq, true_and] at h
    exact ⟨h.symm, fun _ hc => by cases hc⟩
  | cons col rest ih =>
    intro r r' h
    simp only [checkDropped] at h
    split at h
    · rename_i j hj
      obtain ⟨h1, h2⟩ := ih r r' h
      refine ⟨h1, ?_⟩
      intro c hc
      rcases List.mem_cons.1 hc with rfl | hc
      · rw [hj]; simp
      · exact h2 c hc
    · split at h
      · split at h
        · cases h
        · split at h
          · cases h
          · simp at h
      · split at h
        · cases h
        · simp at h

theorem columnMatches_nil (col c : Column) (h : columnMatches [] col c = true) :
    (c.Name = col.Name ∨ col.Name = "") ∧ c.PrimaryKey = col.PrimaryKey := by
  unfold columnMatches at h
  simp only [RenameMap_get_nil, Bool.and_eq_true, Bool.or_eq_true, beq_iff_eq] at h
  exact ⟨h.1.imp id Eq.symm, h.2⟩

theorem HasColumn_some_mem (t : Table) (r : RenameMap) (col : Column)
    (h : t.HasColumn r col ≠ none) :
    ∃ i c, t.HasColumn r col = some i ∧ t.Columns[i]? = some c ∧ c ∈ t.Columns ∧
      columnMatches r col c = true := by
  cases hres : t.HasColumn r col with
  | none => exact absurd hres h
  | some i =>
    obtain ⟨c, hc, _, hm⟩ := hasColumnFrom_some r col t.Columns 0 i hres
    simp only [Nat.sub_zero] at hc
    exact ⟨i, c, rfl, hc, List.getElem?_mem hc, hm⟩

/-- The primary-key columns of a table with a single one are one column. -/
theorem primary_unique (t : Table) (h : t.SinglePrimaryKey) (x y : Column)
    (hx : x ∈ t.Columns) (hy : y ∈ t.Columns) (hpx : x.PrimaryKey = true)
    (hpy : y.PrimaryKey = true) : x = y := by
  obtain ⟨pre, pk, post, heq, _, hpre, hpost⟩ := SinglePrimaryKey_split t h
  have key : ∀ z ∈ t.Columns, z.PrimaryKey = true → z = pk := by
    intro z hz hpz
    rw [heq, List.mem_append, List.mem_cons] at hz
    rcases hz with hz | rfl | hz
    · rw [hpre z hz] at hpz; cases hpz
    · rfl
    · rw [hpost z hz] at hpz; cases hpz
  rw [key x hx hpx, key y hy hpy]

theorem name_unique (t : Table) (h : t.DistinctColumnNames) (x y : Column)
    (hx : x ∈ t.Columns) (hy : y ∈ t.Columns) (hn : x.Name = y.Name) : x = y :=
  List.inj_on_of_nodup_map h hx hy hn

/-- When the comparison of `A` with `B` is empty, so is the comparison of `B` with
`A`. -/
theorem compare_empty_reverse (lower : String → String) (A B : Table) (g g' : RenameMap)
    (hdA : A.DistinctColumnNames) (hneA : A.NonEmptyColumnNames)
    (hpA : ∃ c ∈ A.Columns, c.PrimaryKey = true) (hpB : B.SinglePrimaryKey)
    (hrA : A.DistinctRelations) (hkA : UniqueKeys A.IndexToUniqueCols)
    (hkB : UniqueKeys B.IndexToUniqueCols) (h : A.CompareWith lower B g = .ok []) :
    B.CompareWith lower A g' = .ok [] := by
  obtain ⟨ms1, ms2, r, h1, h2, hnil⟩ := compareWith_parts lower A B g [] h
  have hnil' := hnil.symm
  simp only [List.append_eq_nil] at hnil'
  obtain ⟨⟨⟨⟨⟨e1, e2⟩, e3⟩, e4⟩, e5⟩, e6⟩ := hnil'
  subst e1 e2
  obtain ⟨hr, hfound⟩ := checkDropped_nil_inv B A.Columns [] r h1
  subst hr
  rw [checkNew_eq] at h2
  simp only [Except.ok.injEq, List.filterMap_eq_nil_iff] at h2
  -- every column of A has its namesake in B
  have hAB : ∀ a ∈ A.Columns, ∃ i b, B.HasColumn [] a = some i ∧ B.Columns[i]? = some b ∧
      b ∈ B.Columns ∧ b.Name = a.Name ∧ b.PrimaryKey = a.PrimaryKey := by
    intro a ha
    obtain ⟨i, b, hi, hb, hbm, hm⟩ := HasColumn_some_mem B [] a (hfound a ha)
    obtain ⟨hn, hp⟩ := columnMatches_nil a b hm
    exact ⟨i, b, hi, hb, hbm, hn.resolve_right (hneA a ha), hp⟩
  -- every column of B is found in A
  have hBA : ∀ b ∈ B.Columns, A.Columns.find? (columnMatches [] b) ≠ none := by
    intro b hb hnone
    have hb2 := h2 b hb
    rw [hnone] at hb2
    have hbpk : b.PrimaryKey = true := by
      by_contra hc
      simp [hc] at hb2
    obtain ⟨a0, ha0, hpa0⟩ := hpA
    obtain ⟨_, b', _, _, hb'm, hb'n, hb'p⟩ := hAB a0 ha0
    have hbb : b' = b := primary_unique B hpB b' b hb'm hb (hb'p.trans hpa0) hbpk
    subst hbb
    have := List.find?_eq_none.1 hnone a0 ha0
    simp [columnMatches, hb'n, hb'p] at this
  have hd : checkDropped A B.Columns [] = .ok ([], []) := by
    apply checkDropped_nil
    intro b hb hnone
    have := HasColumn_find? A [] b
    rw [hnone] at this
    exact hBA b hb this
  have hn : checkNew lower B [] A.Columns = .ok [] := by
    apply checkNew_nil
    intro a ha
    obtain ⟨i, b, hi, hbi, hbm, hbn, hbp⟩ := hAB a ha
    refine ⟨i, b, hi, hbi, ?_⟩
    have hb2 := h2 b hbm
    cases hf : A.Columns.find? (columnMatches [] b) with
    | none => exact absurd hf (hBA b hbm)
    | some a' =>
      rw [hf] at hb2
      have ha'm : a' ∈ A.Columns := List.mem_of_find?_eq_some hf
      have hm : columnMatches [] b a' = true := List.find?_some hf
      obtain ⟨hn', _⟩ := columnMatches_nil b a' hm
      have hbne : b.Name ≠ "" := by rw [hbn]; exact hneA a ha
      have haa : a' = a := name_unique A hdA a' a ha'm ha ((hn'.resolve_right hbne).trans hbn)
      subst haa
      apply Equals_symm
      by_contra hc
      simp [hc] at hb2
  -- indexes
  rw [checkIndexes_eq_map _ _ _ hkB] at e3
  rw [checkIndexes_eq_map _ _ _ hkA] at e4
  simp only [List.map_eq_nil_iff, List.filter_eq_nil_iff] at e3 e4
  have hi1 : checkIndexes B .ADD_UNIQUE_INDEX A.IndexToUniqueCols [] = [] := by
    rw [checkIndexes_eq_map _ _ _ hkA]
    simp only [List.map_eq_nil_iff, List.filter_eq_nil_iff]
    exact e4
  have hi2 : checkIndexes A .DROP_UNIQUE_INDEX B.IndexToUniqueCols [] = [] := by
    rw [checkIndexes_eq_map _ _ _ hkB]
    simp only [List.map_eq_nil_iff, List.filter_eq_nil_iff]
    exact e3
  -- references
  rw [checkDroppedReferences_eq_map] at e5
  simp only [List.map_eq_nil_iff, List.filter_eq_nil_iff] at e5
  have e6' : ∀ rB ∈ B.References, ∃ old, A.References.find? (fun r2 => sameRelation rB r2) =
      some old ∧ old.UpdateOption = rB.UpdateOption ∧ old.DeleteOption = rB.DeleteOption := by
    intro rB hrB
    unfold referenceChanges at e6
    rw [List.filterMap_eq_nil_iff] at e6
    have := e6 rB hrB
    cases hf : A.References.find? (fun r2 => sameRelation rB r2) with
    | none => simp [hf] at this
    | some old =>
      simp only [hf, ite_eq_right_iff, reduceCtorEq, imp_false, Bool.or_eq_true, bne_iff_ne,
        ne_eq, not_or, not_not] at this
      exact ⟨old, rfl, this.1, this.2⟩
  have hr1 : checkDroppedReferences A B.References = [] := by
    rw [checkDroppedReferences_eq_map]
    simp only [List.map_eq_nil_iff, List.filter_eq_nil_iff]
    intro rB hrB
    obtain ⟨old, hf, _, _⟩ := e6' rB hrB
    have : A.References.any (fun r2 => sameRelation rB r2) = true :=
      List.any_eq_true.2 ⟨old, List.mem_of_find?_eq_some hf, List.find?_some hf⟩
    simp [this]
  have hr2 : referenceChanges B A.References = [] := by
    unfold referenceChanges
    rw [List.filterMap_eq_nil_iff]
    intro rA hmA
    have hany : B.References.any (fun r2 => sameRelation rA r2) = true := by
      have := e5 rA hmA
      simpa using this
    obtain ⟨rB, hrB, hs⟩ := List.any_eq_true.1 hany
    cases hf : B.References.find? (fun r2 => sameRelation rA r2) with
    | none =>
      have := List.find?_eq_none.1 hf rB hrB
      exact absurd hs this
    | some rB' =>
      have hrB' : rB' ∈ B.References := List.mem_of_find?_eq_some hf
      have hs' : sameRelation rA rB' = true := List.find?_some hf
      obtain ⟨old, hfo, hu, hdel⟩ := e6' rB' hrB'
      have holdm : old ∈ A.References := List.mem_of_find?_eq_some hfo
      have hso : sameRelation rB' old = true := List.find?_some hfo
      have : old = rA := relation_unique A hrA old rA holdm hmA
        (sameRelation_symm' rA old (sameRelation_trans rA rB' old hs' hso))
      subst this
      simp [hu, hdel]
  rw [compareWith_eq lower B A g' [] [] [] hd hn, hi1, hi2, hr1, hr2]
  rfl

/-! ## The claim about empty comparisons -/

/-- What a pair adds to an empty down script is empty exactly when the comparison of
its desired with its actual table is empty. -/
theorem comparePair_down_empty_iff (lower upper : String → String) (a b : Table)
    (g : RenameMap) (u d : String) (r : RenameMap)
    (h : comparePair lower upper a b ("", "", g) = .ok (u, d, r)) :
    d = "" ↔ b.CompareWith lower a [] = .ok [] := by
  unfold comparePair at h
  cases h1 : a.CompareWithState lower b g with
  | error e => simp [h1] at h
  | ok p1 =>
    obtain ⟨ups, r1⟩ := p1
    cases h2 : b.CompareWithState lower a r1 with
    | error e => simp [h1, h2] at h
    | ok p2 =>
      obtain ⟨downs, r2⟩ := p2
      rw [CompareWith_of_state lower b a r1 [] downs r2 h2]
      cases h3 : createColumnMigrations upper (SortMigrationsByOperationPriority ups) a "" with
      | error e => simp [h1, h2, h3] at h
      | ok u' =>
        cases h4 : createColumnMigrations upper (SortMigrationsByOperationPriority downs)
            b "" with
        | error e => simp [h1, h2, h3, h4] at h
        | ok d' =>
          simp only [h1, h2, h3, h4, Except.ok.injEq, Prod.mk.injEq] at h
          rw [← h.2.1, createColumnMigrations_empty_iff upper _ b d' h4,
            sortMigrations_eq_nil_iff]
          simp

theorem SinglePrimaryKey_exists (t : Table) (h : t.SinglePrimaryKey) :
    ∃ c ∈ t.Columns, c.PrimaryKey = true := by
  obtain ⟨pre, pk, post, heq, hpk, _, _⟩ := SinglePrimaryKey_split t h
  exact ⟨pk, by rw [heq]; simp, hpk⟩

/-- C27: for tables `A` and `B` that each have exactly one primary-key column,
pairwise distinct non-empty column names and pairwise different foreign-key relations
(their index maps holding each key once, as Go maps do), `A.CompareWith(B)` is empty
if and only if `B.CompareWith(A)` is empty, whatever the rename map held before either
call; hence, when `CreateMigration` compares the pair, an empty addition to the up
script comes with an empty addition to the down script. -/
theorem compareWith_empty_iff (lower upper : String → String) (A B : Table)
    (g g' : RenameMap) (hA : A.WellFormed) (hB : B.WellFormed) :
    (A.CompareWith lower B g = .ok [] ↔ B.CompareWith lower A g' = .ok []) ∧
      ∀ up down r, comparePair lower upper A B ("", "", g) = .ok (up, down, r) →
        up = "" → down = "" := by
  obtain ⟨hdA, hneA, hpA, hrA, hkA⟩ := hA
  obtain ⟨hdB, hneB, hpB, hrB, hkB⟩ := hB
  have hAB : ∀ g1 g2, A.CompareWith lower B g1 = .ok [] → B.CompareWith lower A g2 = .ok [] :=
    fun g1 g2 h => compare_empty_reverse lower A B g1 g2 hdA hneA
      (SinglePrimaryKey_exists A hpA) hpB hrA hkA hkB h
  have hBA : ∀ g1 g2, B.CompareWith lower A g1 = .ok [] → A.CompareWith lower B g2 = .ok [] :=
    fun g1 g2 h => compare_empty_reverse lower B A g1 g2 hdB hneB
      (SinglePrimaryKey_exists B hpB) hpA hrB hkB hkA h
  refine ⟨⟨hAB g g', hBA g' g⟩, ?_⟩
  intro up down r h hup
  rw [comparePair_down_empty_iff lower upper A B g up down r h]
  exact hAB [] [] ((comparePair_up_empty_iff lower upper A B g up down r h).1 hup)

/-- C27, witness: `users{id PK, name}` without and with a unique index and a
reference. -/
theorem compareWith_empty_iff_witness :
    usersIdName.WellFormed ∧ usersTable.WellFormed ∧
      (usersIdName.CompareWith asciiLower usersTable [] = .ok [] ↔
        usersTable.CompareWith asciiLower usersIdName [("id", "user_id")] = .ok []) :=
  ⟨by decide, by decide,
    (compareWith_empty_iff asciiLower asciiUpper usersIdName usersTable []
      [("id", "user_id")] (by decide) (by decide)).1⟩

/-! ## Statements rendered twice, and the order of a map -/

set_option maxRecDepth 100000

/-- C28 (divergence): the target `users{id PK, email}` adds the non-primary column
`email`, which carries the unique flag, together with the index `users.email` on it.
The comparison holds both an `ADD_COLUMN` of `email` and an `ADD_UNIQUE_INDEX`, and
the rendered statements add the constraint `uc.users.email` on `email` twice: inline
in `AddColumnQuery` and by `AddUniqueIndexQuery`. `AddColumnQuery` ends with the
inline constraint for every column that is not a primary key and carries the unique
flag. -/
theorem unique_constraint_added_twice :
    usersId.CompareWith asciiLower usersEmail [] =
        .ok [NewColumnMigration (.column emailColumn) .nil .ADD_COLUMN,
          NewColumnMigration (.str "users.email") (.strs ["email"]) .ADD_UNIQUE_INDEX] ∧
      createColumnMigrations asciiUpper
          (SortMigrationsByOperationPriority
            [NewColumnMigration (.column emailColumn) .nil .ADD_COLUMN,
              NewColumnMigration (.str "users.email") (.strs ["email"]) .ADD_UNIQUE_INDEX])
          usersId "" =
        .ok ("ALTER TABLE users\n\tADD COLUMN email VARCHAR(255),\n\t" ++
          "ADD CONSTRAINT `uc.users.email` UNIQUE (email);\n" ++
          "ALTER TABLE users\n\tADD CONSTRAINT `uc.users.email` UNIQUE (email);\n") ∧
      AddColumnQuery asciiUpper usersId emailColumn =
        "ALTER TABLE users\n\tADD COLUMN email VARCHAR(255),\n\t" ++
          "ADD CONSTRAINT `uc.users.email` UNIQUE (email);\n" ∧
      AddUniqueIndexQuery usersId "users.email" ["email"] =
        "ALTER TABLE users\n\tADD CONSTRAINT `uc.users.email` UNIQUE (email);\n" ∧
      ∀ (upper : String → String) (t : Table) (c : Column), c.PrimaryKey = false →
        c.UniqueIndex = true →
        ∃ head, AddColumnQuery upper t c =
          head ++ ",\n\tADD CONSTRAINT `uc." ++ t.Name ++ "." ++ c.Name ++ "` UNIQUE (" ++
            c.Name ++ ");\n" := by
  refine ⟨rfl, rfl, rfl, rfl, ?_⟩
  intro upper t c hpk hu
  refine ⟨"ALTER TABLE " ++ t.Name ++ "\n\t" ++ "ADD COLUMN " ++ c.Name ++ " " ++
    upper c.ColumnType ++ (if c.Null = "NO" then " NOT NULL" else "") ++
    (if c.Extra ≠ "" then " " ++ c.Extra else "") ++
    (if c.DefaultValue.Valid then " " ++ "DEFAULT " ++ c.DefaultValue.String else ""), ?_⟩
  apply String.ext
  simp only [AddColumnQuery, hpk, hu, Bool.false_eq_true, if_false, Bool.not_false,
    Bool.and_self, if_true, String.data_append, List.append_assoc]
  rfl

/-- C29 (divergence): the actual table `accounts{id PK, owner}` has the reference on
`owner` and the unique index `accounts.owner` on `owner`; the desired table has
neither. The prioritized comparison drops the foreign key and then the index, and the
statements rendered for the index, with the actual table as table definition, drop
the foreign key once more and add it back: the up script ends with
`AddReferenceQuery` of the reference the migration drops. For every table with a
reference on the column of a one-column index, the rendering of `DROP_UNIQUE_INDEX`
ends with `AddReferenceQuery` of that reference. -/
theorem dropped_foreign_key_added_back :
    accountsOwned.CompareWith asciiLower accountsFreed [] =
        .ok [NewColumnMigration (.str "accounts.owner") (.strs ["owner"]) .DROP_UNIQUE_INDEX,
          NewColumnMigration (.reference ownerReference) .nil .DROP_FOREIGN_KEY] ∧
      SortMigrationsByOperationPriority
          [NewColumnMigration (.str "accounts.owner") (.strs ["owner"]) .DROP_UNIQUE_INDEX,
            NewColumnMigration (.reference ownerReference) .nil .DROP_FOREIGN_KEY] =
        [NewColumnMigration (.reference ownerReference) .nil .DROP_FOREIGN_KEY,
          NewColumnMigration (.str "accounts.owner") (.strs ["owner"]) .DROP_UNIQUE_INDEX] ∧
      createColumnMigrations asciiUpper
          [NewColumnMigration (.reference ownerReference) .nil .DROP_FOREIGN_KEY,
            NewColumnMigration (.str "accounts.owner") (.strs ["owner"]) .DROP_UNIQUE_INDEX]
          accountsOwned "" =
        .ok (DropReferenceQuery ownerReference ++ dropUniqueNotice ++
          DropReferenceQuery ownerReference ++
          "ALTER TABLE accounts\n\tDROP CONSTRAINT `uc.accounts.owner`;\n" ++
          AddReferenceQuery ownerReference) ∧
      AddReferenceQuery ownerReference =
        "ALTER TABLE accounts\n\tADD CONSTRAINT `fk.accounts.owner` FOREIGN KEY (owner) " ++
          "REFERENCES people(id) ON DELETE RESTRICT ON UPDATE CASCADE;\n" ∧
      ∀ (upper : String → String) (table : Table) (indexName c : String) (r : Reference),
        referenceOn table c = some r →
        migrationQuery upper table
            (NewColumnMigration (.str indexName) (.strs [c]) .DROP_UNIQUE_INDEX) =
          .ok (dropUniqueNotice ++ DropReferenceQuery r ++
            ("ALTER TABLE " ++ table.Name ++ "\n\tDROP CONSTRAINT `uc." ++ indexName ++
              "`;\n") ++ AddReferenceQuery r) := by
  refine ⟨rfl, rfl, rfl, rfl, ?_⟩
  intro upper table indexName c r hr
  simp only [migrationQuery, NewColumnMigration, DropUniqueIndexQuery, writeEntangled, hr,
    Except.ok.injEq]
  apply String.ext
  simp only [List.length_singleton, gt_iff_lt, Nat.lt_one_iff, Nat.pos_of_ne_zero, if_true,
    String.data_append, List.append_assoc, String.append_empty]
  rfl

/-- C25 (divergence): `accountsNew` and `accountsNewReordered` are one Go value: the
same name, columns and references, and index maps with the same two entries, visited
in the two possible orders. `CreateTableQuery` returns two different texts for them,
the `UNIQUE` clauses being written in the order of the visit, and `CompareWith`
returns the two `ADD_UNIQUE_INDEX` operations in the order of the visit. -/
theorem output_follows_map_order :
    accountsNewReordered =
        { accountsNew with IndexToUniqueCols := accountsNew.IndexToUniqueCols.reverse } ∧
      UniqueKeys accountsNew.IndexToUniqueCols ∧
      UniqueKeys accountsNewReordered.IndexToUniqueCols ∧
      accountsNew.IndexToUniqueCols.Perm accountsNewReordered.IndexToUniqueCols ∧
      CreateTableQuery accountsNew =
        "CREATE TABLE accounts (\n\taccount_id int,\n\tage bigint,\n\tbank bigint,\n\t" ++
          "PRIMARY KEY (),\n\tCONSTRAINT `uc.age` UNIQUE (age, bank),\n\t" ++
          "CONSTRAINT `uc.bank` UNIQUE (bank),\n\tCONSTRAINT `fk.accounts.bank` " ++
          "FOREIGN KEY (bank) REFERENCES banks(id) ON DELETE CASCADE ON UPDATE CASCADE\n);\n" ∧
      CreateTableQuery accountsNewReordered =
        "CREATE TABLE accounts (\n\taccount_id int,\n\tage bigint,\n\tbank bigint,\n\t" ++
          "PRIMARY KEY (),\n\tCONSTRAINT `uc.bank` UNIQUE (bank),\n\t" ++
          "CONSTRAINT `uc.age` UNIQUE (age, bank),\n\tCONSTRAINT `fk.accounts.bank` " ++
          "FOREIGN KEY (bank) REFERENCES banks(id) ON DELETE CASCADE ON UPDATE CASCADE\n);\n" ∧
      CreateTableQuery accountsNew ≠ CreateTableQuery accountsNewReordered ∧
      ∃ ms ms', accountsOld.CompareWith asciiLower accountsNew [] = .ok ms ∧
        accountsOld.CompareWith asciiLower accountsNewReordered [] = .ok ms' ∧
        ofKind .ADD_UNIQUE_INDEX ms =
          [NewColumnMigration (.str "age") (.strs ["age", "bank"]) .ADD_UNIQUE_INDEX,
            NewColumnMigration (.str "bank") (.strs ["bank"]) .ADD_UNIQUE_INDEX] ∧
        ofKind .ADD_UNIQUE_INDEX ms' =
          [NewColumnMigration (.str "bank") (.strs ["bank"]) .ADD_UNIQUE_INDEX,
            NewColumnMigration (.str "age") (.strs ["age", "bank"]) .ADD_UNIQUE_INDEX] ∧
        ms ≠ ms' :=
  ⟨rfl, by decide, by decide, by decide, rfl, rfl, by decide, _, _, rfl, rfl, rfl, rfl,
    by decide⟩

/-! ## `Pluralize` -/

theorem hasSuffix_length (s suffix : String) (h : hasSuffix s suffix = true) :
    suffix.data.length ≤ s.data.length := by
  unfold hasSuffix at h
  exact (List.isSuffixOf_iff_suffix.1 h).length_le

theorem dropLast_ok (word : String) (n : Nat) (h : n ≤ word.data.length) :
    ∃ stem, dropLast word n = .ok stem := by
  unfold dropLast
  rw [if_neg (by omega)]
  exact ⟨_, rfl⟩

theorem eq_y_of_suffix (s : String) (h : hasSuffix s "y" = true) (hlen : s.data.length < 2) :
    s = "y" := by
  unfold hasSuffix at h
  obtain ⟨pre, hpre⟩ := List.isSuffixOf_iff_suffix.1 h
  have hl := congrArg List.length hpre
  rw [List.length_append] at hl
  have h1 : "y".data.length = 1 := rfl
  have hpre0 : pre = [] := List.length_eq_zero.1 (by omega)
  subst hpre0
  apply String.ext
  rw [← hpre]
  rfl

/-- `Pluralize` panics exactly on the words whose lower-case form is `y`. -/
theorem Pluralize_error_iff (lower : String → String)
    (hlen : ∀ w, (lower w).data.length = w.data.length) (word : String) :
    (∃ p, Pluralize lower word = .error p) ↔ lower word = "y" := by
  have hrest : ∀ rest : Except Panic String,
      rest = (if (hasSuffix (lower word) "o" || hasSuffix (lower word) "ch" ||
          hasSuffix (lower word) "sh") = true then
        .ok (word ++ "es")
      else if (hasSuffix (lower word) "f" || hasSuffix (lower word) "fe") = true then
        if hasSuffix (lower word) "fe" = true then
          match dropLast word 2 with
          | .error e => .error e
          | .ok stem => .ok (stem ++ "ves")
        else
          match dropLast word 1 with
          | .error e => .error e
          | .ok stem => .ok (stem ++ "ves")
      else
        .ok (word ++ "s")) → ∃ text, rest = .ok text := by
    intro rest hr
    subst hr
    split
    · exact ⟨_, rfl⟩
    · split
      · rename_i hf
        split
        · rename_i hfe
          have := hasSuffix_length _ _ hfe
          have h2 : "fe".data.length = 2 := rfl
          obtain ⟨stem, hstem⟩ := dropLast_ok word 2 (by rw [← hlen word]; omega)
          rw [hstem]
          exact ⟨_, rfl⟩
        · rename_i hfe
          have hf' : hasSuffix (lower word) "f" = true := by
            simp only [Bool.or_eq_true] at hf
            exact hf.resolve_right hfe
          have := hasSuffix_length _ _ hf'
          have h1 : "f".data.length = 1 := rfl
          obtain ⟨stem, hstem⟩ := dropLast_ok word 1 (by rw [← hlen word]; omega)
          rw [hstem]
          exact ⟨_, rfl⟩
      · exact ⟨_, rfl⟩
  unfold Pluralize
  simp only []
  split
  · rename_i hs
    constructor
    · rintro ⟨p, hp⟩
      cases hp
    · intro hy
      rw [hy] at hs
      exact absurd hs (by decide)
  · rename_i hs
    split
    · rename_i hy
      split
      · rename_i hl
        exact ⟨fun _ => eq_y_of_suffix _ hy hl, fun _ => ⟨_, rfl⟩⟩
      · rename_i hl
        have hne : lower word ≠ "y" := by
          intro h
          rw [h] at hl
          exact hl (by decide)
        constructor
        · rintro ⟨p, hp⟩
          exfalso
          split at hp
          · rename_i hnone
            rw [List.getElem?_eq_none_iff] at hnone
            omega
          · split at hp
            · obtain ⟨stem, hstem⟩ := dropLast_ok word 1 (by rw [← hlen word]; omega)
              rw [hstem] at hp
              cases hp
            · obtain ⟨text, ht⟩ := hrest _ rfl
              rw [ht] at hp
              cases hp
        · intro h
          exact absurd h hne
    · rename_i hy
      have hne : lower word ≠ "y" := by
        intro h
        rw [h] at hy
        exact hy (by decide)
      constructor
      · rintro ⟨p, hp⟩
        obtain ⟨text, ht⟩ := hrest _ rfl
        rw [ht] at hp
        cases hp
      · intro h
        exact absurd h hne

theorem asciiLower_length (w : String) : (asciiLower w).data.length = w.data.length := by
  simp [asciiLower]

/-- C30 (divergence): `Pluralize("y")` and `Pluralize("Y")` end in an index out of
range: the lowered word ends in `y`, and `lowered[len(lowered)-2]` is `lowered[-1]`.
The empty string is pluralized to `s` and `city` to `cities`; with the ASCII
lower-casing the function panics exactly on the words whose lower-case form is `y`. -/
theorem pluralize_index_out_of_range :
    Pluralize asciiLower "y" = .error Panic.indexOutOfRange ∧
      Pluralize asciiLower "Y" = .error Panic.indexOutOfRange ∧
      Pluralize asciiLower "" = .ok "s" ∧
      Pluralize asciiLower "city" = .ok "cities" ∧
      ∀ word, (∃ p, Pluralize asciiLower word = .error p) ↔ asciiLower word = "y" :=
  ⟨rfl, rfl, rfl, rfl, Pluralize_error_iff asciiLower asciiLower_length⟩

/-! ## The auto-increment check -/

theorem autoIncrementCheck_initial (lower : String → String) (table : Table)
    (field : StructField) : autoIncrementCheck lower (initialColumn table field) = false := by
  have h : contains "" "auto_increment" = false := rfl
  simp [autoIncrementCheck, initialColumn, h]

/-- C24 (divergence): the auto-increment check of `parseStructField` is evaluated on
the column as the first statements fill it, whose `Extra` is the empty string, so its
condition is false for every table and field and the function is its body behind the
check. The field `Code string` with the tag `type:varchar(255);auto_increment` is
parsed into the column `code varchar(255)` with the extra `auto_increment`, on which
the condition of the check is true; the run is not aborted. -/
theorem auto_increment_check_never_fires :
    (∀ (lower : String → String) (table : Table) (field : StructField),
        autoIncrementCheck lower (initialColumn table field) = false) ∧
      (∀ (lower upper : String → String) (Relations : List Reference) (table : Table)
        (field : StructField),
        parseStructField lower upper Relations table field =
          parseFieldBody lower upper Relations table field (initialColumn table field)) ∧
      parseStructField asciiLower asciiUpper [] { Name := "Product" } codeField =
        .ok (some { TableName := "products", Name := "code", ColumnType := "varchar(255)",
                    Null := "YES", Extra := "auto_increment" },
          { Name := "Product" }, []) ∧
      autoIncrementCheck asciiLower
        { TableName := "products", Name := "code", ColumnType := "varchar(255)",
          Null := "YES", Extra := "auto_increment" } = true := by
  refine ⟨autoIncrementCheck_initial, ?_, rfl, rfl⟩
  intro lower upper Relations table field
  unfold parseStructField
  rw [autoIncrementCheck_initial]
  rfl

end schema
